import Mathlib

/-! # ConvexHullFiltering: a verification development

Shallow embedding of `src/convexHull/filter_convex_hulls.{h,cpp}` and of
`FilterConvexHulls` in `src/convexHull/convexHull.cpp`.

The program is embedded twice.  In the namespaces `types` and `utils` and at
top level it runs over exact arithmetic; in the namespace `ieee` the same
program runs over binary64, every operation rounded (`ieee.rnd`, theorem
`rnd_spec`).  The claims that describe what the code computes, or that are
scoped to exact arithmetic, are proved over the exact program; for the claims
that rounding breaks, the binary64 program is evaluated at an explicit input.

Modelling conventions of the exact program.

* A finite `double` is an exact rational (`ℚ`): rounding is not modelled.
* The one place where the program can divide by zero is the ratio
  `intersection_area / convex_hull_area` of `FilterConvexHulls` (areas are
  absolute values, so the quotient is then `+inf` or `NaN`).  There a `double`
  is an `Option ℚ`: `none` stands for a non-finite value, which stays
  non-finite under `+=` and for which `overlap_ratio <= .5` is false.
* `atan2` is only used inside the comparator of `std::sort`, that is, only the
  order of two angles is observed.  `atan2Key` is a rational stand-in that
  orders directions exactly as `atan2` does (theorem `atan2Key_le_iff`).
* `std::sort` is modelled by a stable insertion sort; for elements with equal
  angle, the order `std::sort` produces is unspecified.
* By-reference output parameters are returned next to the `bool` result.
-/

namespace types

/-- The struct `types::Point`. -/
structure Point where
  x : ℚ
  y : ℚ
deriving DecidableEq, Repr, Inhabited

/-- The struct `types::Line`: a directed segment. -/
structure Line where
  start : Point
  end_ : Point
deriving DecidableEq, Repr, Inhabited

/-- The class `types::ConvexHull`, with the default member initialisers
`id_ = 0` and `area_ = 0` of the header. -/
structure ConvexHull where
  id_ : Int := 0
  vertices_ : List Point := []
  lines_ : List Line := []
  area_ : ℚ := 0
deriving DecidableEq, Repr, Inhabited

end types

open types

namespace utils

/-- The accumulation loop at the head of `SortVertices`: the arithmetic mean
of the coordinates, each summand divided by `n_vertices` before it is added. -/
def vertexMean (vertices : List Point) : ℚ × ℚ :=
  vertices.foldl
    (fun m vertice =>
      (m.1 + vertice.x / (vertices.length : ℚ), m.2 + vertice.y / (vertices.length : ℚ)))
    (0, 0)

/-- Rational stand-in for `atan2 y x`: `0` at the origin, `1 - x / (|x| + |y|)`
in the closed upper half plane (values in `[0, 2]`, `2` on the negative
x-axis where `atan2` is `π`) and `x / (|x| + |y|) - 1` in the open lower half
plane (values in `(-2, 0)`).  It is strictly increasing in the angle. -/
def atan2Key (y x : ℚ) : ℚ :=
  if x = 0 ∧ y = 0 then 0
  else if 0 ≤ y then 1 - x / (|x| + |y|)
  else x / (|x| + |y|) - 1

/-- The angle the comparator of `SortVertices` computes for a vertex. -/
def vertexAngle (x_mean y_mean : ℚ) (vertice : Point) : ℚ :=
  atan2Key (vertice.y - y_mean) (vertice.x - x_mean)

/-- The function `utils::SortVertices`: sort ascending by angle around the mean. -/
def SortVertices (vertices : List Point) : List Point :=
  let m := vertexMean vertices
  vertices.insertionSort (fun vertice1 vertice2 => vertexAngle m.1 m.2 vertice1 ≤ vertexAngle m.1 m.2 vertice2)

/-- The function `utils::IsPointLeftSideOfLine`. -/
def IsPointLeftSideOfLine (p : Point) (line : Line) : Bool :=
  let px := p.x - line.start.x
  let py := p.y - line.start.y
  let ex := line.end_.x - line.start.x
  let ey := line.end_.y - line.start.y
  decide (ex * py - ey * px > 0)

/-- The function `utils::IsPointInsideConvexHull`. -/
def IsPointInsideConvexHull (p : Point) (convex_hull : ConvexHull) : Bool :=
  convex_hull.lines_.all (fun line => IsPointLeftSideOfLine p line)

/-- The denominator `d` of `LineSegmentIntersection`. -/
def segD (line1 line2 : Line) : ℚ :=
  (line2.end_.y - line2.start.y) * (line1.end_.x - line1.start.x)
    - (line2.end_.x - line2.start.x) * (line1.end_.y - line1.start.y)

/-- The parameter `uA` of `LineSegmentIntersection`. -/
def segUA (line1 line2 : Line) : ℚ :=
  ((line2.end_.x - line2.start.x) * (line1.start.y - line2.start.y)
    - (line2.end_.y - line2.start.y) * (line1.start.x - line2.start.x)) / segD line1 line2

/-- The parameter `uB` of `LineSegmentIntersection`. -/
def segUB (line1 line2 : Line) : ℚ :=
  ((line1.end_.x - line1.start.x) * (line1.start.y - line2.start.y)
    - (line1.end_.y - line1.start.y) * (line1.start.x - line2.start.x)) / segD line1 line2

/-- The function `utils::LineSegmentIntersection`; the second component is the
value of the reference parameter `intersection` on return. -/
def LineSegmentIntersection (line1 line2 : Line) (intersection : Point) : Bool × Point :=
  let d := segD line1 line2
  if d = 0 then (false, intersection)
  else
    let uA := segUA line1 line2
    let uB := segUB line1 line2
    if ¬ (0 ≤ uA ∧ uA ≤ 1 ∧ 0 ≤ uB ∧ uB ≤ 1) then (false, intersection)
    else
      let x := line1.start.x + uA * (line1.end_.x - line1.start.x)
      let y := line1.start.y + uA * (line1.end_.y - line1.start.y)
      (true, ⟨x, y⟩)

end utils

namespace types

/-- The method `ConvexHull::SetLines`, as the value it leaves in `lines_`
(which is empty when the constructor calls it). -/
def SetLines (vertices : List Point) : List Line :=
  match vertices with
  | [] => []
  | v0 :: rest =>
    Line.mk ((v0 :: rest).getLast (List.cons_ne_nil v0 rest)) v0 ::
      (List.range ((v0 :: rest).length - 1)).map
        (fun idx => Line.mk ((v0 :: rest).getD idx default) ((v0 :: rest).getD (idx + 1) default))

/-- The method `ConvexHull::SetArea` (shoelace formula), as the value it
leaves in `area_`. -/
def SetArea (vertices : List Point) : ℚ :=
  let sums := (List.range vertices.length).foldl
    (fun s i =>
      let j := (i + 1) % vertices.length
      (s.1 + (vertices.getD i default).x * (vertices.getD j default).y,
       s.2 + (vertices.getD j default).x * (vertices.getD i default).y))
    ((0 : ℚ), (0 : ℚ))
  (1 / 2) * |sums.1 - sums.2|

/-- The constructor `ConvexHull::ConvexHull(vertices, id)`. -/
def ConvexHull.new (vertices : List Point) (id : Int) : ConvexHull :=
  if 3 ≤ vertices.length then
    { id_ := id
      vertices_ := utils.SortVertices vertices
      lines_ := SetLines (utils.SortVertices vertices)
      area_ := SetArea (utils.SortVertices vertices) }
  else {}

end types

namespace utils

/-- The first loop nest of `ConvexHullIntersection`: the state is the local
`intersection_point` and the vector `intersection_vertices`. -/
def edgeLoop (lines1 lines2 : List Line) (st : Point × List Point) : Point × List Point :=
  lines1.foldl
    (fun st1 line1 =>
      lines2.foldl
        (fun st2 line2 =>
          let r := LineSegmentIntersection line1 line2 st2.1
          if r.1 then (r.2, st2.2 ++ [r.2]) else (r.2, st2.2))
        st1)
    st

/-- The second and third loops of `ConvexHullIntersection`: append the
vertices of `vs` that are inside `hull`. -/
def insideLoop (vs : List Point) (hull : ConvexHull) (acc : List Point) : List Point :=
  vs.foldl (fun a vertice => if IsPointInsideConvexHull vertice hull then a ++ [vertice] else a) acc

/-- The vector `intersection_vertices` at the end of the three loops of
`ConvexHullIntersection`. -/
def intersectionVertices (convex_hull1 convex_hull2 : ConvexHull) : List Point :=
  let st := edgeLoop convex_hull1.lines_ convex_hull2.lines_ (default, [])
  let a := insideLoop convex_hull1.vertices_ convex_hull2 st.2
  insideLoop convex_hull2.vertices_ convex_hull1 a

/-- The function `utils::ConvexHullIntersection`; the second component is the
value of the reference parameter `intersection` on return. -/
def ConvexHullIntersection (convex_hull1 convex_hull2 : ConvexHull) (intersection : ConvexHull) :
    Bool × ConvexHull :=
  let intersection_vertices := intersectionVertices convex_hull1 convex_hull2
  if intersection_vertices.length < 3 then (false, intersection)
  else (true, ConvexHull.new intersection_vertices (-1))

end utils

open utils

/-- Division of two finite `double`s: non-finite (`none`) when the divisor is zero. -/
def ddiv (a b : ℚ) : Option ℚ :=
  if b = 0 then none else some (a / b)

/-- Addition of two `double`s: non-finite as soon as one summand is. -/
def dadd (a b : Option ℚ) : Option ℚ :=
  match a, b with
  | some r, some t => some (r + t)
  | _, _ => none

/-- The test `overlap_ratio <= .5`, false on a non-finite value. -/
def ratioLeHalf (overlap_ratio : Option ℚ) : Bool :=
  match overlap_ratio with
  | none => false
  | some r => decide (r ≤ 1 / 2)

/-- The inner loop of `FilterConvexHulls`: the value of `overlap_ratio` after
the reference hull has been compared with every hull of the input. -/
def overlapRatio (convex_hulls : List ConvexHull) (convex_hull_ref : ConvexHull) : Option ℚ :=
  convex_hulls.foldl
    (fun overlap_ratio convex_hull =>
      if convex_hull_ref.id_ ≠ convex_hull.id_ then
        let r := ConvexHullIntersection convex_hull_ref convex_hull {}
        if r.1 then dadd overlap_ratio (ddiv r.2.area_ convex_hull_ref.area_) else overlap_ratio
      else overlap_ratio)
    (some 0)

/-- The function `FilterConvexHulls`; the result is the value of the reference
parameter `filtered_convex_hulls` on return. -/
def FilterConvexHulls (convex_hulls : List ConvexHull) (filtered_convex_hulls : List ConvexHull) :
    List ConvexHull :=
  convex_hulls.foldl
    (fun out convex_hull_ref =>
      if ratioLeHalf (overlapRatio convex_hulls convex_hull_ref) then out ++ [convex_hull_ref]
      else out)
    filtered_convex_hulls

/-! ## Inputs of the end-to-end scenarios -/

/-- The vertex list of the axis-aligned unit square with lower left corner
`(a, b)`, counter-clockwise from that corner. -/
def unitSquare (a b : ℚ) : List Point :=
  [⟨a, b⟩, ⟨a + 1, b⟩, ⟨a + 1, b + 1⟩, ⟨a, b + 1⟩]

/-- The three hulls of the first end-to-end scenario. -/
def scenarioThree : List ConvexHull :=
  [ConvexHull.new [⟨0, 0⟩, ⟨1, 0⟩, ⟨1, 1⟩, ⟨0, 1⟩] 1,
   ConvexHull.new [⟨1 / 10, 0⟩, ⟨11 / 10, 0⟩, ⟨11 / 10, 1⟩, ⟨1 / 10, 1⟩] 2,
   ConvexHull.new [⟨5, 5⟩, ⟨6, 5⟩, ⟨6, 6⟩, ⟨5, 6⟩] 3]

/-- A hull constructed from two vertices only, with the supplied id 7. -/
def twoPointHull : ConvexHull :=
  ConvexHull.new [⟨0, 0⟩, ⟨1, 0⟩] 7

/-- The unit square with id 1. -/
def unitHull : ConvexHull :=
  ConvexHull.new (unitSquare 0 0) 1

/-- Three hulls with ids 1, 2 and 3, all built from the unit square
`(0,0),(1,0),(1,1),(0,1)`. -/
def tripleUnit : List ConvexHull :=
  [ConvexHull.new [⟨0, 0⟩, ⟨1, 0⟩, ⟨1, 1⟩, ⟨0, 1⟩] 1,
   ConvexHull.new [⟨0, 0⟩, ⟨1, 0⟩, ⟨1, 1⟩, ⟨0, 1⟩] 2,
   ConvexHull.new [⟨0, 0⟩, ⟨1, 0⟩, ⟨1, 1⟩, ⟨0, 1⟩] 3]

/-- The summand of `ratio(R)` for one other hull `H`:
`area(intersect(R,H)) / area(R)` when the intersection succeeds, else `0`. -/
def ratioTerm (R H : ConvexHull) : Option ℚ :=
  if (ConvexHullIntersection R H {}).1 then ddiv (ConvexHullIntersection R H {}).2.area_ R.area_
  else some 0

/-- The quantity `ratio(R)` of the specification: the sum of `ratioTerm R H` over
the hulls `H` of the input whose id differs from the id of `R`. -/
def ratioSpec (hulls : List ConvexHull) (R : ConvexHull) : Option ℚ :=
  ((hulls.filter (fun H => decide (H.id_ ≠ R.id_))).map (ratioTerm R)).foldr dadd (some 0)


/-! ## Geometric vocabulary of the claims -/

/-- The cross product `(b - a) × (p - a)`, twice the signed area of the
triangle `a b p`: positive exactly when `p` is strictly left of the directed
line from `a` to `b`.  It is the quantity `IsPointLeftSideOfLine` tests. -/
def cross (a b p : Point) : ℚ :=
  (b.x - a.x) * (p.y - a.y) - (b.y - a.y) * (p.x - a.x)

/-- The directed edges of the closed polygon through the vertex list `P`: every
vertex paired with its cyclic successor. -/
def closedPairs (P : List Point) : List (Point × Point) :=
  P.zip (P.rotate 1)

/-- The list `P` is the boundary of a strictly convex polygon, traversed
counter-clockwise: at least 3 distinct vertices, and every vertex other than
the two ends of an edge lies strictly left of that edge. -/
def StrictConvexCCW (P : List Point) : Prop :=
  P.Nodup ∧ 3 ≤ P.length ∧
    ∀ e ∈ closedPairs P, ∀ v ∈ P, v ≠ e.1 → v ≠ e.2 → 0 < cross e.1 e.2 v

instance (P : List Point) : Decidable (StrictConvexCCW P) := by
  unfold StrictConvexCCW
  infer_instance

/-- The region of the polygon with vertex list `vs`: the convex hull of the
vertices, generated from the vertices by taking points of segments. -/
inductive InHull (vs : List Point) : Point → Prop
  | vertex {v : Point} : v ∈ vs → InHull vs v
  | between {p q : Point} (t : ℚ) : 0 ≤ t → t ≤ 1 → InHull vs p → InHull vs q →
      InHull vs ⟨p.x + t * (q.x - p.x), p.y + t * (q.y - p.y)⟩

/-- Twice the signed area of the closed polygon through `P` (the shoelace sum
`left_sum - right_sum` of `SetArea`, as a sum over the edges). -/
def shoelace (P : List Point) : ℚ :=
  ((closedPairs P).map (fun e => e.1.x * e.2.y - e.2.x * e.1.y)).sum

/-- The point `A1 + uA * (A2 - A1)` that `LineSegmentIntersection` reports on
success. -/
def segPoint (line1 line2 : Line) : Point :=
  ⟨line1.start.x + segUA line1 line2 * (line1.end_.x - line1.start.x),
   line1.start.y + segUA line1 line2 * (line1.end_.y - line1.start.y)⟩

/-- The points pushed by the first loop nest of `ConvexHullIntersection`, in
the order in which they are pushed. -/
def crossings (lines1 lines2 : List Line) : List Point :=
  lines1.flatMap (fun line1 =>
    (lines2.filter (fun line2 => (LineSegmentIntersection line1 line2 default).1)).map
      (fun line2 => segPoint line1 line2))

/-- The candidate list of the specification for `intersect(A, B)`: one point
per pair of an edge of `A` and an edge of `B` whose segments intersect, then
the vertices of `A` inside `B`, then the vertices of `B` inside `A`; nothing is
removed. -/
def candidates (A B : ConvexHull) : List Point :=
  crossings A.lines_ B.lines_
    ++ A.vertices_.filter (fun v => IsPointInsideConvexHull v B)
    ++ B.vertices_.filter (fun v => IsPointInsideConvexHull v A)

/-- The edges the specification derives from the stored vertices `v_0 .. v_(n-1)`:
for every index `i`, the directed edge from `v_i` to its cyclic successor
`v_((i+1) mod n)`. -/
def cyclicEdges (vertices : List Point) : List Line :=
  (List.range vertices.length).map
    (fun i => ⟨vertices.getD i default, vertices.getD ((i + 1) % vertices.length) default⟩)

/-- The centroid of the specification: the arithmetic mean of the coordinates. -/
def centroid (vertices : List Point) : Point :=
  ⟨(vertices.map (fun v => v.x)).sum / (vertices.length : ℚ),
   (vertices.map (fun v => v.y)).sum / (vertices.length : ℚ)⟩

/-- The centre `(x_mean, y_mean)` that `SortVertices` computes, as a point. -/
def meanPoint (vertices : List Point) : Point :=
  ⟨(vertexMean vertices).1, (vertexMean vertices).2⟩

/-- The angle key of `v` seen from `c`. -/
def keyAt (c v : Point) : ℚ :=
  vertexAngle c.x c.y v

/-- The shoelace sum along an open path: the sum of `a.x * b.y - b.x * a.y`
over consecutive points `a`, `b`. -/
def chainSum : List Point → ℚ
  | a :: b :: t => (a.x * b.y - b.x * a.y) + chainSum (b :: t)
  | _ => 0

/-- The list `T` with every point `v` repeated `m v` times in place. -/
def blowUp (m : Point → ℕ) (T : List Point) : List Point :=
  T.flatMap (fun v => List.replicate (m v) v)

/-- The point `x` lies on the boundary of the convex polygon `P`: it is on the
closed left side of every edge, and on the line of one of them. -/
def OnBoundary (P : List Point) (x : Point) : Prop :=
  (∀ e ∈ closedPairs P, 0 ≤ cross e.1 e.2 x) ∧ ∃ e ∈ closedPairs P, cross e.1 e.2 x = 0

instance (P : List Point) (x : Point) : Decidable (OnBoundary P x) := by
  unfold OnBoundary
  infer_instance

/-! ## The same program over binary64 arithmetic

In this section a `double` is a rational that is a binary64 number, and every
arithmetic operation of the source is followed by `rnd`, the rounding of IEEE
754 (round to nearest, ties to even, gradual underflow).  Fused operations
are not used.  Overflow is not modelled: every value is assumed to stay below
`2 ^ 1024`.  The two zeros are one value.  As in the exact model, a non-finite
ratio is `none`, and `atan2` is only observed through the order of two angles:
the comparator compares the exact angles of the rounded differences
`vertice.y - y_mean`, `vertice.x - x_mean`, the rounding of `atan2` itself is
not modelled. -/

namespace ieee

/-- The power `2 ^ k` for an integer `k`. -/
def pow2 (k : Int) : ℚ :=
  if 0 ≤ k then ((2 ^ k.toNat : ℕ) : ℚ) else 1 / ((2 ^ (-k).toNat : ℕ) : ℚ)

/-- Halving `n` until it is below 2, at most `fuel` times: the number of
halvings. -/
def halvings : ℕ → ℕ → ℕ
  | 0, _ => 0
  | fuel + 1, n => if n < 2 then 0 else halvings fuel (n / 2) + 1

/-- The binary logarithm of a natural number, rounded down (`0` at `0`); `n`
halvings are enough fuel for `n`. -/
def log2 (n : ℕ) : ℕ :=
  halvings n n

/-- The binary exponent of a non-zero rational `q`: the integer `e` with
`2 ^ e ≤ |q| < 2 ^ (e + 1)`. -/
def ilog2 (q : ℚ) : Int :=
  let est : Int := (log2 q.num.natAbs : Int) - (log2 q.den : Int)
  if pow2 est ≤ |q| then est else est - 1

/-- The integer nearest to `q`, the even one of the two nearest at a tie. -/
def roundEven (q : ℚ) : Int :=
  let f := Rat.floor q
  if q - f < 1 / 2 then f
  else if 1 / 2 < q - f then f + 1
  else if f % 2 = 0 then f else f + 1

/-- The binary64 number nearest to `q` (ties to even): 53 significant bits,
and multiples of `2 ^ (-1074)` below `2 ^ (-1022)`. -/
def rnd (q : ℚ) : ℚ :=
  if q = 0 then 0
  else (roundEven (q / pow2 (max (ilog2 q) (-1022) - 52)) : ℚ) * pow2 (max (ilog2 q) (-1022) - 52)

/-- The accumulation loop at the head of `SortVertices`, every division and
addition rounded. -/
def vertexMean (vertices : List Point) : ℚ × ℚ :=
  vertices.foldl
    (fun m vertice =>
      (rnd (m.1 + rnd (vertice.x / (vertices.length : ℚ))),
       rnd (m.2 + rnd (vertice.y / (vertices.length : ℚ)))))
    (0, 0)

/-- The angle key the comparator of `SortVertices` computes for a vertex, from
the rounded differences. -/
def vertexAngle (x_mean y_mean : ℚ) (vertice : Point) : ℚ :=
  atan2Key (rnd (vertice.y - y_mean)) (rnd (vertice.x - x_mean))

/-- The function `utils::SortVertices` over binary64. -/
def SortVertices (vertices : List Point) : List Point :=
  let m := vertexMean vertices
  vertices.insertionSort (fun vertice1 vertice2 => vertexAngle m.1 m.2 vertice1 ≤ vertexAngle m.1 m.2 vertice2)

/-- The function `utils::IsPointLeftSideOfLine` over binary64. -/
def IsPointLeftSideOfLine (p : Point) (line : Line) : Bool :=
  let px := rnd (p.x - line.start.x)
  let py := rnd (p.y - line.start.y)
  let ex := rnd (line.end_.x - line.start.x)
  let ey := rnd (line.end_.y - line.start.y)
  decide (rnd (rnd (ex * py) - rnd (ey * px)) > 0)

/-- The function `utils::IsPointInsideConvexHull` over binary64. -/
def IsPointInsideConvexHull (p : Point) (convex_hull : ConvexHull) : Bool :=
  convex_hull.lines_.all (fun line => IsPointLeftSideOfLine p line)

/-- The denominator `d` of `LineSegmentIntersection` over binary64. -/
def segD (line1 line2 : Line) : ℚ :=
  rnd (rnd (rnd (line2.end_.y - line2.start.y) * rnd (line1.end_.x - line1.start.x))
    - rnd (rnd (line2.end_.x - line2.start.x) * rnd (line1.end_.y - line1.start.y)))

/-- The parameter `uA` of `LineSegmentIntersection` over binary64. -/
def segUA (line1 line2 : Line) : ℚ :=
  rnd (rnd (rnd (rnd (line2.end_.x - line2.start.x) * rnd (line1.start.y - line2.start.y))
    - rnd (rnd (line2.end_.y - line2.start.y) * rnd (line1.start.x - line2.start.x)))
    / segD line1 line2)

/-- The parameter `uB` of `LineSegmentIntersection` over binary64. -/
def segUB (line1 line2 : Line) : ℚ :=
  rnd (rnd (rnd (rnd (line1.end_.x - line1.start.x) * rnd (line1.start.y - line2.start.y))
    - rnd (rnd (line1.end_.y - line1.start.y) * rnd (line1.start.x - line2.start.x)))
    / segD line1 line2)

/-- The function `utils::LineSegmentIntersection` over binary64. -/
def LineSegmentIntersection (line1 line2 : Line) (intersection : Point) : Bool × Point :=
  let d := segD line1 line2
  if d = 0 then (false, intersection)
  else
    let uA := segUA line1 line2
    let uB := segUB line1 line2
    if ¬ (0 ≤ uA ∧ uA ≤ 1 ∧ 0 ≤ uB ∧ uB ≤ 1) then (false, intersection)
    else
      let x := rnd (line1.start.x + rnd (uA * rnd (line1.end_.x - line1.start.x)))
      let y := rnd (line1.start.y + rnd (uA * rnd (line1.end_.y - line1.start.y)))
      (true, ⟨x, y⟩)

/-- The method `ConvexHull::SetArea` over binary64. -/
def SetArea (vertices : List Point) : ℚ :=
  let sums := (List.range vertices.length).foldl
    (fun s i =>
      let j := (i + 1) % vertices.length
      (rnd (s.1 + rnd ((vertices.getD i default).x * (vertices.getD j default).y)),
       rnd (s.2 + rnd ((vertices.getD j default).x * (vertices.getD i default).y))))
    ((0 : ℚ), (0 : ℚ))
  rnd ((1 / 2) * |rnd (sums.1 - sums.2)|)

/-- The constructor `ConvexHull::ConvexHull(vertices, id)` over binary64. -/
def ConvexHull.new (vertices : List Point) (id : Int) : ConvexHull :=
  if 3 ≤ vertices.length then
    { id_ := id
      vertices_ := SortVertices vertices
      lines_ := SetLines (SortVertices vertices)
      area_ := SetArea (SortVertices vertices) }
  else {}

/-- The first loop nest of `ConvexHullIntersection` over binary64. -/
def edgeLoop (lines1 lines2 : List Line) (st : Point × List Point) : Point × List Point :=
  lines1.foldl
    (fun st1 line1 =>
      lines2.foldl
        (fun st2 line2 =>
          let r := LineSegmentIntersection line1 line2 st2.1
          if r.1 then (r.2, st2.2 ++ [r.2]) else (r.2, st2.2))
        st1)
    st

/-- The second and third loops of `ConvexHullIntersection` over binary64. -/
def insideLoop (vs : List Point) (hull : ConvexHull) (acc : List Point) : List Point :=
  vs.foldl (fun a vertice => if IsPointInsideConvexHull vertice hull then a ++ [vertice] else a) acc

/-- The vector `intersection_vertices` at the end of the three loops, over
binary64. -/
def intersectionVertices (convex_hull1 convex_hull2 : ConvexHull) : List Point :=
  let st := edgeLoop convex_hull1.lines_ convex_hull2.lines_ (default, [])
  let a := insideLoop convex_hull1.vertices_ convex_hull2 st.2
  insideLoop convex_hull2.vertices_ convex_hull1 a

/-- The function `utils::ConvexHullIntersection` over binary64. -/
def ConvexHullIntersection (convex_hull1 convex_hull2 : ConvexHull) (intersection : ConvexHull) :
    Bool × ConvexHull :=
  let intersection_vertices := intersectionVertices convex_hull1 convex_hull2
  if intersection_vertices.length < 3 then (false, intersection)
  else (true, ConvexHull.new intersection_vertices (-1))

/-- Division of two finite `double`s, rounded: non-finite (`none`) when the
divisor is zero. -/
def ddiv (a b : ℚ) : Option ℚ :=
  if b = 0 then none else some (rnd (a / b))

/-- Addition of two `double`s, rounded: non-finite as soon as one summand is. -/
def dadd (a b : Option ℚ) : Option ℚ :=
  match a, b with
  | some r, some t => some (rnd (r + t))
  | _, _ => none

/-- The inner loop of `FilterConvexHulls` over binary64. -/
def overlapRatio (convex_hulls : List ConvexHull) (convex_hull_ref : ConvexHull) : Option ℚ :=
  convex_hulls.foldl
    (fun overlap_ratio convex_hull =>
      if convex_hull_ref.id_ ≠ convex_hull.id_ then
        let r := ConvexHullIntersection convex_hull_ref convex_hull {}
        if r.1 then dadd overlap_ratio (ddiv r.2.area_ convex_hull_ref.area_) else overlap_ratio
      else overlap_ratio)
    (some 0)

/-- The function `FilterConvexHulls` over binary64. -/
def FilterConvexHulls (convex_hulls : List ConvexHull) (filtered_convex_hulls : List ConvexHull) :
    List ConvexHull :=
  convex_hulls.foldl
    (fun out convex_hull_ref =>
      if ratioLeHalf (overlapRatio convex_hulls convex_hull_ref) then out ++ [convex_hull_ref]
      else out)
    filtered_convex_hulls

/-! ### Inputs of the binary64 scenarios

Every coordinate below is a binary64 number: an integer or a short dyadic
fraction, or `rnd` of a decimal, the `double` a decimal literal is read as. -/

/-- The segment from `(1.6, -3)` to `(-0.3, 1.3)`. -/
def sharedLineA : Line :=
  ⟨⟨rnd (16 / 10), -3⟩, ⟨rnd (-3 / 10), rnd (13 / 10)⟩⟩

/-- The segment from `(-1.6, 2.7)` to `(-0.3, 1.3)`: it ends where `sharedLineA`
ends. -/
def sharedLineB : Line :=
  ⟨⟨rnd (-16 / 10), rnd (27 / 10)⟩, ⟨rnd (-3 / 10), rnd (13 / 10)⟩⟩

/-- The triangle `(2^27, 2^27), (2^27 + 3, 2^27 + 1), (2^27 + 1, 2^27 + 3)`, of
area 4. -/
def farTriangle : List Point :=
  [⟨134217728, 134217728⟩, ⟨134217731, 134217729⟩, ⟨134217729, 134217731⟩]

/-- The unit square with lower left corner `(2^26, 2^26)`. -/
def farSquare : List Point :=
  [⟨67108864, 67108864⟩, ⟨67108865, 67108864⟩, ⟨67108865, 67108865⟩, ⟨67108864, 67108865⟩]

/-- A triangle inside `farSquare`: `(b + 1/4, b + 1/4), (b + 3/4, b + 1/4),
(b + 1/4, b + 3/4)` with `b = 2^26`. -/
def innerTriangle : List Point :=
  [⟨67108864 + 1 / 4, 67108864 + 1 / 4⟩, ⟨67108864 + 3 / 4, 67108864 + 1 / 4⟩,
   ⟨67108864 + 1 / 4, 67108864 + 3 / 4⟩]

/-- The triangle `(-1, -2), (0, 0), (-1, 2)`, left of the y-axis. -/
def leftTriangle : List Point :=
  [⟨-1, -2⟩, ⟨0, 0⟩, ⟨-1, 2⟩]

/-- The triangle `(2^-60, 0), (2, -1), (2, 1)`, strictly right of the y-axis. -/
def rightTriangle : List Point :=
  [⟨1 / 1152921504606846976, 0⟩, ⟨2, -1⟩, ⟨2, 1⟩]

/-- The triangle `(1.8, 2.7), (-1.4, 1.7), (2.6, 0.7)`. -/
def decimalTriangle : List Point :=
  [⟨rnd (18 / 10), rnd (27 / 10)⟩, ⟨rnd (-14 / 10), rnd (17 / 10)⟩,
   ⟨rnd (26 / 10), rnd (7 / 10)⟩]

/-- The vertices of `decimalTriangle` with the last two exchanged. -/
def decimalTriangleSwapped : List Point :=
  [⟨rnd (18 / 10), rnd (27 / 10)⟩, ⟨rnd (26 / 10), rnd (7 / 10)⟩,
   ⟨rnd (-14 / 10), rnd (17 / 10)⟩]

end ieee
/-! ## Lemmas on the arithmetic of ratios -/

theorem dadd_zero (a : Option ℚ) : dadd a (some 0) = a := by
  cases a <;> simp [dadd]

theorem zero_dadd (a : Option ℚ) : dadd (some 0) a = a := by
  cases a <;> simp [dadd]

theorem dadd_assoc (a b c : Option ℚ) : dadd (dadd a b) c = dadd a (dadd b c) := by
  cases a <;> cases b <;> cases c <;> simp [dadd, add_assoc]

theorem dadd_comm (a b : Option ℚ) : dadd a b = dadd b a := by
  cases a <;> cases b <;> simp [dadd, add_comm]

/-- The inner loop of the filter, started from any value of the accumulator,
adds the specification's sum to it. -/
theorem overlapLoop_eq (R : ConvexHull) (hulls : List ConvexHull) (acc : Option ℚ) :
    hulls.foldl
      (fun overlap_ratio convex_hull =>
        if R.id_ ≠ convex_hull.id_ then
          let r := ConvexHullIntersection R convex_hull {}
          if r.1 then dadd overlap_ratio (ddiv r.2.area_ R.area_) else overlap_ratio
        else overlap_ratio)
      acc
    = dadd acc
        (((hulls.filter (fun H => decide (H.id_ ≠ R.id_))).map (ratioTerm R)).foldr dadd (some 0)) := by
  induction hulls generalizing acc with
  | nil => simp [dadd_zero]
  | cons H t ih =>
    rw [List.foldl_cons, ih]
    by_cases hid : R.id_ = H.id_
    · have hid2 : ¬ (H.id_ ≠ R.id_) := by simp [hid]
      simp [hid, List.filter_cons]
    · have hid2 : H.id_ ≠ R.id_ := fun h => hid h.symm
      simp only [ne_eq, hid, not_false_eq_true, if_true, List.filter_cons, hid2, decide_True,
        List.map_cons, List.foldr_cons]
      by_cases hr : (ConvexHullIntersection R H {}).1 = true
      · simp [hr, ratioTerm, dadd_assoc]
      · simp [hr, ratioTerm, zero_dadd]

theorem overlapRatio_eq_ratioSpec (hulls : List ConvexHull) (R : ConvexHull) :
    overlapRatio hulls R = ratioSpec hulls R := by
  unfold overlapRatio ratioSpec
  rw [overlapLoop_eq, zero_dadd]

/-- The outer loop of the filter appends the kept hulls to the output. -/
theorem filterLoop_eq (keep : ConvexHull → Bool) (hulls out : List ConvexHull) :
    hulls.foldl (fun o R => if keep R then o ++ [R] else o) out = out ++ hulls.filter keep := by
  induction hulls generalizing out with
  | nil => simp
  | cons R t ih =>
    rw [List.foldl_cons, ih]
    by_cases hk : keep R = true <;> simp [hk, List.filter_cons]

/-- The point `LineSegmentIntersection` reports also is `B1 + uB * (B2 - B1)`. -/
theorem segment_point_on_second (line1 line2 : Line) (hd : segD line1 line2 ≠ 0) :
    line1.start.x + segUA line1 line2 * (line1.end_.x - line1.start.x)
        = line2.start.x + segUB line1 line2 * (line2.end_.x - line2.start.x)
    ∧ line1.start.y + segUA line1 line2 * (line1.end_.y - line1.start.y)
        = line2.start.y + segUB line1 line2 * (line2.end_.y - line2.start.y) := by
  unfold segUA segUB
  unfold segD at hd ⊢
  constructor
  · field_simp
    ring
  · field_simp
    ring


/-! ## The loops of `ConvexHullIntersection` in closed form -/

theorem isLeft_iff (p a b : Point) :
    IsPointLeftSideOfLine p ⟨a, b⟩ = true ↔ 0 < cross a b p := by
  simp [IsPointLeftSideOfLine, cross]

theorem isLeft_iff_line (p : Point) (line : Line) :
    IsPointLeftSideOfLine p line = true ↔ 0 < cross line.start line.end_ p := by
  simp [IsPointLeftSideOfLine, cross]

theorem lsi_true_iff (line1 line2 : Line) (p : Point) :
    (LineSegmentIntersection line1 line2 p).1 = true ↔
      segD line1 line2 ≠ 0 ∧ 0 ≤ segUA line1 line2 ∧ segUA line1 line2 ≤ 1
        ∧ 0 ≤ segUB line1 line2 ∧ segUB line1 line2 ≤ 1 := by
  unfold LineSegmentIntersection
  by_cases hd : segD line1 line2 = 0
  · simp [hd]
  · by_cases hu : 0 ≤ segUA line1 line2 ∧ segUA line1 line2 ≤ 1
        ∧ 0 ≤ segUB line1 line2 ∧ segUB line1 line2 ≤ 1
    · simp [hd, hu]
    · simp only [hd, if_false, hu, not_false_eq_true, if_true, ne_eq, true_and]
      simp

theorem lsi_fst_indep (line1 line2 : Line) (p q : Point) :
    (LineSegmentIntersection line1 line2 p).1 = (LineSegmentIntersection line1 line2 q).1 := by
  rw [Bool.eq_iff_iff, lsi_true_iff, lsi_true_iff]

theorem lsi_snd_of_true (line1 line2 : Line) (p : Point)
    (h : (LineSegmentIntersection line1 line2 p).1 = true) :
    (LineSegmentIntersection line1 line2 p).2 = segPoint line1 line2 := by
  have h' := (lsi_true_iff line1 line2 p).1 h
  unfold LineSegmentIntersection
  simp only [h'.1, if_false]
  have hu : 0 ≤ segUA line1 line2 ∧ segUA line1 line2 ≤ 1
        ∧ 0 ≤ segUB line1 line2 ∧ segUB line1 line2 ≤ 1 := h'.2
  simp only [hu, and_self, not_true_eq_false, if_false]
  rfl

theorem innerLoop_eq (line1 : Line) (lines2 : List Line) (st : Point × List Point) :
    (lines2.foldl
        (fun st2 line2 =>
          let r := LineSegmentIntersection line1 line2 st2.1
          if r.1 then (r.2, st2.2 ++ [r.2]) else (r.2, st2.2))
        st).2
      = st.2 ++ (lines2.filter (fun line2 => (LineSegmentIntersection line1 line2 default).1)).map
          (fun line2 => segPoint line1 line2) := by
  induction lines2 generalizing st with
  | nil => simp
  | cons b t ih =>
    rw [List.foldl_cons, ih]
    by_cases hb : (LineSegmentIntersection line1 b st.1).1 = true
    · have hb' : (LineSegmentIntersection line1 b default).1 = true := by
        rw [lsi_fst_indep line1 b default st.1]
        exact hb
      simp [hb, hb', List.filter_cons, lsi_snd_of_true line1 b st.1 hb]
    · have hb' : ¬ (LineSegmentIntersection line1 b default).1 = true := by
        rw [lsi_fst_indep line1 b default st.1]
        exact hb
      simp [hb, hb', List.filter_cons]

theorem edgeLoop_snd (lines1 lines2 : List Line) (st : Point × List Point) :
    (edgeLoop lines1 lines2 st).2 = st.2 ++ crossings lines1 lines2 := by
  unfold edgeLoop crossings
  induction lines1 generalizing st with
  | nil => simp
  | cons a t ih =>
    rw [List.foldl_cons, ih, innerLoop_eq]
    simp [List.flatMap_cons, List.append_assoc]

theorem insideLoop_eq (vs : List Point) (hull : ConvexHull) (acc : List Point) :
    insideLoop vs hull acc = acc ++ vs.filter (fun v => IsPointInsideConvexHull v hull) := by
  unfold insideLoop
  induction vs generalizing acc with
  | nil => simp
  | cons v t ih =>
    rw [List.foldl_cons, ih]
    by_cases hv : IsPointInsideConvexHull v hull = true <;> simp [hv, List.filter_cons]

theorem intersectionVertices_eq (h1 h2 : ConvexHull) :
    intersectionVertices h1 h2
      = crossings h1.lines_ h2.lines_
          ++ h1.vertices_.filter (fun v => IsPointInsideConvexHull v h2)
          ++ h2.vertices_.filter (fun v => IsPointInsideConvexHull v h1) := by
  unfold intersectionVertices
  simp only [insideLoop_eq, edgeLoop_snd, List.nil_append]

theorem mem_crossings (lines1 lines2 : List Line) (x : Point) :
    x ∈ crossings lines1 lines2 ↔
      ∃ a ∈ lines1, ∃ b ∈ lines2, (LineSegmentIntersection a b default).1 = true
        ∧ x = segPoint a b := by
  unfold crossings
  simp only [List.mem_flatMap, List.mem_map, List.mem_filter]
  constructor
  · rintro ⟨a, ha, b, ⟨hb, hab⟩, rfl⟩
    exact ⟨a, ha, b, hb, hab, rfl⟩
  · rintro ⟨a, ha, b, hb, hab, rfl⟩
    exact ⟨a, ha, b, ⟨hb, hab⟩, rfl⟩

theorem mem_intersectionVertices (h1 h2 : ConvexHull) (x : Point) :
    x ∈ intersectionVertices h1 h2 ↔
      (∃ a ∈ h1.lines_, ∃ b ∈ h2.lines_, (LineSegmentIntersection a b default).1 = true
          ∧ x = segPoint a b)
      ∨ (x ∈ h1.vertices_ ∧ IsPointInsideConvexHull x h2 = true)
      ∨ (x ∈ h2.vertices_ ∧ IsPointInsideConvexHull x h1 = true) := by
  rw [intersectionVertices_eq]
  simp only [List.mem_append, List.mem_filter, mem_crossings, or_assoc]

/-! ## Edges and area in terms of the cyclic pairs of the vertex list -/

theorem closedPairs_eq_range (l : List Point) :
    closedPairs l
      = (List.range l.length).map
          (fun i => (l.getD i default, l.getD ((i + 1) % l.length) default)) := by
  unfold closedPairs
  apply List.ext_getElem
  · simp
  · intro i h1 h2
    have hi : i < l.length := by simpa using h2
    have hr : i < (l.rotate 1).length := by simpa using hi
    simp only [List.getElem_zip, List.getElem_map, List.getElem_range]
    rw [List.getElem_rotate]
    rw [List.getD_eq_getElem l default hi,
      List.getD_eq_getElem l default (Nat.mod_lt _ (Nat.lt_of_le_of_lt (Nat.zero_le _) hi))]

theorem mem_closedPairs (l : List Point) (p : Point × Point) :
    p ∈ closedPairs l ↔
      ∃ i, i < l.length ∧ p = (l.getD i default, l.getD ((i + 1) % l.length) default) := by
  rw [closedPairs_eq_range]
  simp only [List.mem_map, List.mem_range]
  constructor
  · rintro ⟨i, hi, rfl⟩
    exact ⟨i, hi, rfl⟩
  · rintro ⟨i, hi, rfl⟩
    exact ⟨i, hi, rfl⟩

theorem mem_SetLines (l : List Point) (e : Line) :
    e ∈ SetLines l ↔ (e.start, e.end_) ∈ closedPairs l := by
  rw [mem_closedPairs]
  cases l with
  | nil => simp [SetLines]
  | cons v0 rest =>
    have hlast : (v0 :: rest).getLast (List.cons_ne_nil v0 rest)
        = (v0 :: rest).getD rest.length default := by
      rw [List.getLast_eq_getElem]
      rw [List.getD_eq_getElem _ default (by simp)]
      simp
    simp only [SetLines, List.mem_cons, List.mem_map, List.mem_range, List.length_cons,
      Nat.add_sub_cancel]
    rw [hlast]
    constructor
    · rintro (h | ⟨i, hi, h⟩)
      · refine ⟨rest.length, by omega, ?_⟩
        rw [h]
        simp
      · refine ⟨i, by omega, ?_⟩
        rw [← h]
        simp only [Prod.mk.injEq, true_and]
        rw [Nat.mod_eq_of_lt (by omega)]
    · rintro ⟨i, hi, h⟩
      by_cases hl : i = rest.length
      · left
        subst hl
        cases e
        simp only [Prod.mk.injEq] at h
        simp only [Line.mk.injEq]
        refine ⟨h.1, ?_⟩
        rw [h.2]
        simp
      · right
        refine ⟨i, by omega, ?_⟩
        cases e
        simp only [Prod.mk.injEq] at h
        simp only [Line.mk.injEq]
        refine ⟨h.1.symm, ?_⟩
        rw [h.2, Nat.mod_eq_of_lt (by omega)]

theorem foldl_pair_sum {α : Type} (f g : α → ℚ) (l : List α) (a b : ℚ) :
    l.foldl (fun s i => (s.1 + f i, s.2 + g i)) (a, b)
      = (a + (l.map f).sum, b + (l.map g).sum) := by
  induction l generalizing a b with
  | nil => simp
  | cons x t ih =>
    rw [List.foldl_cons, ih]
    simp [add_assoc]

theorem sum_map_sub {α : Type} (f g : α → ℚ) (l : List α) :
    (l.map (fun i => f i - g i)).sum = (l.map f).sum - (l.map g).sum := by
  induction l with
  | nil => simp
  | cons x t ih =>
    simp only [List.map_cons, List.sum_cons, ih]
    ring

theorem SetArea_eq_shoelace (l : List Point) :
    SetArea l = 1 / 2 * |shoelace l| := by
  unfold SetArea shoelace
  rw [closedPairs_eq_range]
  have h := foldl_pair_sum
    (fun i => (l.getD i default).x * (l.getD ((i + 1) % l.length) default).y)
    (fun i => (l.getD ((i + 1) % l.length) default).x * (l.getD i default).y)
    (List.range l.length) 0 0
  simp only at h ⊢
  rw [h]
  simp only [zero_add, List.map_map]
  congr 2
  rw [← sum_map_sub]
  rfl

/-! ## The order of `atan2Key` and the sign of cross products -/

theorem abs_sum_pos (x y : ℚ) (h : ¬ (x = 0 ∧ y = 0)) : 0 < |x| + |y| := by
  by_cases hx : x = 0
  · have hy : y ≠ 0 := fun hy => h ⟨hx, hy⟩
    have := abs_pos.2 hy
    have := abs_nonneg x
    linarith
  · have := abs_pos.2 hx
    have := abs_nonneg y
    linarith

theorem atan2Key_upper (x y : ℚ) (h : ¬ (x = 0 ∧ y = 0)) (hy : 0 ≤ y) :
    atan2Key y x = 1 - x / (|x| + |y|) := by
  simp [atan2Key, h, hy]

theorem atan2Key_lower (x y : ℚ) (hy : y < 0) :
    atan2Key y x = x / (|x| + |y|) - 1 := by
  have h : ¬ (x = 0 ∧ y = 0) := fun h => by
    rw [h.2] at hy
    exact lt_irrefl _ hy
  have hy' : ¬ 0 ≤ y := not_le.2 hy
  simp [atan2Key, h, hy']

theorem atan2Key_nonneg_of_upper (x y : ℚ) (hy : 0 ≤ y) : 0 ≤ atan2Key y x := by
  by_cases h : x = 0 ∧ y = 0
  · simp [atan2Key, h]
  · rw [atan2Key_upper x y h hy]
    have hs := abs_sum_pos x y h
    have hx : x ≤ |x| + |y| := by
      have := le_abs_self x
      have := abs_nonneg y
      linarith
    have : x / (|x| + |y|) ≤ 1 := (div_le_one hs).2 hx
    linarith

theorem atan2Key_neg_of_lower (x y : ℚ) (hy : y < 0) : atan2Key y x < 0 := by
  rw [atan2Key_lower x y hy]
  have hs : 0 < |x| + |y| := by
    have := abs_pos.2 (ne_of_lt hy)
    have := abs_nonneg x
    linarith
  have hx : x < |x| + |y| := by
    have := le_abs_self x
    have := abs_pos.2 (ne_of_lt hy)
    linarith
  have : x / (|x| + |y|) < 1 := (div_lt_one hs).2 hx
  linarith

/-- In the open lower half plane a smaller key means a counter-clockwise turn. -/
theorem key_lt_lower (x1 y1 x2 y2 : ℚ) (h1 : y1 < 0) (h2 : y2 < 0)
    (hk : atan2Key y1 x1 < atan2Key y2 x2) : 0 < x1 * y2 - y1 * x2 := by
  rw [atan2Key_lower x1 y1 h1, atan2Key_lower x2 y2 h2] at hk
  have hs1 : 0 < |x1| + |y1| := by
    have := abs_pos.2 (ne_of_lt h1)
    have := abs_nonneg x1
    linarith
  have hs2 : 0 < |x2| + |y2| := by
    have := abs_pos.2 (ne_of_lt h2)
    have := abs_nonneg x2
    linarith
  have hk2 : x1 / (|x1| + |y1|) < x2 / (|x2| + |y2|) := by linarith
  rw [div_lt_div_iff₀ hs1 hs2] at hk2
  rw [abs_of_neg h1, abs_of_neg h2] at hk2
  rcases le_or_lt 0 x1 with hx1 | hx1 <;> rcases le_or_lt 0 x2 with hx2 | hx2
  · rw [abs_of_nonneg hx1, abs_of_nonneg hx2] at hk2
    nlinarith
  · rw [abs_of_nonneg hx1, abs_of_neg hx2] at hk2
    nlinarith
  · rw [abs_of_neg hx1, abs_of_nonneg hx2] at hk2
    nlinarith
  · rw [abs_of_neg hx1, abs_of_neg hx2] at hk2
    nlinarith

/-- In the closed upper half plane a smaller key never means a clockwise turn. -/
theorem key_lt_upper (x1 y1 x2 y2 : ℚ) (h1 : 0 ≤ y1) (h2 : 0 ≤ y2)
    (n1 : ¬ (x1 = 0 ∧ y1 = 0)) (n2 : ¬ (x2 = 0 ∧ y2 = 0))
    (hk : atan2Key y1 x1 < atan2Key y2 x2) : 0 ≤ x1 * y2 - y1 * x2 := by
  rw [atan2Key_upper x1 y1 n1 h1, atan2Key_upper x2 y2 n2 h2] at hk
  have hs1 := abs_sum_pos x1 y1 n1
  have hs2 := abs_sum_pos x2 y2 n2
  have hk2 : x2 / (|x2| + |y2|) < x1 / (|x1| + |y1|) := by linarith
  rw [div_lt_div_iff₀ hs2 hs1] at hk2
  rw [abs_of_nonneg h1, abs_of_nonneg h2] at hk2
  rcases le_or_lt 0 x1 with hx1 | hx1 <;> rcases le_or_lt 0 x2 with hx2 | hx2
  · rw [abs_of_nonneg hx1, abs_of_nonneg hx2] at hk2
    nlinarith
  · rw [abs_of_nonneg hx1, abs_of_neg hx2] at hk2
    nlinarith
  · rw [abs_of_neg hx1, abs_of_nonneg hx2] at hk2
    nlinarith
  · rw [abs_of_neg hx1, abs_of_neg hx2] at hk2
    nlinarith

/-- Two non-zero directions with the same key are positive multiples of each other. -/
theorem key_eq_same_direction (x1 y1 x2 y2 : ℚ)
    (n1 : ¬ (x1 = 0 ∧ y1 = 0)) (n2 : ¬ (x2 = 0 ∧ y2 = 0))
    (hk : atan2Key y1 x1 = atan2Key y2 x2) :
    ∃ t : ℚ, 0 < t ∧ x2 = t * x1 ∧ y2 = t * y1 := by
  have hs1 := abs_sum_pos x1 y1 n1
  have hs2 := abs_sum_pos x2 y2 n2
  refine ⟨(|x2| + |y2|) / (|x1| + |y1|), div_pos hs2 hs1, ?_⟩
  rcases le_or_lt 0 y1 with h1 | h1 <;> rcases le_or_lt 0 y2 with h2 | h2
  · rw [atan2Key_upper x1 y1 n1 h1, atan2Key_upper x2 y2 n2 h2] at hk
    have hk2 : x1 / (|x1| + |y1|) = x2 / (|x2| + |y2|) := by linarith
    rw [div_eq_div_iff (ne_of_gt hs1) (ne_of_gt hs2)] at hk2
    rw [div_mul_eq_mul_div, div_mul_eq_mul_div, eq_div_iff (ne_of_gt hs1),
      eq_div_iff (ne_of_gt hs1)]
    rw [abs_of_nonneg h1, abs_of_nonneg h2] at hk2 ⊢
    rcases le_or_lt 0 x1 with hx1 | hx1 <;> rcases le_or_lt 0 x2 with hx2 | hx2
    · rw [abs_of_nonneg hx1, abs_of_nonneg hx2] at hk2 ⊢
      constructor <;> nlinarith
    · rw [abs_of_nonneg hx1, abs_of_neg hx2] at hk2 ⊢
      exfalso
      have hy2 : 0 < -x2 + y2 := by linarith
      have : x1 * (-x2 + y2) ≥ 0 := mul_nonneg hx1 (le_of_lt hy2)
      have : x2 * (x1 + y1) ≤ 0 := by nlinarith
      rcases eq_or_lt_of_le hx1 with h0 | h0
      · rw [← h0] at hk2 n1
        simp at n1
        have : 0 < y1 := lt_of_le_of_ne h1 (Ne.symm n1)
        nlinarith
      · nlinarith
    · rw [abs_of_neg hx1, abs_of_nonneg hx2] at hk2 ⊢
      exfalso
      have hy1 : 0 < -x1 + y1 := by linarith
      rcases eq_or_lt_of_le hx2 with h0 | h0
      · rw [← h0] at hk2 n2
        simp at n2
        have : 0 < y2 := lt_of_le_of_ne h2 (Ne.symm n2)
        nlinarith
      · nlinarith
    · rw [abs_of_neg hx1, abs_of_neg hx2] at hk2 ⊢
      constructor <;> nlinarith
  · exfalso
    have := atan2Key_nonneg_of_upper x1 y1 h1
    have := atan2Key_neg_of_lower x2 y2 h2
    linarith
  · exfalso
    have := atan2Key_nonneg_of_upper x2 y2 h2
    have := atan2Key_neg_of_lower x1 y1 h1
    linarith
  · rw [atan2Key_lower x1 y1 h1, atan2Key_lower x2 y2 h2] at hk
    have hk2 : x1 / (|x1| + |y1|) = x2 / (|x2| + |y2|) := by linarith
    rw [div_eq_div_iff (ne_of_gt hs1) (ne_of_gt hs2)] at hk2
    rw [div_mul_eq_mul_div, div_mul_eq_mul_div, eq_div_iff (ne_of_gt hs1),
      eq_div_iff (ne_of_gt hs1)]
    rw [abs_of_neg h1, abs_of_neg h2] at hk2 ⊢
    rcases le_or_lt 0 x1 with hx1 | hx1 <;> rcases le_or_lt 0 x2 with hx2 | hx2
    · rw [abs_of_nonneg hx1, abs_of_nonneg hx2] at hk2 ⊢
      constructor <;> nlinarith
    · rw [abs_of_nonneg hx1, abs_of_neg hx2] at hk2 ⊢
      exfalso
      nlinarith
    · rw [abs_of_neg hx1, abs_of_nonneg hx2] at hk2 ⊢
      exfalso
      nlinarith
    · rw [abs_of_neg hx1, abs_of_neg hx2] at hk2 ⊢
      constructor <;> nlinarith

/-! ## Strictly convex polygons and their interior points -/

theorem cross_self_left (a b : Point) : cross a b a = 0 := by
  simp [cross]

theorem cross_self_right (a b : Point) : cross a b b = 0 := by
  unfold cross
  ring

theorem cross_swap (a b p : Point) : cross a p b = - cross a b p := by
  unfold cross
  ring

theorem cross_cycle (a b p : Point) : cross b p a = cross a b p := by
  unfold cross
  ring

theorem cross_flip (a b p : Point) : cross b a p = - cross a b p := by
  unfold cross
  ring

theorem closedPairs_rotate (P : List Point) (k : ℕ) :
    closedPairs (P.rotate k) = (closedPairs P).rotate k := by
  unfold closedPairs
  rw [List.zip_eq_zipWith, List.zip_eq_zipWith, List.zipWith_rotate_distrib _ _ _ _ (by simp)]
  rw [List.rotate_rotate, List.rotate_rotate, Nat.add_comm]

theorem mem_closedPairs_rotate (P : List Point) (k : ℕ) (e : Point × Point) :
    e ∈ closedPairs (P.rotate k) ↔ e ∈ closedPairs P := by
  rw [closedPairs_rotate, List.mem_rotate]

theorem closedPairs_fst_mem (P : List Point) (e : Point × Point) (h : e ∈ closedPairs P) :
    e.1 ∈ P := by
  unfold closedPairs at h
  exact (List.of_mem_zip h).1

theorem closedPairs_snd_mem (P : List Point) (e : Point × Point) (h : e ∈ closedPairs P) :
    e.2 ∈ P := by
  unfold closedPairs at h
  have := (List.of_mem_zip h).2
  exact List.mem_rotate.1 this

theorem exists_out_edge (P : List Point) (v : Point) (h : v ∈ P) :
    ∃ w, (v, w) ∈ closedPairs P := by
  obtain ⟨i, hi, rfl⟩ := List.getElem_of_mem h
  refine ⟨P.getD ((i + 1) % P.length) default, ?_⟩
  rw [mem_closedPairs]
  refine ⟨i, hi, ?_⟩
  rw [List.getD_eq_getElem P default hi]

theorem exists_in_edge (P : List Point) (v : Point) (h : v ∈ P) :
    ∃ u, (u, v) ∈ closedPairs P := by
  obtain ⟨i, hi, rfl⟩ := List.getElem_of_mem h
  have hn : 0 < P.length := Nat.lt_of_le_of_lt (Nat.zero_le _) hi
  refine ⟨P.getD ((i + (P.length - 1)) % P.length) default, ?_⟩
  rw [mem_closedPairs]
  refine ⟨(i + (P.length - 1)) % P.length, Nat.mod_lt _ hn, ?_⟩
  have : ((i + (P.length - 1)) % P.length + 1) % P.length = i := by
    rw [Nat.add_mod, Nat.mod_mod, ← Nat.add_mod]
    have : i + (P.length - 1) + 1 = i + P.length := by omega
    rw [this, Nat.add_mod_right, Nat.mod_eq_of_lt hi]
  rw [this, List.getD_eq_getElem P default hi]

theorem exists_third (P : List Point) (hn : P.Nodup) (h3 : 3 ≤ P.length) (a b : Point) :
    ∃ v ∈ P, v ≠ a ∧ v ≠ b := by
  match P, hn, h3 with
  | x :: y :: z :: t, hn, _ =>
    have hxy : x ≠ y := by
      intro h
      rw [h] at hn
      simp at hn
    have hxz : x ≠ z := by
      intro h
      rw [h] at hn
      simp at hn
    have hyz : y ≠ z := by
      intro h
      rw [h] at hn
      simp at hn
    by_cases hxa : x = a
    · by_cases hyb : y = b
      · refine ⟨z, by simp, ?_, ?_⟩
        · rw [← hxa]
          exact fun h => hxz h.symm
        · rw [← hyb]
          exact fun h => hyz h.symm
      · by_cases hya : y = a
        · exact absurd (hxa.trans hya.symm) hxy
        · exact ⟨y, by simp, hya, hyb⟩
    · by_cases hxb : x = b
      · by_cases hya : y = a
        · refine ⟨z, by simp, ?_, ?_⟩
          · rw [← hya]
            exact fun h => hyz h.symm
          · rw [← hxb]
            exact fun h => hxz h.symm
        · by_cases hyb : y = b
          · exact absurd (hxb.trans hyb.symm) hxy
          · exact ⟨y, by simp, hya, hyb⟩
      · exact ⟨x, by simp, hxa, hxb⟩

/-- Every vertex of a strictly convex polygon is weakly left of every edge. -/
theorem convex_weak (P : List Point) (hP : StrictConvexCCW P) (e : Point × Point)
    (he : e ∈ closedPairs P) (v : Point) (hv : v ∈ P) : 0 ≤ cross e.1 e.2 v := by
  by_cases h1 : v = e.1
  · rw [h1, cross_self_left]
  · by_cases h2 : v = e.2
    · rw [h2, cross_self_right]
    · exact le_of_lt (hP.2.2 e he v hv h1 h2)

theorem sum_map_div_const {α : Type} (f : α → ℚ) (l : List α) (n : ℚ) :
    (l.map (fun v => f v / n)).sum = (l.map f).sum / n := by
  induction l with
  | nil => simp
  | cons x t ih =>
    simp only [List.map_cons, List.sum_cons, ih]
    ring

theorem vertexMean_eq (L : List Point) :
    vertexMean L
      = ((L.map (fun v => v.x)).sum / (L.length : ℚ), (L.map (fun v => v.y)).sum / (L.length : ℚ)) := by
  unfold vertexMean
  rw [foldl_pair_sum (fun v => v.x / (L.length : ℚ)) (fun v => v.y / (L.length : ℚ)) L 0 0]
  rw [sum_map_div_const, sum_map_div_const]
  simp

theorem sum_cross (a b : Point) (L : List Point) :
    (L.map (cross a b)).sum
      = (b.x - a.x) * (L.map (fun v => v.y)).sum - (b.y - a.y) * (L.map (fun v => v.x)).sum
        + (L.length : ℚ) * ((b.y - a.y) * a.x - (b.x - a.x) * a.y) := by
  induction L with
  | nil => simp
  | cons v t ih =>
    simp only [List.map_cons, List.sum_cons, ih, List.length_cons, Nat.cast_add, Nat.cast_one]
    unfold cross
    ring

/-- An affine test `cross a b` at the mean is the mean of its values. -/
theorem cross_meanPoint (a b : Point) (L : List Point) (hL : L ≠ []) :
    (L.length : ℚ) * cross a b (meanPoint L) = (L.map (cross a b)).sum := by
  have hn : (L.length : ℚ) ≠ 0 := by
    have : L.length ≠ 0 := fun h => hL (List.length_eq_zero.1 h)
    exact_mod_cast this
  rw [sum_cross]
  unfold meanPoint
  rw [vertexMean_eq]
  unfold cross
  simp only
  field_simp
  ring

theorem sum_map_pos {α : Type} (f : α → ℚ) (l : List α) (h0 : ∀ x ∈ l, 0 ≤ f x)
    (h1 : ∃ x ∈ l, 0 < f x) : 0 < (l.map f).sum := by
  induction l with
  | nil =>
    obtain ⟨x, hx, _⟩ := h1
    simp at hx
  | cons y t ih =>
    simp only [List.map_cons, List.sum_cons]
    have hy : 0 ≤ f y := h0 y (by simp)
    have ht : 0 ≤ (t.map f).sum := by
      apply List.sum_nonneg
      intro z hz
      obtain ⟨w, hw, rfl⟩ := List.mem_map.1 hz
      exact h0 w (by simp [hw])
    obtain ⟨x, hx, hpos⟩ := h1
    rcases List.mem_cons.1 hx with rfl | hx'
    · linarith
    · have := ih (fun z hz => h0 z (by simp [hz])) ⟨x, hx', hpos⟩
      linarith

/-- The mean of a list that consists of the vertices of a strictly convex
polygon (each at least once) is strictly left of every edge. -/
theorem mean_interior (P L : List Point) (hP : StrictConvexCCW P)
    (h1 : ∀ x ∈ L, x ∈ P) (h2 : ∀ v ∈ P, v ∈ L) (e : Point × Point)
    (he : e ∈ closedPairs P) : 0 < cross e.1 e.2 (meanPoint L) := by
  obtain ⟨v, hv, hva, hvb⟩ := exists_third P hP.1 hP.2.1 e.1 e.2
  have hL : L ≠ [] := by
    intro h
    have := h2 v hv
    rw [h] at this
    simp at this
  have hsum : 0 < (L.map (cross e.1 e.2)).sum := by
    apply sum_map_pos
    · intro x hx
      exact convex_weak P hP e he x (h1 x hx)
    · exact ⟨v, h2 v hv, hP.2.2 e he v hv hva hvb⟩
  rw [← cross_meanPoint e.1 e.2 L hL] at hsum
  have hn : (0 : ℚ) < (L.length : ℚ) := by
    have : 0 < L.length := List.length_pos.2 hL
    exact_mod_cast this
  rcases lt_trichotomy 0 (cross e.1 e.2 (meanPoint L)) with h' | h' | h'
  · exact h'
  · rw [← h'] at hsum
    simp at hsum
  · nlinarith

/-! ## The angular order around an interior point is the boundary order -/

theorem keyAt_eq (c v : Point) : keyAt c v = atan2Key (v.y - c.y) (v.x - c.x) := rfl

theorem cross_rel (c u v : Point) :
    (u.x - c.x) * (v.y - c.y) - (u.y - c.y) * (v.x - c.x) = cross c u v := rfl

/-- A vertex is not the interior point. -/
theorem vertex_ne_center (P : List Point) (c : Point)
    (hc : ∀ e ∈ closedPairs P, 0 < cross e.1 e.2 c) (v : Point) (hv : v ∈ P) :
    ¬ (v.x - c.x = 0 ∧ v.y - c.y = 0) := by
  rintro ⟨hx, hy⟩
  obtain ⟨w, hw⟩ := exists_out_edge P v hv
  have h := hc (v, w) hw
  have hvc : v = c := by
    cases v
    cases c
    simp only [Point.mk.injEq]
    simp only at hx hy
    constructor <;> linarith
  simp only at h
  rw [← hvc, cross_self_left] at h
  exact lt_irrefl _ h

/-- No vertex other than the two ends of an edge lies in the closed cone that
the edge spans as seen from an interior point. -/
theorem cone_empty (P : List Point) (hP : StrictConvexCCW P) (c : Point)
    (hc : ∀ e ∈ closedPairs P, 0 < cross e.1 e.2 c) (a b q : Point)
    (hab : (a, b) ∈ closedPairs P) (hq : q ∈ P) (hqa : q ≠ a) (hqb : q ≠ b)
    (h1 : 0 ≤ cross c a q) (h2 : 0 ≤ cross c q b) : False := by
  obtain ⟨w, hw⟩ := exists_out_edge P q hq
  have hgc : 0 < cross q w c := hc (q, w) hw
  have hga : 0 ≤ cross q w a := convex_weak P hP (q, w) hw a (closedPairs_fst_mem P _ hab)
  have hgb : 0 ≤ cross q w b := convex_weak P hP (q, w) hw b (closedPairs_snd_mem P _ hab)
  have hfq : 0 < cross a b q := hP.2.2 (a, b) hab q hq hqa hqb
  have hid : cross c a b * cross q w q
      = cross a b q * cross q w c + cross c q b * cross q w a + cross c a q * cross q w b := by
    unfold cross
    ring
  rw [cross_self_left, mul_zero] at hid
  have t1 : 0 < cross a b q * cross q w c := mul_pos hfq hgc
  have t2 : 0 ≤ cross c q b * cross q w a := mul_nonneg h2 hga
  have t3 : 0 ≤ cross c a q * cross q w b := mul_nonneg h1 hgb
  linarith

/-- Distinct vertices have distinct angle keys around an interior point. -/
theorem key_injective (P : List Point) (hP : StrictConvexCCW P) (c : Point)
    (hc : ∀ e ∈ closedPairs P, 0 < cross e.1 e.2 c) (u v : Point) (hu : u ∈ P) (hv : v ∈ P)
    (hk : keyAt c u = keyAt c v) : u = v := by
  have nu := vertex_ne_center P c hc u hu
  have nv := vertex_ne_center P c hc v hv
  rw [keyAt_eq, keyAt_eq] at hk
  obtain ⟨t, ht, hx, hy⟩ := key_eq_same_direction _ _ _ _ nu nv hk
  obtain ⟨w, hw⟩ := exists_out_edge P u hu
  obtain ⟨w', hw'⟩ := exists_out_edge P v hv
  have g1c : 0 < cross u w c := hc (u, w) hw
  have g1v : 0 ≤ cross u w v := convex_weak P hP (u, w) hw v hv
  have g2c : 0 < cross v w' c := hc (v, w') hw'
  have g2u : 0 ≤ cross v w' u := convex_weak P hP (v, w') hw' u hu
  have hvx : v.x = c.x + t * (u.x - c.x) := by linarith
  have hvy : v.y = c.y + t * (u.y - c.y) := by linarith
  have e1 : cross u w v = (1 - t) * cross u w c := by
    unfold cross
    rw [hvx, hvy]
    ring
  have e2 : t * cross v w' u = (t - 1) * cross v w' c := by
    have hux : t * u.x = v.x - c.x + t * c.x := by linarith
    have huy : t * u.y = v.y - c.y + t * c.y := by linarith
    unfold cross
    have : t * ((w'.x - v.x) * (u.y - v.y) - (w'.y - v.y) * (u.x - v.x))
        = (w'.x - v.x) * (t * u.y - t * v.y) - (w'.y - v.y) * (t * u.x - t * v.x) := by ring
    rw [this, hux, huy]
    ring
  have ht1 : t ≤ 1 := by
    by_contra hcon
    push_neg at hcon
    have : (1 - t) * cross u w c < 0 := mul_neg_of_neg_of_pos (by linarith) g1c
    linarith
  have ht2 : 1 ≤ t := by
    by_contra hcon
    push_neg at hcon
    have h1 : (t - 1) * cross v w' c < 0 := mul_neg_of_neg_of_pos (by linarith) g2c
    have h2 : 0 ≤ t * cross v w' u := mul_nonneg (le_of_lt ht) g2u
    linarith
  have ht3 : t = 1 := le_antisymm ht1 ht2
  rw [ht3] at hvx hvy
  cases u
  cases v
  simp only [Point.mk.injEq]
  simp only at hvx hvy
  constructor <;> linarith

/-- A counter-clockwise step of less than half a turn along which the key
drops goes across the cut of `atan2`; every direction whose key is below both
ends then lies in the cone of the step. -/
theorem wrap_cone (c a b q : Point)
    (na : ¬ (a.x - c.x = 0 ∧ a.y - c.y = 0)) (nb : ¬ (b.x - c.x = 0 ∧ b.y - c.y = 0))
    (hqb : keyAt c q < keyAt c b) (hba : keyAt c b < keyAt c a) (hab : 0 < cross c a b) :
    0 ≤ cross c a q ∧ 0 ≤ cross c q b := by
  rw [keyAt_eq, keyAt_eq] at hqb hba
  rcases le_or_lt 0 (a.y - c.y) with ha | ha
  · rcases le_or_lt 0 (b.y - c.y) with hb | hb
    · have := key_lt_upper _ _ _ _ hb ha nb na hba
      rw [cross_rel] at this
      have h2 : cross c b a = - cross c a b := cross_swap c a b
      linarith
    · have hq : q.y - c.y < 0 := by
        by_contra hcon
        push_neg at hcon
        have := atan2Key_nonneg_of_upper (q.x - c.x) (q.y - c.y) hcon
        have := atan2Key_neg_of_lower (b.x - c.x) (b.y - c.y) hb
        linarith
      have hqb2 := key_lt_lower _ _ _ _ hq hb hqb
      rw [cross_rel] at hqb2
      refine ⟨?_, le_of_lt hqb2⟩
      have hid : cross c a q * (b.y - c.y)
          = cross c a b * (q.y - c.y) - cross c q b * (a.y - c.y) := by
        unfold cross
        ring
      have t1 : cross c a b * (q.y - c.y) < 0 := mul_neg_of_pos_of_neg hab hq
      have t2 : 0 ≤ cross c q b * (a.y - c.y) := mul_nonneg (le_of_lt hqb2) ha
      have t3 : cross c a q * (b.y - c.y) < 0 := by linarith
      by_contra hcon
      push_neg at hcon
      have : 0 < cross c a q * (b.y - c.y) := mul_pos_of_neg_of_neg hcon hb
      linarith
  · have hb : b.y - c.y < 0 := by
      by_contra hcon
      push_neg at hcon
      have := atan2Key_nonneg_of_upper (b.x - c.x) (b.y - c.y) hcon
      have := atan2Key_neg_of_lower (a.x - c.x) (a.y - c.y) ha
      linarith
    have := key_lt_lower _ _ _ _ hb ha hba
    rw [cross_rel] at this
    have h2 : cross c b a = - cross c a b := cross_swap c a b
    linarith

theorem chain'_of_zip_tail {α : Type} (R : α → α → Prop) (l : List α)
    (h : ∀ p ∈ l.zip l.tail, R p.1 p.2) : List.Chain' R l := by
  induction l with
  | nil => exact List.chain'_nil
  | cons a t ih =>
    cases t with
    | nil => exact List.chain'_singleton a
    | cons b t' =>
      rw [List.chain'_cons]
      constructor
      · exact h (a, b) (by simp)
      · apply ih
        intro p hp
        apply h p
        simp only [List.tail_cons] at hp ⊢
        rw [List.zip_cons_cons]
        exact List.mem_cons_of_mem _ hp

theorem zip_tail_subset_closedPairs (m : Point) (rest : List Point) (p : Point × Point)
    (hp : p ∈ (m :: rest).zip (m :: rest).tail) : p ∈ closedPairs (m :: rest) := by
  unfold closedPairs
  rw [List.rotate_cons_succ, List.rotate_zero]
  simp only [List.tail_cons] at hp
  have : ∀ (l1 l2 l3 : List Point) (p : Point × Point), p ∈ l1.zip l2 → p ∈ l1.zip (l2 ++ l3) := by
    intro l1
    induction l1 with
    | nil => intro l2 l3 p hp; simp at hp
    | cons a t ih =>
      intro l2 l3 p hp
      cases l2 with
      | nil => simp at hp
      | cons b t2 =>
        simp only [List.cons_append, List.zip_cons_cons, List.mem_cons] at hp ⊢
        rcases hp with h | h
        · exact Or.inl h
        · exact Or.inr (ih t2 l3 p h)
  exact this _ _ _ p hp

/-- Some rotation of the boundary list is strictly increasing in the angle key
around an interior point. -/
theorem exists_sorted_rotation (P : List Point) (hP : StrictConvexCCW P) (c : Point)
    (hc : ∀ e ∈ closedPairs P, 0 < cross e.1 e.2 c) :
    ∃ k, (P.rotate k).Pairwise (fun u v => keyAt c u < keyAt c v) := by
  have hne : P.toFinset.Nonempty := by
    obtain ⟨v, hv, _⟩ := exists_third P hP.1 hP.2.1 default default
    exact ⟨v, List.mem_toFinset.2 hv⟩
  obtain ⟨m, hm, hmin⟩ := P.toFinset.exists_min_image (keyAt c) hne
  rw [List.mem_toFinset] at hm
  obtain ⟨s, t, hst⟩ := List.append_of_mem hm
  refine ⟨s.length, ?_⟩
  have hrot : P.rotate s.length = m :: (t ++ s) := by
    rw [hst, List.rotate_append_length_eq]
    rfl
  have hperm : (m :: (t ++ s)).Perm P := by
    rw [← hrot]
    exact List.rotate_perm P _
  have hnd : (m :: (t ++ s)).Nodup := hperm.nodup_iff.2 hP.1
  have hmem : ∀ x, x ∈ (m :: (t ++ s)) ↔ x ∈ P := fun x => hperm.mem_iff
  rw [hrot]
  haveI : IsTrans Point (fun u v => keyAt c u < keyAt c v) :=
    ⟨fun _ _ _ h1 h2 => lt_trans h1 h2⟩
  rw [← List.chain'_iff_pairwise]
  apply chain'_of_zip_tail
  intro p hp
  have hedge : p ∈ closedPairs P := by
    have := zip_tail_subset_closedPairs m (t ++ s) p hp
    rw [← hrot, mem_closedPairs_rotate] at this
    exact this
  have hp2 : p.2 ∈ t ++ s := by
    simp only [List.tail_cons] at hp
    exact (List.of_mem_zip hp).2
  have hbm : p.2 ≠ m := by
    intro h
    rw [h] at hp2
    exact (List.nodup_cons.1 hnd).1 hp2
  have ha : p.1 ∈ P := closedPairs_fst_mem P p hedge
  have hb : p.2 ∈ P := closedPairs_snd_mem P p hedge
  by_contra hcon
  push_neg at hcon
  have hne12 : p.1 ≠ p.2 := by
    intro h
    obtain ⟨v, hv, hva, hvb⟩ := exists_third P hP.1 hP.2.1 p.1 p.2
    have := hP.2.2 p hedge v hv hva hvb
    have h0 : cross p.1 p.2 v = 0 := by
      rw [← h]
      unfold cross
      ring
    linarith
  have hlt : keyAt c p.2 < keyAt c p.1 := by
    rcases eq_or_lt_of_le hcon with h | h
    · exact absurd (key_injective P hP c hc p.2 p.1 hb ha h).symm hne12
    · exact h
  have hmb : keyAt c m < keyAt c p.2 := by
    rcases eq_or_lt_of_le (hmin p.2 (List.mem_toFinset.2 hb)) with h | h
    · exact absurd (key_injective P hP c hc m p.2 hm hb h).symm hbm
    · exact h
  have hma : m ≠ p.1 := by
    intro h
    rw [← h] at hlt
    linarith
  have hcone := wrap_cone c p.1 p.2 m (vertex_ne_center P c hc p.1 ha)
    (vertex_ne_center P c hc p.2 hb) hmb hlt (by
      have := hc p hedge
      rw [← cross_cycle] at this
      have h2 : cross p.2 c p.1 = cross c p.1 p.2 := by
        unfold cross
        ring
      rw [← h2]
      exact this)
  exact cone_empty P hP c hc p.1 p.2 m hedge hm hma (fun h => hbm h.symm) hcone.1 hcone.2

/-! ## Sorting a list supported on the vertices of a strictly convex polygon -/

theorem chainSum_cons_cons (a b : Point) (t : List Point) :
    chainSum (a :: b :: t) = (a.x * b.y - b.x * a.y) + chainSum (b :: t) := rfl

theorem zip_shift_sum (a x : Point) (t : List Point) :
    (((a :: t).zip (t ++ [x])).map (fun e => e.1.x * e.2.y - e.2.x * e.1.y)).sum
      = chainSum (a :: t ++ [x]) := by
  induction t generalizing a with
  | nil => simp [chainSum]
  | cons b t' ih =>
    rw [List.cons_append, List.zip_cons_cons, List.map_cons, List.sum_cons, ih b]
    rfl

theorem shoelace_cons (a : Point) (t : List Point) :
    shoelace (a :: t) = chainSum (a :: t ++ [a]) := by
  unfold shoelace closedPairs
  rw [List.rotate_cons_succ, List.rotate_zero]
  exact zip_shift_sum a a t

theorem shoelace_rotate (P : List Point) (k : ℕ) : shoelace (P.rotate k) = shoelace P := by
  unfold shoelace
  rw [closedPairs_rotate, List.map_rotate]
  exact (List.rotate_perm _ k).sum_eq

theorem chainSum_replicate (v : Point) (k : ℕ) (Z : List Point) :
    chainSum (v :: (List.replicate k v ++ Z)) = chainSum (v :: Z) := by
  induction k with
  | zero => simp
  | succ n ih =>
    rw [List.replicate_succ, List.cons_append, chainSum_cons_cons, ih]
    ring

theorem chainSum_blowUp (m : Point → ℕ) (T X : List Point) (hm : ∀ v ∈ T, 1 ≤ m v) (a : Point) :
    chainSum (a :: (blowUp m T ++ X)) = chainSum (a :: (T ++ X)) := by
  induction T generalizing a with
  | nil => simp [blowUp]
  | cons v T' ih =>
    have hv : 1 ≤ m v := hm v (by simp)
    obtain ⟨k, hk⟩ : ∃ k, m v = k + 1 := ⟨m v - 1, by omega⟩
    have hb : blowUp m (v :: T') = v :: (List.replicate k v ++ blowUp m T') := by
      simp [blowUp, List.flatMap_cons, hk, List.replicate_succ]
    rw [hb, List.cons_append, List.cons_append, chainSum_cons_cons, chainSum_cons_cons,
      List.append_assoc, chainSum_replicate, ih (fun w hw => hm w (by simp [hw])) v]

theorem shoelace_blowUp (m : Point → ℕ) (T : List Point) (hm : ∀ v ∈ T, 1 ≤ m v) :
    shoelace (blowUp m T) = shoelace T := by
  cases T with
  | nil => simp [blowUp]
  | cons v T' =>
    have hv : 1 ≤ m v := hm v (by simp)
    obtain ⟨k, hk⟩ : ∃ k, m v = k + 1 := ⟨m v - 1, by omega⟩
    have hb : blowUp m (v :: T') = v :: (List.replicate k v ++ blowUp m T') := by
      simp [blowUp, List.flatMap_cons, hk, List.replicate_succ]
    rw [hb, shoelace_cons, shoelace_cons]
    simp only [List.cons_append, List.append_assoc]
    rw [chainSum_replicate, chainSum_blowUp m T' [v] (fun w hw => hm w (by simp [hw])) v]

theorem count_blowUp (m : Point → ℕ) (T : List Point) (hT : T.Nodup) (a : Point) :
    (blowUp m T).count a = if a ∈ T then m a else 0 := by
  induction T with
  | nil => simp [blowUp]
  | cons v T' ih =>
    have hv : v ∉ T' := (List.nodup_cons.1 hT).1
    have hb : blowUp m (v :: T') = List.replicate (m v) v ++ blowUp m T' := by
      simp [blowUp, List.flatMap_cons]
    rw [hb, List.count_append, ih (List.nodup_cons.1 hT).2, List.count_replicate]
    by_cases hav : a = v
    · subst hav
      simp [hv]
    · have hva : ¬ v = a := fun h => hav h.symm
      simp [hav, hva]

theorem blowUp_perm (T L : List Point) (hT : T.Nodup) (h1 : ∀ x ∈ L, x ∈ T) :
    (blowUp (fun v => L.count v) T).Perm L := by
  rw [List.perm_iff_count]
  intro a
  rw [count_blowUp _ T hT a]
  by_cases ha : a ∈ T
  · simp [ha]
  · have : a ∉ L := fun h => ha (h1 a h)
    simp [ha, List.count_eq_zero_of_not_mem this]

theorem blowUp_sorted (key : Point → ℚ) (m : Point → ℕ) (T : List Point)
    (hT : T.Pairwise (fun u v => key u < key v)) :
    (blowUp m T).Pairwise (fun u v => key u ≤ key v) := by
  unfold blowUp
  rw [List.pairwise_flatMap]
  constructor
  · intro a _
    rw [List.pairwise_replicate]
    right
    exact le_refl _
  · apply hT.imp
    intro a b hab x hx y hy
    rw [List.eq_of_mem_replicate hx, List.eq_of_mem_replicate hy]
    exact le_of_lt hab

/-- Sorting a list `L` that consists of the vertices of a strictly convex polygon
`P`, each at least once, yields a rotation of `P` with every vertex repeated in
place as often as it occurs in `L`. -/
theorem sort_of_support (P L : List Point) (hP : StrictConvexCCW P)
    (h1 : ∀ x ∈ L, x ∈ P) (h2 : ∀ v ∈ P, v ∈ L) :
    ∃ k, SortVertices L = blowUp (fun v => L.count v) (P.rotate k) := by
  have hc := mean_interior P L hP h1 h2
  obtain ⟨k, hk⟩ := exists_sorted_rotation P hP (meanPoint L) hc
  refine ⟨k, ?_⟩
  have hmemT : ∀ x, x ∈ P.rotate k ↔ x ∈ P := fun x => List.mem_rotate
  have hTnd : (P.rotate k).Nodup := List.nodup_rotate.2 hP.1
  have hperm := blowUp_perm (P.rotate k) L hTnd (fun x hx => (hmemT x).2 (h1 x hx))
  have hsortedB := blowUp_sorted (keyAt (meanPoint L)) (fun v => L.count v) (P.rotate k) hk
  haveI : IsTotal Point (fun u v => keyAt (meanPoint L) u ≤ keyAt (meanPoint L) v) :=
    ⟨fun u v => le_total _ _⟩
  haveI : IsTrans Point (fun u v => keyAt (meanPoint L) u ≤ keyAt (meanPoint L) v) :=
    ⟨fun _ _ _ h1 h2 => le_trans h1 h2⟩
  have hsortedS : (SortVertices L).Pairwise
      (fun u v => keyAt (meanPoint L) u ≤ keyAt (meanPoint L) v) :=
    List.sorted_insertionSort (fun u v => keyAt (meanPoint L) u ≤ keyAt (meanPoint L) v) L
  have hpermS : (SortVertices L).Perm L :=
    List.perm_insertionSort (fun u v => keyAt (meanPoint L) u ≤ keyAt (meanPoint L) v) L
  refine List.Perm.eq_of_sorted ?_ hsortedS hsortedB (hpermS.trans hperm.symm)
  intro a b ha hb hab hba
  have haP : a ∈ P := h1 a (hpermS.mem_iff.1 ha)
  have hbP : b ∈ P := h1 b (hperm.mem_iff.1 hb)
  exact key_injective P hP (meanPoint L) hc a b haP hbP (le_antisymm hab hba)

theorem count_pos_of_support (L : List Point) (v : Point) (h : v ∈ L) : 1 ≤ L.count v :=
  List.count_pos_iff.2 h

/-- The area the constructor derives from such a list is the area of `P`. -/
theorem area_of_support (P L : List Point) (hP : StrictConvexCCW P)
    (h1 : ∀ x ∈ L, x ∈ P) (h2 : ∀ v ∈ P, v ∈ L) :
    SetArea (SortVertices L) = 1 / 2 * |shoelace P| := by
  obtain ⟨k, hk⟩ := sort_of_support P L hP h1 h2
  rw [SetArea_eq_shoelace, hk, shoelace_blowUp, shoelace_rotate]
  intro v hv
  exact count_pos_of_support L v (h2 v (List.mem_rotate.1 hv))

theorem vertexMean_perm (vs vs' : List Point) (h : vs'.Perm vs) :
    vertexMean vs' = vertexMean vs := by
  rw [vertexMean_eq, vertexMean_eq, h.length_eq, (h.map _).sum_eq, (h.map _).sum_eq]

/-- Two lists of the vertices of a strictly convex polygon, each vertex once,
are sorted to the same list. -/
theorem sort_perm_eq (P vs vs' : List Point) (hP : StrictConvexCCW P) (hvs : vs.Perm P)
    (hvs' : vs'.Perm vs) : SortVertices vs' = SortVertices vs := by
  have hc := mean_interior P vs hP (fun x hx => hvs.mem_iff.1 hx) (fun v hv => hvs.mem_iff.2 hv)
  have hm : vertexMean vs' = vertexMean vs := vertexMean_perm vs vs' hvs'
  haveI : IsTotal Point (fun u v => keyAt (meanPoint vs) u ≤ keyAt (meanPoint vs) v) :=
    ⟨fun u v => le_total _ _⟩
  haveI : IsTrans Point (fun u v => keyAt (meanPoint vs) u ≤ keyAt (meanPoint vs) v) :=
    ⟨fun _ _ _ h1 h2 => le_trans h1 h2⟩
  have hs : (SortVertices vs).Pairwise
      (fun u v => keyAt (meanPoint vs) u ≤ keyAt (meanPoint vs) v) :=
    List.sorted_insertionSort (fun u v => keyAt (meanPoint vs) u ≤ keyAt (meanPoint vs) v) vs
  have hp : (SortVertices vs).Perm vs :=
    List.perm_insertionSort (fun u v => keyAt (meanPoint vs) u ≤ keyAt (meanPoint vs) v) vs
  have hs' : (SortVertices vs').Pairwise
      (fun u v => keyAt (meanPoint vs) u ≤ keyAt (meanPoint vs) v) := by
    unfold SortVertices
    rw [hm]
    exact List.sorted_insertionSort
      (fun u v => keyAt (meanPoint vs) u ≤ keyAt (meanPoint vs) v) vs'
  have hp' : (SortVertices vs').Perm vs' := by
    unfold SortVertices
    exact List.perm_insertionSort _ vs'
  refine List.Perm.eq_of_sorted ?_ hs' hs ((hp'.trans hvs').trans hp.symm)
  intro a b ha hb hab hba
  have haP : a ∈ P := hvs.mem_iff.1 (hvs'.mem_iff.1 (hp'.mem_iff.1 ha))
  have hbP : b ∈ P := hvs.mem_iff.1 (hp.mem_iff.1 hb)
  exact key_injective P hP (meanPoint vs) hc a b haP hbP (le_antisymm hab hba)

/-! ## The region of a polygon -/

theorem inHull_mono (l l' : List Point) (h : ∀ x ∈ l, x ∈ l') (p : Point) (hp : InHull l p) :
    InHull l' p := by
  induction hp with
  | vertex hv => exact InHull.vertex (h _ hv)
  | between t h0 h1 _ _ ihp ihq => exact InHull.between t h0 h1 ihp ihq

theorem inHull_sort_iff (vs : List Point) (p : Point) :
    InHull (SortVertices vs) p ↔ InHull vs p := by
  have hp : (SortVertices vs).Perm vs := by
    unfold SortVertices
    exact List.perm_insertionSort _ vs
  exact ⟨inHull_mono _ _ (fun x hx => hp.mem_iff.1 hx) p,
    inHull_mono _ _ (fun x hx => hp.mem_iff.2 hx) p⟩

/-- The value of `cross a b` at a point of a segment. -/
theorem cross_between (a b p q : Point) (t : ℚ) :
    cross a b ⟨p.x + t * (q.x - p.x), p.y + t * (q.y - p.y)⟩
      = (1 - t) * cross a b p + t * cross a b q := by
  unfold cross
  ring

/-- A test `cross a b` that is non-negative on the vertices is non-negative on
the region. -/
theorem inHull_cross_nonneg (l : List Point) (a b : Point) (h : ∀ v ∈ l, 0 ≤ cross a b v)
    (p : Point) (hp : InHull l p) : 0 ≤ cross a b p := by
  induction hp with
  | vertex hv => exact h _ hv
  | between t h0 h1 _ _ ihp ihq =>
    rw [cross_between]
    have : 0 ≤ (1 - t) * cross a b _ := mul_nonneg (by linarith) ihp
    have : 0 ≤ t * cross a b _ := mul_nonneg h0 ihq
    linarith

theorem inHull_x_le (l : List Point) (M : ℚ) (h : ∀ v ∈ l, v.x ≤ M) (p : Point)
    (hp : InHull l p) : p.x ≤ M := by
  induction hp with
  | vertex hv => exact h _ hv
  | between t h0 h1 _ _ ihp ihq =>
    simp only
    nlinarith

theorem inHull_x_ge (l : List Point) (M : ℚ) (h : ∀ v ∈ l, M ≤ v.x) (p : Point)
    (hp : InHull l p) : M ≤ p.x := by
  induction hp with
  | vertex hv => exact h _ hv
  | between t h0 h1 _ _ ihp ihq =>
    simp only
    nlinarith

theorem bary_combination (α β γ ax bx cx vx : ℚ) (h1 : α + β ≠ 0) (h2 : α + β + γ ≠ 0)
    (hx : (α + β + γ) * vx = α * ax + β * bx + γ * cx) :
    ax + β / (α + β) * (bx - ax) + γ / (α + β + γ) * (cx - (ax + β / (α + β) * (bx - ax)))
      = vx := by
  have hv : vx = (α * ax + β * bx + γ * cx) / (α + β + γ) := by
    rw [eq_div_iff h2]
    linarith
  rw [hv]
  field_simp
  ring

/-- A point that three vertices see under positive (one of them: non-negative)
barycentric weights lies in the region. -/
theorem inHull_triangle (l : List Point) (a b c v : Point) (ha : a ∈ l) (hb : b ∈ l)
    (hc : c ∈ l) (h1 : 0 < cross b c v) (h2 : 0 ≤ cross c a v) (h3 : 0 < cross a b v) :
    InHull l v := by
  have hs1 : 0 < cross b c v + cross c a v := by linarith
  have hs2 : 0 < cross b c v + cross c a v + cross a b v := by linarith
  have hw := InHull.between (cross c a v / (cross b c v + cross c a v))
    (div_nonneg h2 (le_of_lt hs1)) ((div_le_one hs1).2 (by linarith))
    (InHull.vertex ha : InHull l a) (InHull.vertex hb : InHull l b)
  have hv := InHull.between (cross a b v / (cross b c v + cross c a v + cross a b v))
    (div_nonneg (le_of_lt h3) (le_of_lt hs2)) ((div_le_one hs2).2 (by linarith))
    hw (InHull.vertex hc : InHull l c)
  have hx : (cross b c v + cross c a v + cross a b v) * v.x
      = cross b c v * a.x + cross c a v * b.x + cross a b v * c.x := by
    unfold cross
    ring
  have hy : (cross b c v + cross c a v + cross a b v) * v.y
      = cross b c v * a.y + cross c a v * b.y + cross a b v * c.y := by
    unfold cross
    ring
  have ex := bary_combination _ _ _ _ _ _ _ (ne_of_gt hs1) (ne_of_gt hs2) hx
  have ey := bary_combination _ _ _ _ _ _ _ (ne_of_gt hs1) (ne_of_gt hs2) hy
  simp only at hv
  rw [ex, ey] at hv
  exact hv

/-- A point strictly left of every edge of a closed chain lies in the region of
the chain's vertices. -/
theorem inHull_of_closed_chain (v : Point) :
    ∀ (n : ℕ) (t : List Point) (a : Point), t.length = n →
      List.Chain' (fun x y => 0 < cross x y v) (a :: (t ++ [a])) → InHull (a :: t) v := by
  intro n
  induction n with
  | zero =>
    intro t a ht hch
    have : t = [] := List.length_eq_zero.1 ht
    subst this
    simp only [List.nil_append, List.chain'_cons, List.chain'_singleton, and_true] at hch
    have h0 : cross a a v = 0 := by
      unfold cross
      ring
    linarith
  | succ n ih =>
    intro t a ht hch
    match t, ht with
    | [b], _ =>
      simp only [List.singleton_append, List.chain'_cons, List.chain'_singleton, and_true] at hch
      have := cross_flip a b v
      linarith
    | b :: c :: t', ht =>
      simp only [List.cons_append, List.chain'_cons] at hch
      obtain ⟨hab, hbc, hrest⟩ := hch
      by_cases hac : 0 < cross a c v
      · have hch' : List.Chain' (fun x y => 0 < cross x y v) (a :: ((c :: t') ++ [a])) := by
          simp only [List.cons_append, List.chain'_cons]
          exact ⟨hac, hrest⟩
        have hlen : (c :: t').length = n := by
          simp only [List.length_cons] at ht ⊢
          omega
        have := ih (c :: t') a hlen hch'
        apply inHull_mono _ _ _ v this
        intro x hx
        simp only [List.mem_cons] at hx ⊢
        tauto
      · push_neg at hac
        have hca : 0 ≤ cross c a v := by
          have := cross_flip a c v
          linarith
        exact inHull_triangle _ a b c v (by simp) (by simp) (by simp) hbc hca hab

theorem zip_closed_eq (a x : Point) (t : List Point) :
    (a :: (t ++ [x])).zip (t ++ [x]) = (a :: t).zip (t ++ [x]) := by
  induction t generalizing a with
  | nil => simp
  | cons b t' ih =>
    simp only [List.cons_append, List.zip_cons_cons]
    rw [ih b]

/-- A point that passes the inside test of a hull with a non-empty edge list
built by `SetLines` lies in the region of the hull's vertices. -/
theorem inside_inHull (l : List Point) (v : Point) (hl : l ≠ [])
    (h : ∀ e ∈ SetLines l, IsPointLeftSideOfLine v e = true) : InHull l v := by
  match l, hl with
  | a :: t, _ =>
    apply inHull_of_closed_chain v t.length t a rfl
    apply chain'_of_zip_tail
    intro p hp
    simp only [List.tail_cons] at hp
    rw [zip_closed_eq] at hp
    have hcp : p ∈ closedPairs (a :: t) := by
      unfold closedPairs
      rw [List.rotate_cons_succ, List.rotate_zero]
      exact hp
    have hmem : (⟨p.1, p.2⟩ : Line) ∈ SetLines (a :: t) := by
      rw [mem_SetLines]
      exact hcp
    have := h _ hmem
    rw [isLeft_iff] at this
    exact this

theorem sortVertices_perm (vs : List Point) : (SortVertices vs).Perm vs := by
  unfold SortVertices
  exact List.perm_insertionSort _ vs

theorem new_vertices (vs : List Point) (i : Int) (h : 3 ≤ vs.length) :
    (ConvexHull.new vs i).vertices_ = SortVertices vs := by
  simp [ConvexHull.new, h]

theorem new_lines (vs : List Point) (i : Int) (h : 3 ≤ vs.length) :
    (ConvexHull.new vs i).lines_ = SetLines (SortVertices vs) := by
  simp [ConvexHull.new, h]

theorem new_area (vs : List Point) (i : Int) (h : 3 ≤ vs.length) :
    (ConvexHull.new vs i).area_ = SetArea (SortVertices vs) := by
  simp [ConvexHull.new, h]

theorem new_id (vs : List Point) (i : Int) (h : 3 ≤ vs.length) :
    (ConvexHull.new vs i).id_ = i := by
  simp [ConvexHull.new, h]

theorem sortVertices_ne_nil (vs : List Point) (h : 3 ≤ vs.length) : SortVertices vs ≠ [] := by
  intro hn
  have := (sortVertices_perm vs).length_eq
  rw [hn] at this
  simp at this
  omega

/-- The ends of an edge of a constructed hull are among the supplied vertices. -/
theorem line_ends_mem (vs : List Point) (e : Line) (he : e ∈ SetLines (SortVertices vs)) :
    e.start ∈ vs ∧ e.end_ ∈ vs := by
  rw [mem_SetLines] at he
  exact ⟨(sortVertices_perm vs).mem_iff.1 (closedPairs_fst_mem _ _ he),
    (sortVertices_perm vs).mem_iff.1 (closedPairs_snd_mem _ _ he)⟩

/-- A point reported by `LineSegmentIntersection` lies on both segments, hence
in the region of any vertex list that contains the segment's ends. -/
theorem segPoint_inHull (a b : Line) (l1 l2 : List Point)
    (h : (LineSegmentIntersection a b default).1 = true)
    (ha : a.start ∈ l1 ∧ a.end_ ∈ l1) (hb : b.start ∈ l2 ∧ b.end_ ∈ l2) :
    InHull l1 (segPoint a b) ∧ InHull l2 (segPoint a b) := by
  obtain ⟨hd, h1, h2, h3, h4⟩ := (lsi_true_iff a b default).1 h
  constructor
  · exact InHull.between (segUA a b) h1 h2 (InHull.vertex ha.1) (InHull.vertex ha.2)
  · have hon := segment_point_on_second a b hd
    have : segPoint a b
        = ⟨b.start.x + segUB a b * (b.end_.x - b.start.x),
           b.start.y + segUB a b * (b.end_.y - b.start.y)⟩ := by
      unfold segPoint
      rw [hon.1, hon.2]
    rw [this]
    exact InHull.between (segUB a b) h3 h4 (InHull.vertex hb.1) (InHull.vertex hb.2)

/-! ## Intersections whose candidate vertices are the vertices of a polygon -/

theorem blowUp_one (m : Point → ℕ) (T : List Point) (h : ∀ v ∈ T, m v = 1) : blowUp m T = T := by
  induction T with
  | nil => simp [blowUp]
  | cons v T' ih =>
    have hb : blowUp m (v :: T') = List.replicate (m v) v ++ blowUp m T' := by
      simp [blowUp, List.flatMap_cons]
    rw [hb, h v (by simp), ih (fun w hw => h w (by simp [hw]))]
    rfl

/-- The constructor stores the vertices of a strictly convex polygon as a
rotation of its boundary list. -/
theorem sort_is_rotation (P vs : List Point) (hP : StrictConvexCCW P) (hvs : vs.Perm P) :
    ∃ k, SortVertices vs = P.rotate k := by
  obtain ⟨k, hk⟩ := sort_of_support P vs hP (fun x hx => hvs.mem_iff.1 hx)
    (fun v hv => hvs.mem_iff.2 hv)
  refine ⟨k, ?_⟩
  rw [hk]
  apply blowUp_one
  intro v hv
  have hvP : v ∈ P := List.mem_rotate.1 hv
  have hnd : vs.Nodup := hvs.nodup_iff.2 hP.1
  exact List.count_eq_one_of_mem hnd (hvs.mem_iff.2 hvP)

/-- The edges of a hull constructed from the vertices of a strictly convex
polygon are the edges of the polygon. -/
theorem mem_lines_iff (P vs : List Point) (hP : StrictConvexCCW P) (hvs : vs.Perm P) (e : Line) :
    e ∈ SetLines (SortVertices vs) ↔ (e.start, e.end_) ∈ closedPairs P := by
  obtain ⟨k, hk⟩ := sort_is_rotation P vs hP hvs
  rw [mem_SetLines, hk, mem_closedPairs_rotate]

theorem edge_ne (P : List Point) (hP : StrictConvexCCW P) (a b : Point)
    (h : (a, b) ∈ closedPairs P) : a ≠ b := by
  intro hab
  obtain ⟨v, hv, hva, hvb⟩ := exists_third P hP.1 hP.2.1 a b
  have := hP.2.2 (a, b) h v hv hva hvb
  simp only at this
  rw [hab] at this
  have h0 : cross b b v = 0 := by
    unfold cross
    ring
  linarith

theorem no_back_edge (P : List Point) (hP : StrictConvexCCW P) (u v : Point)
    (h1 : (u, v) ∈ closedPairs P) (h2 : (v, u) ∈ closedPairs P) : False := by
  obtain ⟨z, hz, hzu, hzv⟩ := exists_third P hP.1 hP.2.1 u v
  have p1 := hP.2.2 (u, v) h1 z hz hzu hzv
  have p2 := hP.2.2 (v, u) h2 z hz hzv hzu
  simp only at p1 p2
  rw [cross_flip] at p2
  linarith

theorem segD_eq_cross (a b : Line) :
    segD a b = cross a.start a.end_ b.end_ - cross a.start a.end_ b.start := by
  unfold segD cross
  ring

theorem segPoint_on_first (a b : Line) : cross a.start a.end_ (segPoint a b) = 0 := by
  unfold segPoint cross
  ring

/-- When both ends of the second segment are weakly left of the first, a
reported crossing is an end of the second segment. -/
theorem crossing_is_endpoint (a b : Line) (h : (LineSegmentIntersection a b default).1 = true)
    (h1 : 0 ≤ cross a.start a.end_ b.start) (h2 : 0 ≤ cross a.start a.end_ b.end_) :
    segPoint a b = b.start ∨ segPoint a b = b.end_ := by
  obtain ⟨hd, _, _, h3, h4⟩ := (lsi_true_iff a b default).1 h
  have hon := segment_point_on_second a b hd
  have hsp : segPoint a b
      = ⟨b.start.x + segUB a b * (b.end_.x - b.start.x),
         b.start.y + segUB a b * (b.end_.y - b.start.y)⟩ := by
    unfold segPoint
    rw [hon.1, hon.2]
  have hz := segPoint_on_first a b
  rw [hsp, cross_between] at hz
  rcases eq_or_lt_of_le h3 with h0 | h0
  · left
    rw [hsp, ← h0]
    cases hb : b.start
    simp
  · rcases eq_or_lt_of_le h4 with h5 | h5
    · right
      rw [hsp, h5]
      cases hb : b.end_
      simp
    · exfalso
      have t1 : 0 ≤ (1 - segUB a b) * cross a.start a.end_ b.start :=
        mul_nonneg (by linarith) h1
      have t2 : 0 ≤ segUB a b * cross a.start a.end_ b.end_ := mul_nonneg h3 h2
      have e2 : segUB a b * cross a.start a.end_ b.end_ = 0 := by linarith
      have e1 : (1 - segUB a b) * cross a.start a.end_ b.start = 0 := by linarith
      have f2 : cross a.start a.end_ b.end_ = 0 := by
        rcases mul_eq_zero.1 e2 with h | h
        · linarith
        · exact h
      have f1 : cross a.start a.end_ b.start = 0 := by
        rcases mul_eq_zero.1 e1 with h | h
        · linarith
        · exact h
      apply hd
      rw [segD_eq_cross, f1, f2]
      ring

/-- The parameters of a common point of two non-parallel segments are the
`uA`, `uB` that `LineSegmentIntersection` computes. -/
theorem seg_params_unique (a b : Line) (hd : segD a b ≠ 0) (t u : ℚ)
    (hx : a.start.x + t * (a.end_.x - a.start.x) = b.start.x + u * (b.end_.x - b.start.x))
    (hy : a.start.y + t * (a.end_.y - a.start.y) = b.start.y + u * (b.end_.y - b.start.y)) :
    segUA a b = t ∧ segUB a b = u := by
  unfold segUA segUB
  constructor
  · rw [div_eq_iff hd]
    unfold segD
    linear_combination (b.end_.x - b.start.x) * hy - (b.end_.y - b.start.y) * hx
  · rw [div_eq_iff hd]
    unfold segD
    linear_combination (a.end_.x - a.start.x) * hy - (a.end_.y - a.start.y) * hx

/-- Two non-parallel segments with a common point intersect, and that point is
the one reported. -/
theorem lsi_of_common_point (a b : Line) (hd : segD a b ≠ 0) (t u : ℚ) (x p : Point)
    (ht0 : 0 ≤ t) (ht1 : t ≤ 1) (hu0 : 0 ≤ u) (hu1 : u ≤ 1)
    (hax : x.x = a.start.x + t * (a.end_.x - a.start.x))
    (hay : x.y = a.start.y + t * (a.end_.y - a.start.y))
    (hbx : x.x = b.start.x + u * (b.end_.x - b.start.x))
    (hby : x.y = b.start.y + u * (b.end_.y - b.start.y)) :
    (LineSegmentIntersection a b p).1 = true ∧ segPoint a b = x := by
  obtain ⟨hA, hB⟩ := seg_params_unique a b hd t u (by rw [← hax, ← hbx]) (by rw [← hay, ← hby])
  constructor
  · rw [lsi_true_iff, hA, hB]
    exact ⟨hd, ht0, ht1, hu0, hu1⟩
  · unfold segPoint
    rw [hA, ← hax, ← hay]

theorem closed_sum_zero (φ : Point → ℚ) (P : List Point) :
    ((closedPairs P).map (fun e => φ e.2 - φ e.1)).sum = 0 := by
  rw [sum_map_sub (fun e : Point × Point => φ e.2) (fun e => φ e.1)]
  unfold closedPairs
  have h1 : (P.zip (P.rotate 1)).map (fun e => φ e.1) = P.map φ := by
    have : (fun e : Point × Point => φ e.1) = φ ∘ Prod.fst := rfl
    rw [this, ← List.map_map, List.map_fst_zip]
    simp
  have h2 : (P.zip (P.rotate 1)).map (fun e => φ e.2) = (P.rotate 1).map φ := by
    have : (fun e : Point × Point => φ e.2) = φ ∘ Prod.snd := rfl
    rw [this, ← List.map_map, List.map_snd_zip]
    simp
  rw [h1, h2, List.map_rotate, (List.rotate_perm _ 1).sum_eq]
  ring

/-- The shoelace sum is the sum of the fan triangles around any point. -/
theorem shoelace_eq_fan (P : List Point) (c : Point) :
    shoelace P = ((closedPairs P).map (fun e => cross e.1 e.2 c)).sum := by
  have hx := closed_sum_zero (fun v => v.x) P
  have hy := closed_sum_zero (fun v => v.y) P
  have key : ∀ l : List (Point × Point),
      (l.map (fun e => cross e.1 e.2 c)).sum
        = (l.map (fun e => e.1.x * e.2.y - e.2.x * e.1.y)).sum
          + c.y * (l.map (fun e => e.2.x - e.1.x)).sum
          - c.x * (l.map (fun e => e.2.y - e.1.y)).sum := by
    intro l
    induction l with
    | nil => simp
    | cons e t ih =>
      simp only [List.map_cons, List.sum_cons, ih]
      unfold cross
      ring
  unfold shoelace
  rw [key, hx, hy]
  ring

theorem closedPairs_ne_nil (P : List Point) (h : P ≠ []) : closedPairs P ≠ [] := by
  intro hn
  have : (closedPairs P).length = 0 := by rw [hn]; rfl
  unfold closedPairs at this
  rw [List.length_zip, List.length_rotate, Nat.min_self] at this
  exact h (List.length_eq_zero.1 this)

/-- A strictly convex counter-clockwise polygon has a positive shoelace sum. -/
theorem shoelace_pos (P : List Point) (hP : StrictConvexCCW P) : 0 < shoelace P := by
  rw [shoelace_eq_fan P (meanPoint P)]
  have hne : P ≠ [] := by
    intro h
    have := hP.2.1
    rw [h] at this
    simp at this
  apply sum_map_pos
  · intro e he
    exact le_of_lt (mean_interior P P hP (fun _ h => h) (fun _ h => h) e he)
  · obtain ⟨e, he⟩ := List.exists_mem_of_ne_nil _ (closedPairs_ne_nil P hne)
    exact ⟨e, he, mean_interior P P hP (fun _ h => h) (fun _ h => h) e he⟩

theorem length_ge_of_support (P L : List Point) (hP : StrictConvexCCW P)
    (h2 : ∀ v ∈ P, v ∈ L) : 3 ≤ L.length :=
  le_trans hP.2.1 (List.subperm_of_subset hP.1 h2).length_le

/-- When the candidate vertices collected for two hulls are the vertices of a
strictly convex polygon `P` (each at least once), `ConvexHullIntersection`
succeeds with a hull of the area of `P` and the internal id `-1`. -/
theorem chi_of_support (P : List Point) (A B out : ConvexHull) (hP : StrictConvexCCW P)
    (h1 : ∀ x ∈ intersectionVertices A B, x ∈ P) (h2 : ∀ v ∈ P, v ∈ intersectionVertices A B) :
    (ConvexHullIntersection A B out).1 = true
    ∧ (ConvexHullIntersection A B out).2.area_ = 1 / 2 * shoelace P
    ∧ (ConvexHullIntersection A B out).2.id_ = -1 := by
  have hlen := length_ge_of_support P _ hP h2
  have hnot : ¬ (intersectionVertices A B).length < 3 := by omega
  unfold ConvexHullIntersection
  simp only [hnot, if_false, true_and]
  rw [new_area _ _ hlen, new_id _ _ hlen, area_of_support P _ hP h1 h2,
    abs_of_pos (shoelace_pos P hP)]
  exact ⟨rfl, rfl⟩

/-- The area of a hull constructed from the vertices of a strictly convex polygon. -/
theorem new_area_convex (P vs : List Point) (i : Int) (hP : StrictConvexCCW P)
    (hvs : vs.Perm P) : (ConvexHull.new vs i).area_ = 1 / 2 * shoelace P := by
  have h3 : 3 ≤ vs.length := by
    rw [hvs.length_eq]
    exact hP.2.1
  rw [new_area vs i h3, area_of_support P vs hP (fun x hx => hvs.mem_iff.1 hx)
    (fun v hv => hvs.mem_iff.2 hv), abs_of_pos (shoelace_pos P hP)]

/-- The candidate vertices collected for two hulls built from the vertices of
the same strictly convex polygon are exactly the vertices of the polygon. -/
theorem same_polygon_support (P vsA vsB : List Point) (i j : Int) (hP : StrictConvexCCW P)
    (hA : vsA.Perm P) (hB : vsB.Perm P) :
    (∀ x ∈ intersectionVertices (ConvexHull.new vsA i) (ConvexHull.new vsB j), x ∈ P)
    ∧ (∀ v ∈ P, v ∈ intersectionVertices (ConvexHull.new vsA i) (ConvexHull.new vsB j)) := by
  have h3A : 3 ≤ vsA.length := by
    rw [hA.length_eq]
    exact hP.2.1
  have h3B : 3 ≤ vsB.length := by
    rw [hB.length_eq]
    exact hP.2.1
  constructor
  · intro x hx
    rw [mem_intersectionVertices] at hx
    rcases hx with ⟨a, ha, b, hb, hab, rfl⟩ | ⟨hv, _⟩ | ⟨hv, _⟩
    · rw [new_lines vsA i h3A, mem_lines_iff P vsA hP hA] at ha
      rw [new_lines vsB j h3B, mem_lines_iff P vsB hP hB] at hb
      have hb1 : b.start ∈ P := closedPairs_fst_mem P _ hb
      have hb2 : b.end_ ∈ P := closedPairs_snd_mem P _ hb
      rcases crossing_is_endpoint a b hab (convex_weak P hP _ ha b.start hb1)
        (convex_weak P hP _ ha b.end_ hb2) with h | h
      · rw [h]
        exact hb1
      · rw [h]
        exact hb2
    · rw [new_vertices vsA i h3A] at hv
      exact hA.mem_iff.1 ((sortVertices_perm vsA).mem_iff.1 hv)
    · rw [new_vertices vsB j h3B] at hv
      exact hB.mem_iff.1 ((sortVertices_perm vsB).mem_iff.1 hv)
  · intro v hv
    obtain ⟨u, hu⟩ := exists_in_edge P v hv
    obtain ⟨w, hw⟩ := exists_out_edge P v hv
    have hwP : w ∈ P := closedPairs_snd_mem P _ hw
    have hwv : w ≠ v := fun h => edge_ne P hP v w hw h.symm
    have hwu : w ≠ u := by
      intro h
      rw [h] at hw
      exact no_back_edge P hP u v hu hw
    have hpos : 0 < cross u v w := hP.2.2 (u, v) hu w hwP hwu hwv
    have hd : segD ⟨u, v⟩ ⟨v, w⟩ ≠ 0 := by
      rw [segD_eq_cross]
      simp only
      rw [cross_self_right]
      linarith
    have hl := lsi_of_common_point ⟨u, v⟩ ⟨v, w⟩ hd 1 0 v default (by norm_num) (by norm_num)
      (by norm_num) (by norm_num) (by simp) (by simp) (by simp) (by simp)
    rw [mem_intersectionVertices]
    left
    refine ⟨⟨u, v⟩, ?_, ⟨v, w⟩, ?_, hl.1, hl.2.symm⟩
    · rw [new_lines vsA i h3A, mem_lines_iff P vsA hP hA]
      exact hu
    · rw [new_lines vsB j h3B, mem_lines_iff P vsB hP hB]
      exact hw

theorem ddiv_self (s : ℚ) (hs : s ≠ 0) : ddiv s s = some 1 := by
  simp [ddiv, hs]

/-- The ratio the filter accumulates for the first of two hulls with distinct ids. -/
theorem overlapRatio_pair_left (A B : ConvexHull) (hid : A.id_ ≠ B.id_) :
    overlapRatio [A, B] A = ratioTerm A B := by
  rw [overlapRatio_eq_ratioSpec]
  unfold ratioSpec
  have h2 : B.id_ ≠ A.id_ := fun h => hid h.symm
  simp [List.filter_cons, h2, dadd_zero]

/-- The ratio the filter accumulates for the second of two hulls with distinct ids. -/
theorem overlapRatio_pair_right (A B : ConvexHull) (hid : A.id_ ≠ B.id_) :
    overlapRatio [A, B] B = ratioTerm B A := by
  rw [overlapRatio_eq_ratioSpec]
  unfold ratioSpec
  simp [List.filter_cons, hid, dadd_zero]

/-! ## A polygon inside another polygon -/

/-- A point of the region of a polygon that lies on the line of an edge lies
on the edge. -/
theorem on_edge_segment (P : List Point) (hP : StrictConvexCCW P) (a1 a2 : Point)
    (he : (a1, a2) ∈ closedPairs P) (p : Point) (hp : InHull P p) (h0 : cross a1 a2 p = 0) :
    ∃ t : ℚ, 0 ≤ t ∧ t ≤ 1 ∧ p.x = a1.x + t * (a2.x - a1.x) ∧ p.y = a1.y + t * (a2.y - a1.y) := by
  induction hp with
  | @vertex v hv =>
    by_cases h1 : v = a1
    · exact ⟨0, le_refl _, by norm_num, by rw [h1]; ring, by rw [h1]; ring⟩
    · by_cases h2 : v = a2
      · exact ⟨1, by norm_num, le_refl _, by rw [h2]; ring, by rw [h2]; ring⟩
      · have := hP.2.2 (a1, a2) he v hv h1 h2
        simp only at this
        linarith
  | @between p q s hs0 hs1 hp hq ihp ihq =>
    rw [cross_between] at h0
    have gp : 0 ≤ cross a1 a2 p :=
      inHull_cross_nonneg P a1 a2 (fun v hv => convex_weak P hP (a1, a2) he v hv) p hp
    have gq : 0 ≤ cross a1 a2 q :=
      inHull_cross_nonneg P a1 a2 (fun v hv => convex_weak P hP (a1, a2) he v hv) q hq
    rcases eq_or_lt_of_le hs0 with h | h
    · have hp0 : cross a1 a2 p = 0 := by
        rw [← h] at h0
        linarith
      obtain ⟨t, ht0, ht1, hx, hy⟩ := ihp hp0
      refine ⟨t, ht0, ht1, ?_, ?_⟩
      · simp only
        rw [← h, hx]
        ring
      · simp only
        rw [← h, hy]
        ring
    · rcases eq_or_lt_of_le hs1 with h' | h'
      · have hq0 : cross a1 a2 q = 0 := by
          rw [h'] at h0
          linarith
        obtain ⟨t, ht0, ht1, hx, hy⟩ := ihq hq0
        refine ⟨t, ht0, ht1, ?_, ?_⟩
        · simp only
          rw [h', hx]
          ring
        · simp only
          rw [h', hy]
          ring
      · have t1 : 0 ≤ (1 - s) * cross a1 a2 p := mul_nonneg (by linarith) gp
        have t2 : 0 ≤ s * cross a1 a2 q := mul_nonneg hs0 gq
        have hq0 : cross a1 a2 q = 0 := by
          have : s * cross a1 a2 q = 0 := by linarith
          rcases mul_eq_zero.1 this with h3 | h3
          · linarith
          · exact h3
        have hp0 : cross a1 a2 p = 0 := by
          have : (1 - s) * cross a1 a2 p = 0 := by linarith
          rcases mul_eq_zero.1 this with h3 | h3
          · linarith
          · exact h3
        obtain ⟨tp, tp0, tp1, hpx, hpy⟩ := ihp hp0
        obtain ⟨tq, tq0, tq1, hqx, hqy⟩ := ihq hq0
        refine ⟨(1 - s) * tp + s * tq, ?_, ?_, ?_, ?_⟩
        · have := mul_nonneg (by linarith : (0 : ℚ) ≤ 1 - s) tp0
          have := mul_nonneg hs0 tq0
          linarith
        · have : (1 - s) * tp ≤ (1 - s) * 1 := mul_le_mul_of_nonneg_left tp1 (by linarith)
          have : s * tq ≤ s * 1 := mul_le_mul_of_nonneg_left tq1 hs0
          linarith
        · simp only
          rw [hpx, hqx]
          ring
        · simp only
          rw [hpy, hqy]
          ring

/-- Two lines through `x` that are not parallel meet in `x` only. -/
theorem corner_unique (u x w q : Point) (hd : cross u x w ≠ 0) (h1 : cross u x q = 0)
    (h2 : cross x w q = 0) : q = x := by
  have ex : cross u x w * (q.x - x.x) = 0 := by
    unfold cross at h1 h2 ⊢
    linear_combination (w.x - x.x) * h1 - (x.x - u.x) * h2
  have ey : cross u x w * (q.y - x.y) = 0 := by
    unfold cross at h1 h2 ⊢
    linear_combination (w.y - x.y) * h1 - (x.y - u.y) * h2
  have hx : q.x - x.x = 0 := by
    rcases mul_eq_zero.1 ex with h | h
    · exact absurd h hd
    · exact h
  have hy : q.y - x.y = 0 := by
    rcases mul_eq_zero.1 ey with h | h
    · exact absurd h hd
    · exact h
  cases q
  cases x
  simp only [Point.mk.injEq]
  simp only at hx hy
  constructor <;> linarith

/-- A point of the region at which two non-parallel tests that are non-negative
on the vertices both vanish is a vertex. -/
theorem inHull_corner_mem (l : List Point) (u x w : Point) (hd : cross u x w ≠ 0)
    (g1 : ∀ v ∈ l, 0 ≤ cross u x v) (g2 : ∀ v ∈ l, 0 ≤ cross x w v) (p : Point)
    (hp : InHull l p) (h1 : cross u x p = 0) (h2 : cross x w p = 0) : p ∈ l := by
  induction hp with
  | vertex hv => exact hv
  | @between p q s hs0 hs1 hp hq ihp ihq =>
    rw [cross_between] at h1 h2
    have a1 := inHull_cross_nonneg l u x g1 p hp
    have a2 := inHull_cross_nonneg l u x g1 q hq
    have b1 := inHull_cross_nonneg l x w g2 p hp
    have b2 := inHull_cross_nonneg l x w g2 q hq
    have zero_of : ∀ (c d : ℚ), 0 ≤ c → 0 ≤ d → (1 - s) * c + s * d = 0 → s < 1 → c = 0 := by
      intro c d hc hd' h hs
      have t1 : 0 ≤ (1 - s) * c := mul_nonneg (by linarith) hc
      have t2 : 0 ≤ s * d := mul_nonneg hs0 hd'
      have : (1 - s) * c = 0 := by linarith
      rcases mul_eq_zero.1 this with h3 | h3
      · linarith
      · exact h3
    rcases eq_or_lt_of_le hs1 with h | h
    · have hq1 : cross u x q = 0 := by
        rw [h] at h1
        linarith
      have hq2 : cross x w q = 0 := by
        rw [h] at h2
        linarith
      have hmem := ihq hq1 hq2
      have : (⟨p.x + s * (q.x - p.x), p.y + s * (q.y - p.y)⟩ : Point) = q := by
        cases q
        simp only [Point.mk.injEq]
        rw [h]
        constructor <;> ring
      rw [this]
      exact hmem
    · have hp1 := zero_of _ _ a1 a2 h1 h
      have hp2 := zero_of _ _ b1 b2 h2 h
      have hmem := ihp hp1 hp2
      have hpx : p = x := corner_unique u x w p hd hp1 hp2
      have hfull : (⟨p.x + s * (q.x - p.x), p.y + s * (q.y - p.y)⟩ : Point) = x :=
        corner_unique u x w _ hd (by rw [cross_between]; exact h1)
          (by rw [cross_between]; exact h2)
      rw [hfull, ← hpx]
      exact hmem

/-- Three points on a common line span no area. -/
theorem collinear_of_on_line (a1 a2 u b w : Point) (hne : a1 ≠ a2) (hu : cross a1 a2 u = 0)
    (hb : cross a1 a2 b = 0) (hw : cross a1 a2 w = 0) : cross u b w = 0 := by
  have ex : (a2.x - a1.x) * cross u b w = 0 := by
    unfold cross at hu hb hw ⊢
    linear_combination (w.x - b.x) * hu + (u.x - w.x) * hb + (b.x - u.x) * hw
  have ey : (a2.y - a1.y) * cross u b w = 0 := by
    unfold cross at hu hb hw ⊢
    linear_combination (w.y - b.y) * hu + (u.y - w.y) * hb + (b.y - u.y) * hw
  by_contra hc
  have hx : a2.x - a1.x = 0 := by
    rcases mul_eq_zero.1 ex with h | h
    · exact h
    · exact absurd h hc
  have hy : a2.y - a1.y = 0 := by
    rcases mul_eq_zero.1 ey with h | h
    · exact h
    · exact absurd h hc
  apply hne
  cases a1
  cases a2
  simp only [Point.mk.injEq]
  simp only at hx hy
  constructor <;> linarith

/-- When the polygon of `A` contains the polygon of `B`, the candidate vertices
collected for `(A, B)` are exactly the vertices of `B`. -/
theorem contained_support (PA PB vsA vsB : List Point) (i j : Int)
    (hPA : StrictConvexCCW PA) (hPB : StrictConvexCCW PB) (hA : vsA.Perm PA) (hB : vsB.Perm PB)
    (hin : ∀ b ∈ PB, InHull PA b) :
    (∀ x ∈ intersectionVertices (ConvexHull.new vsA i) (ConvexHull.new vsB j), x ∈ PB)
    ∧ (∀ v ∈ PB, v ∈ intersectionVertices (ConvexHull.new vsA i) (ConvexHull.new vsB j)) := by
  have h3A : 3 ≤ vsA.length := by
    rw [hA.length_eq]
    exact hPA.2.1
  have h3B : 3 ≤ vsB.length := by
    rw [hB.length_eq]
    exact hPB.2.1
  have hweak : ∀ e ∈ closedPairs PA, ∀ b ∈ PB, 0 ≤ cross e.1 e.2 b := by
    intro e he b hb
    exact inHull_cross_nonneg PA e.1 e.2 (fun v hv => convex_weak PA hPA e he v hv) b (hin b hb)
  constructor
  · intro x hx
    rw [mem_intersectionVertices] at hx
    rcases hx with ⟨a, ha, b, hb, hab, rfl⟩ | ⟨hv, hins⟩ | ⟨hv, _⟩
    · rw [new_lines vsA i h3A, mem_lines_iff PA vsA hPA hA] at ha
      rw [new_lines vsB j h3B, mem_lines_iff PB vsB hPB hB] at hb
      have hb1 : b.start ∈ PB := closedPairs_fst_mem PB _ hb
      have hb2 : b.end_ ∈ PB := closedPairs_snd_mem PB _ hb
      rcases crossing_is_endpoint a b hab (hweak _ ha b.start hb1) (hweak _ ha b.end_ hb2)
        with h | h
      · rw [h]
        exact hb1
      · rw [h]
        exact hb2
    · rw [new_vertices vsA i h3A] at hv
      have hxA : x ∈ PA := hA.mem_iff.1 ((sortVertices_perm vsA).mem_iff.1 hv)
      unfold IsPointInsideConvexHull at hins
      rw [new_lines vsB j h3B, List.all_eq_true] at hins
      have hxB : InHull PB x := by
        have := inside_inHull (SortVertices vsB) x (sortVertices_ne_nil vsB h3B) hins
        exact inHull_mono _ _ (fun y hy => hB.mem_iff.1 ((sortVertices_perm vsB).mem_iff.1 hy)) x
          this
      obtain ⟨u, hu⟩ := exists_in_edge PA x hxA
      obtain ⟨w, hw⟩ := exists_out_edge PA x hxA
      have hwP : w ∈ PA := closedPairs_snd_mem PA _ hw
      have hwx : w ≠ x := fun h => edge_ne PA hPA x w hw h.symm
      have hwu : w ≠ u := by
        intro h
        rw [h] at hw
        exact no_back_edge PA hPA u x hu hw
      have hpos : 0 < cross u x w := hPA.2.2 (u, x) hu w hwP hwu hwx
      exact inHull_corner_mem PB u x w (ne_of_gt hpos) (fun v hv' => hweak (u, x) hu v hv')
        (fun v hv' => hweak (x, w) hw v hv') x hxB (cross_self_right u x) (cross_self_left x w)
    · rw [new_vertices vsB j h3B] at hv
      exact hB.mem_iff.1 ((sortVertices_perm vsB).mem_iff.1 hv)
  · intro b hb
    rw [mem_intersectionVertices]
    by_cases hins : IsPointInsideConvexHull b (ConvexHull.new vsA i) = true
    · right
      right
      refine ⟨?_, hins⟩
      rw [new_vertices vsB j h3B]
      exact (sortVertices_perm vsB).mem_iff.2 (hB.mem_iff.2 hb)
    · left
      unfold IsPointInsideConvexHull at hins
      rw [List.all_eq_true] at hins
      push_neg at hins
      obtain ⟨a, ha, hleft⟩ := hins
      have ha' := ha
      rw [new_lines vsA i h3A, mem_lines_iff PA vsA hPA hA] at ha'
      have hzero : cross a.start a.end_ b = 0 := by
        have h1 := hweak _ ha' b hb
        have h2 : ¬ 0 < cross a.start a.end_ b := fun h => hleft ((isLeft_iff_line b a).2 h)
        simp only at h1
        linarith
      obtain ⟨t, ht0, ht1, hx, hy⟩ := on_edge_segment PA hPA a.start a.end_ ha' b (hin b hb) hzero
      obtain ⟨u, hu⟩ := exists_in_edge PB b hb
      obtain ⟨w, hw⟩ := exists_out_edge PB b hb
      have hwP : w ∈ PB := closedPairs_snd_mem PB _ hw
      have huP : u ∈ PB := closedPairs_fst_mem PB _ hu
      have hwb : w ≠ b := fun h => edge_ne PB hPB b w hw h.symm
      have hwu : w ≠ u := by
        intro h
        rw [h] at hw
        exact no_back_edge PB hPB u b hu hw
      have hpos : 0 < cross u b w := hPB.2.2 (u, b) hu w hwP hwu hwb
      by_cases hcw : cross a.start a.end_ w = 0
      · have hcu : cross a.start a.end_ u ≠ 0 := by
          intro hcu
          have := collinear_of_on_line a.start a.end_ u b w
            (edge_ne PA hPA a.start a.end_ ha') hcu hzero hcw
          linarith
        have hd : segD a ⟨u, b⟩ ≠ 0 := by
          rw [segD_eq_cross]
          simp only
          rw [hzero]
          intro h
          apply hcu
          linarith
        have hl := lsi_of_common_point a ⟨u, b⟩ hd t 1 b default ht0 ht1 (by norm_num)
          (by norm_num) hx hy (by simp) (by simp)
        refine ⟨a, ha, ⟨u, b⟩, ?_, hl.1, hl.2.symm⟩
        rw [new_lines vsB j h3B, mem_lines_iff PB vsB hPB hB]
        exact hu
      · have hd : segD a ⟨b, w⟩ ≠ 0 := by
          rw [segD_eq_cross]
          simp only
          rw [hzero]
          intro h
          apply hcw
          linarith
        have hl := lsi_of_common_point a ⟨b, w⟩ hd t 0 b default ht0 ht1 (by norm_num)
          (by norm_num) hx hy (by simp) (by simp)
        refine ⟨a, ha, ⟨b, w⟩, ?_, hl.1, hl.2.symm⟩
        rw [new_lines vsB j h3B, mem_lines_iff PB vsB hPB hB]
        exact hw

/-! ## Angle keys around a centre: half planes and cones -/

theorem plucker_y (c p q r : Point) :
    cross c p q * (r.y - c.y)
      = cross c r q * (p.y - c.y) + cross c p r * (q.y - c.y) := by
  unfold cross
  ring

theorem keyAt_neg_of_lower (c p : Point) (h : p.y - c.y < 0) : keyAt c p < 0 :=
  atan2Key_neg_of_lower _ _ h

theorem keyAt_nonneg_of_upper (c p : Point) (h : 0 ≤ p.y - c.y) : 0 ≤ keyAt c p :=
  atan2Key_nonneg_of_upper _ _ h

theorem lower_of_keyAt_neg (c p : Point) (h : keyAt c p < 0) : p.y - c.y < 0 := by
  by_contra hc
  push_neg at hc
  have := keyAt_nonneg_of_upper c p hc
  linarith

theorem upper_of_keyAt_nonneg (c p : Point) (h : 0 ≤ keyAt c p) : 0 ≤ p.y - c.y := by
  by_contra hc
  push_neg at hc
  have := keyAt_neg_of_lower c p hc
  linarith

/-- Directions with the same key span no area. -/
theorem cross_zero_of_key_eq (c p q : Point) (np : ¬ (p.x - c.x = 0 ∧ p.y - c.y = 0))
    (nq : ¬ (q.x - c.x = 0 ∧ q.y - c.y = 0)) (h : keyAt c p = keyAt c q) : cross c p q = 0 := by
  obtain ⟨t, _, hx, hy⟩ := key_eq_same_direction _ _ _ _ np nq h
  unfold cross
  rw [hx, hy]
  ring

theorem key_le_lower (c p q : Point) (hp : p.y - c.y < 0) (hq : q.y - c.y < 0)
    (h : keyAt c p ≤ keyAt c q) : 0 ≤ cross c p q := by
  rcases eq_or_lt_of_le h with he | hl
  · have np : ¬ (p.x - c.x = 0 ∧ p.y - c.y = 0) := fun h0 => by linarith [h0.2]
    have nq : ¬ (q.x - c.x = 0 ∧ q.y - c.y = 0) := fun h0 => by linarith [h0.2]
    rw [cross_zero_of_key_eq c p q np nq he]
  · have := key_lt_lower _ _ _ _ hp hq hl
    rw [cross_rel] at this
    exact le_of_lt this

theorem key_le_upper (c p q : Point) (hp : 0 ≤ p.y - c.y) (hq : 0 ≤ q.y - c.y)
    (np : ¬ (p.x - c.x = 0 ∧ p.y - c.y = 0)) (nq : ¬ (q.x - c.x = 0 ∧ q.y - c.y = 0))
    (h : keyAt c p ≤ keyAt c q) : 0 ≤ cross c p q := by
  rcases eq_or_lt_of_le h with he | hl
  · rw [cross_zero_of_key_eq c p q np nq he]
  · have := key_lt_upper _ _ _ _ hp hq np nq hl
    rw [cross_rel] at this
    exact this

/-- The key of the negative x-axis is the largest key. -/
theorem atan2Key_le_two (x y : ℚ) : atan2Key y x ≤ 2 := by
  by_cases h : x = 0 ∧ y = 0
  · simp [atan2Key, h]
  · rcases le_or_lt 0 y with hy | hy
    · rw [atan2Key_upper x y h hy]
      have hs := abs_sum_pos x y h
      have : -1 ≤ x / (|x| + |y|) := by
        rw [le_div_iff₀ hs]
        have := neg_abs_le x
        have := abs_nonneg y
        linarith
      linarith
    · have := atan2Key_neg_of_lower x y hy
      linarith

theorem key_negative_axis (x y : ℚ) (hy : y = 0) (hx : x < 0) : atan2Key y x = 2 := by
  have h : ¬ (x = 0 ∧ y = 0) := fun h0 => by linarith [h0.1]
  rw [atan2Key_upper x y h (by linarith), hy, abs_of_neg hx]
  simp only [abs_zero, add_zero]
  rw [div_neg, div_self (ne_of_lt hx)]
  norm_num

theorem negative_axis_of_key (x y : ℚ) (hy : 0 ≤ y) (h : ¬ (x = 0 ∧ y = 0))
    (hk : 2 ≤ atan2Key y x) : y = 0 ∧ x < 0 := by
  rw [atan2Key_upper x y h hy] at hk
  have hs := abs_sum_pos x y h
  have h1 : x / (|x| + |y|) ≤ -1 := by linarith
  rw [div_le_iff₀ hs] at h1
  rw [abs_of_nonneg hy] at h1 hs
  rcases le_or_lt 0 x with hx | hx
  · rw [abs_of_nonneg hx] at h1 hs
    linarith
  · rw [abs_of_neg hx] at h1
    constructor
    · linarith
    · exact hx

theorem key_positive_axis (x y : ℚ) (hy : y = 0) (hx : 0 < x) : atan2Key y x = 0 := by
  have h : ¬ (x = 0 ∧ y = 0) := fun h0 => by linarith [h0.1]
  rw [atan2Key_upper x y h (by linarith), hy, abs_of_pos hx]
  simp only [abs_zero, add_zero]
  rw [div_self (ne_of_gt hx)]
  norm_num

theorem positive_axis_of_key (x y : ℚ) (hy : 0 ≤ y) (h : ¬ (x = 0 ∧ y = 0))
    (hk : atan2Key y x ≤ 0) : y = 0 ∧ 0 < x := by
  rw [atan2Key_upper x y h hy] at hk
  have hs := abs_sum_pos x y h
  have h1 : 1 ≤ x / (|x| + |y|) := by linarith
  rw [le_div_iff₀ hs] at h1
  rw [abs_of_nonneg hy] at h1 hs
  rcases le_or_lt 0 x with hx | hx
  · rw [abs_of_nonneg hx] at h1 hs
    constructor
    · linarith
    · rcases eq_or_lt_of_le hx with h0 | h0
      · exfalso
        apply h
        constructor
        · exact h0.symm
        · linarith
      · exact h0
  · rw [abs_of_neg hx] at h1
    linarith

/-- Inside a counter-clockwise step of less than half a turn that does not cross
the cut of the keys, keys are ordered counter-clockwise. -/
theorem key_mono_cone (c p r s q : Point) (nr : ¬ (r.x - c.x = 0 ∧ r.y - c.y = 0))
    (ns : ¬ (s.x - c.x = 0 ∧ s.y - c.y = 0)) (nq : ¬ (q.x - c.x = 0 ∧ q.y - c.y = 0))
    (h1 : keyAt c p ≤ keyAt c r) (h2 : keyAt c r ≤ keyAt c s) (h3 : keyAt c s ≤ keyAt c q)
    (hpq : 0 < cross c p q) : 0 ≤ cross c r s := by
  rcases lt_or_le (r.y - c.y) 0 with hr | hr
  · rcases lt_or_le (s.y - c.y) 0 with hs | hs
    · exact key_le_lower c r s hr hs h2
    · have hp : p.y - c.y < 0 :=
        lower_of_keyAt_neg c p (lt_of_le_of_lt h1 (keyAt_neg_of_lower c r hr))
      have hq : 0 ≤ q.y - c.y :=
        upper_of_keyAt_nonneg c q (le_trans (keyAt_nonneg_of_upper c s hs) h3)
      have hpr := key_le_lower c p r hp hr h1
      have hsq := key_le_upper c s q hs hq ns nq h3
      have e1 := plucker_y c p q r
      have hrq : 0 < cross c r q := by
        have t1 : cross c p q * (r.y - c.y) < 0 := mul_neg_of_pos_of_neg hpq hr
        have t2 : 0 ≤ cross c p r * (q.y - c.y) := mul_nonneg hpr hq
        have t3 : cross c r q * (p.y - c.y) < 0 := by linarith
        by_contra hcon
        push_neg at hcon
        have := mul_nonneg_of_nonpos_of_nonpos hcon (le_of_lt hp)
        linarith
      have e2 := plucker_y c r q s
      rcases eq_or_lt_of_le hq with hq0 | hq0
      · have hqx : 0 < q.x - c.x := by
          have : cross c p q = -((p.y - c.y) * (q.x - c.x)) := by
            unfold cross
            rw [← hq0]
            ring
          rw [this] at hpq
          by_contra hcon
          push_neg at hcon
          have := mul_nonneg_of_nonpos_of_nonpos (le_of_lt hp) hcon
          linarith
        have hkq : keyAt c q = 0 := key_positive_axis _ _ hq0.symm hqx
        have hs2 := positive_axis_of_key _ _ hs ns (by rw [← keyAt_eq, ← hkq]; exact h3)
        have : cross c r s = -((r.y - c.y) * (s.x - c.x)) := by
          unfold cross
          rw [hs2.1]
          ring
        rw [this]
        have := mul_neg_of_neg_of_pos hr hs2.2
        linarith
      · have t1 : 0 ≤ cross c r q * (s.y - c.y) := mul_nonneg (le_of_lt hrq) hs
        have t2 : cross c s q * (r.y - c.y) ≤ 0 := mul_nonpos_of_nonneg_of_nonpos hsq (le_of_lt hr)
        have t3 : 0 ≤ cross c r s * (q.y - c.y) := by linarith
        by_contra hcon
        push_neg at hcon
        have := mul_neg_of_neg_of_pos hcon hq0
        linarith
  · rcases lt_or_le (s.y - c.y) 0 with hs | hs
    · have := keyAt_nonneg_of_upper c r hr
      have := keyAt_neg_of_lower c s hs
      linarith
    · exact key_le_upper c r s hr hs nr ns h2

/-- A counter-clockwise step of less than half a turn along which the key does
not grow starts in the upper and ends in the lower half plane. -/
theorem wrap_classes (c x q : Point)
    (nx : ¬ (x.x - c.x = 0 ∧ x.y - c.y = 0)) (nq : ¬ (q.x - c.x = 0 ∧ q.y - c.y = 0))
    (hk : keyAt c q ≤ keyAt c x) (hxq : 0 < cross c x q) :
    0 ≤ x.y - c.y ∧ q.y - c.y < 0 := by
  have hflip : cross c q x = - cross c x q := cross_swap c x q
  rcases lt_or_le (x.y - c.y) 0 with hx | hx
  · have hq : q.y - c.y < 0 :=
      lower_of_keyAt_neg c q (lt_of_le_of_lt hk (keyAt_neg_of_lower c x hx))
    have := key_le_lower c q x hq hx hk
    linarith
  · rcases lt_or_le (q.y - c.y) 0 with hq | hq
    · exact ⟨hx, hq⟩
    · have := key_le_upper c q x hq hx nq nx hk
      linarith

/-! ## Cyclic neighbours in a list sorted by angle key -/

/-- The successor `w` of `x` lies between `x` and any `q` that is less than half
a turn ahead of `x`: the case of neighbours inside the list. -/
theorem succ_between_adj (c x w q : Point)
    (nx : ¬ (x.x - c.x = 0 ∧ x.y - c.y = 0)) (nw : ¬ (w.x - c.x = 0 ∧ w.y - c.y = 0))
    (nq : ¬ (q.x - c.x = 0 ∧ q.y - c.y = 0))
    (hxw : keyAt c x ≤ keyAt c w) (hq : keyAt c q ≤ keyAt c x ∨ keyAt c w ≤ keyAt c q)
    (hxq : 0 < cross c x q) : 0 ≤ cross c w q := by
  rcases hq with hq | hq
  · obtain ⟨hx, hql⟩ := wrap_classes c x q nx nq hq hxq
    have hw : 0 ≤ w.y - c.y :=
      upper_of_keyAt_nonneg c w (le_trans (keyAt_nonneg_of_upper c x hx) hxw)
    have hxw2 := key_le_upper c x w hx hw nx nw hxw
    have e := plucker_y c w q x
    have hflip : cross c w x = - cross c x w := cross_swap c x w
    rcases eq_or_lt_of_le hx with hx0 | hx0
    · have hxx : x.x - c.x < 0 := by
        have : cross c x q = (x.x - c.x) * (q.y - c.y) := by
          unfold cross
          rw [← hx0]
          ring
        rw [this] at hxq
        by_contra hcon
        push_neg at hcon
        have := mul_nonpos_of_nonneg_of_nonpos hcon (le_of_lt hql)
        linarith
      have hkx : keyAt c x = 2 := key_negative_axis _ _ hx0.symm hxx
      have hw2 := negative_axis_of_key _ _ hw nw (by rw [← keyAt_eq, ← hkx]; exact hxw)
      have : cross c w q = (w.x - c.x) * (q.y - c.y) := by
        unfold cross
        rw [hw2.1]
        ring
      rw [this]
      exact le_of_lt (mul_pos_of_neg_of_neg hw2.2 hql)
    · have t1 : 0 ≤ cross c x q * (w.y - c.y) := mul_nonneg (le_of_lt hxq) hw
      have t2 : 0 ≤ cross c w x * (q.y - c.y) := by
        rw [hflip]
        exact mul_nonneg_of_nonpos_of_nonpos (by linarith) (le_of_lt hql)
      have t3 : 0 ≤ cross c w q * (x.y - c.y) := by linarith
      by_contra hcon
      push_neg at hcon
      have := mul_neg_of_neg_of_pos hcon hx0
      linarith
  · exact key_mono_cone c x w q q nw nq nq hxw hq (le_refl _) hxq

/-- The successor lies between: the case where `x` is last and `w` first. -/
theorem succ_between_close (c x w q : Point)
    (nx : ¬ (x.x - c.x = 0 ∧ x.y - c.y = 0)) (nq : ¬ (q.x - c.x = 0 ∧ q.y - c.y = 0))
    (hwq : keyAt c w ≤ keyAt c q) (hqx : keyAt c q ≤ keyAt c x)
    (hxq : 0 < cross c x q) : 0 ≤ cross c w q := by
  obtain ⟨_, hql⟩ := wrap_classes c x q nx nq hqx hxq
  have hw : w.y - c.y < 0 :=
    lower_of_keyAt_neg c w (lt_of_le_of_lt hwq (keyAt_neg_of_lower c q hql))
  exact key_le_lower c w q hw hql hwq

/-- The predecessor `u` of `x` lies between any `p` that is less than half a turn
behind `x` and `x`: the case of neighbours inside the list. -/
theorem pred_between_adj (c p u x : Point)
    (np : ¬ (p.x - c.x = 0 ∧ p.y - c.y = 0)) (nu : ¬ (u.x - c.x = 0 ∧ u.y - c.y = 0))
    (nx : ¬ (x.x - c.x = 0 ∧ x.y - c.y = 0))
    (hux : keyAt c u ≤ keyAt c x) (hp : keyAt c p ≤ keyAt c u ∨ keyAt c x ≤ keyAt c p)
    (hpx : 0 < cross c p x) : 0 ≤ cross c p u := by
  rcases hp with hp | hp
  · exact key_mono_cone c p p u x np nu nx (le_refl _) hp hux hpx
  · obtain ⟨hpu, hxl⟩ := wrap_classes c p x np nx hp hpx
    have hul : u.y - c.y < 0 :=
      lower_of_keyAt_neg c u (lt_of_le_of_lt hux (keyAt_neg_of_lower c x hxl))
    have hux2 := key_le_lower c u x hul hxl hux
    have e := plucker_y c p u x
    have hflip : cross c x u = - cross c u x := cross_swap c u x
    have t1 : cross c x u * (p.y - c.y) ≤ 0 := by
      rw [hflip]
      exact mul_nonpos_of_nonpos_of_nonneg (by linarith) hpu
    have t2 : cross c p x * (u.y - c.y) < 0 := mul_neg_of_pos_of_neg hpx hul
    have t3 : cross c p u * (x.y - c.y) < 0 := by linarith
    by_contra hcon
    push_neg at hcon
    have := mul_pos_of_neg_of_neg hcon hxl
    linarith

/-- The predecessor lies between: the case where `u` is last and `x` first. -/
theorem pred_between_close (c p u x : Point)
    (np : ¬ (p.x - c.x = 0 ∧ p.y - c.y = 0)) (nu : ¬ (u.x - c.x = 0 ∧ u.y - c.y = 0))
    (nx : ¬ (x.x - c.x = 0 ∧ x.y - c.y = 0))
    (hxp : keyAt c x ≤ keyAt c p) (hpu : keyAt c p ≤ keyAt c u)
    (hpx : 0 < cross c p x) : 0 ≤ cross c p u := by
  obtain ⟨hp, _⟩ := wrap_classes c p x np nx hxp hpx
  have hu : 0 ≤ u.y - c.y :=
    upper_of_keyAt_nonneg c u (le_trans (keyAt_nonneg_of_upper c p hp) hpu)
  exact key_le_upper c p u hp hu np nu hpu

/-- What membership in the cyclic pairs of a sorted list says about keys: the
pair is either adjacent in the list, or it closes the list. -/
theorem sorted_closedPairs (key : Point → ℚ) (R : List Point)
    (hR : R.Pairwise (fun a b => key a ≤ key b)) (u w : Point) (h : (u, w) ∈ closedPairs R) :
    (key u ≤ key w ∧ ∀ z ∈ R, key z ≤ key u ∨ key w ≤ key z)
    ∨ (∀ z ∈ R, key w ≤ key z ∧ key z ≤ key u) := by
  rw [mem_closedPairs] at h
  obtain ⟨i, hi, he⟩ := h
  simp only [Prod.mk.injEq] at he
  obtain ⟨hu, hw⟩ := he
  have hmono : ∀ a b (ha : a < R.length) (hb : b < R.length), a ≤ b →
      key (R.getD a default) ≤ key (R.getD b default) := by
    intro a b ha hb hab
    rw [List.getD_eq_getElem R default ha, List.getD_eq_getElem R default hb]
    rcases eq_or_lt_of_le hab with h | h
    · subst h
      exact le_refl _
    · exact List.pairwise_iff_getElem.1 hR a b ha hb h
  by_cases hlast : i + 1 < R.length
  · left
    rw [Nat.mod_eq_of_lt hlast] at hw
    rw [hu, hw]
    refine ⟨hmono i (i + 1) hi hlast (Nat.le_succ i), ?_⟩
    intro z hz
    obtain ⟨j, hj, rfl⟩ := List.getElem_of_mem hz
    rw [← List.getD_eq_getElem R default hj]
    by_cases hji : j ≤ i
    · left
      exact hmono j i hj hi hji
    · right
      exact hmono (i + 1) j hlast hj (by omega)
  · right
    have hi1 : i + 1 = R.length := by omega
    rw [hi1, Nat.mod_self] at hw
    rw [hu, hw]
    intro z hz
    obtain ⟨j, hj, rfl⟩ := List.getElem_of_mem hz
    rw [← List.getD_eq_getElem R default hj]
    exact ⟨hmono 0 j (by omega) hj (Nat.zero_le j), hmono j i hj hi (by omega)⟩

/-! ## Gaps of a sorted list that contains a closed fan -/

/-- The cyclic successor of `x` in a sorted list lies before any `q` of the list
that is less than half a turn ahead of `x`. -/
theorem succ_between (c : Point) (R : List Point)
    (hR : R.Pairwise (fun a b => keyAt c a ≤ keyAt c b))
    (hne : ∀ z ∈ R, ¬ (z.x - c.x = 0 ∧ z.y - c.y = 0))
    (x w q : Point) (hxw : (x, w) ∈ closedPairs R) (hq : q ∈ R) (hxq : 0 < cross c x q) :
    0 ≤ cross c w q := by
  have hx : x ∈ R := closedPairs_fst_mem R _ hxw
  have hw : w ∈ R := closedPairs_snd_mem R _ hxw
  rcases sorted_closedPairs (keyAt c) R hR x w hxw with ⟨h1, h2⟩ | h
  · exact succ_between_adj c x w q (hne x hx) (hne w hw) (hne q hq) h1 (h2 q hq) hxq
  · exact succ_between_close c x w q (hne x hx) (hne q hq) (h q hq).1 (h q hq).2 hxq

/-- The cyclic predecessor of `x` in a sorted list lies after any `p` of the list
that is less than half a turn behind `x`. -/
theorem pred_between (c : Point) (R : List Point)
    (hR : R.Pairwise (fun a b => keyAt c a ≤ keyAt c b))
    (hne : ∀ z ∈ R, ¬ (z.x - c.x = 0 ∧ z.y - c.y = 0))
    (p u x : Point) (hux : (u, x) ∈ closedPairs R) (hp : p ∈ R) (hpx : 0 < cross c p x) :
    0 ≤ cross c p u := by
  have hu : u ∈ R := closedPairs_fst_mem R _ hux
  have hx : x ∈ R := closedPairs_snd_mem R _ hux
  rcases sorted_closedPairs (keyAt c) R hR u x hux with ⟨h1, h2⟩ | h
  · exact pred_between_adj c p u x (hne p hp) (hne u hu) (hne x hx) h1 (h2 p hp) hpx
  · exact pred_between_close c p u x (hne p hp) (hne u hu) (hne x hx) (h p hp).1 (h p hp).2 hpx

/-- The pair that closes a sorted list: its last element followed by its first. -/
theorem closing_pair (key : Point → ℚ) (F : List Point)
    (hF : F.Pairwise (fun a b => key a ≤ key b)) (hF0 : F ≠ []) :
    (F.getLast hF0, F.head hF0) ∈ closedPairs F
      ∧ ∀ z ∈ F, key (F.head hF0) ≤ key z ∧ key z ≤ key (F.getLast hF0) := by
  have hlen : 0 < F.length := List.length_pos.2 hF0
  have hmono : ∀ a b (ha : a < F.length) (hb : b < F.length), a ≤ b →
      key (F.get ⟨a, ha⟩) ≤ key (F.get ⟨b, hb⟩) := by
    intro a b ha hb hab
    rcases eq_or_lt_of_le hab with h | h
    · subst h
      exact le_refl _
    · exact List.pairwise_iff_getElem.1 hF a b ha hb h
  have hhead : F.head hF0 = F.get ⟨0, hlen⟩ := by
    cases F with
    | nil => exact absurd rfl hF0
    | cons a t => rfl
  have hlast : F.getLast hF0 = F.get ⟨F.length - 1, by omega⟩ := by
    rw [List.getLast_eq_getElem]
    rfl
  constructor
  · rw [mem_closedPairs]
    refine ⟨F.length - 1, by omega, ?_⟩
    have h1 : F.length - 1 + 1 = F.length := by omega
    rw [h1, Nat.mod_self, List.getD_eq_getElem F default (by omega : F.length - 1 < F.length),
      List.getD_eq_getElem F default hlen, hhead, hlast]
    rfl
  · intro z hz
    obtain ⟨j, hj, rfl⟩ := List.getElem_of_mem hz
    rw [hhead, hlast]
    exact ⟨hmono 0 j hlen hj (Nat.zero_le j), hmono j (F.length - 1) hj (by omega) (by omega)⟩

/-- In a list that starts in class `A` and ends in class `B`, the classes being
exclusive and covering, two neighbours change class. -/
theorem exists_straddle (A B : Point → Prop) (l : List Point) (hl : l ≠ [])
    (hAB : ∀ z ∈ l, A z ∨ B z) (hex : ∀ z, A z → B z → False)
    (hA : A (l.head hl)) (hB : B (l.getLast hl)) :
    ∃ p q, (p, q) ∈ l.zip l.tail ∧ A p ∧ B q := by
  induction l with
  | nil => exact absurd rfl hl
  | cons a t ih =>
    cases t with
    | nil => exact absurd hB (fun h => hex a hA h)
    | cons b t' =>
      rcases hAB b (by simp) with hb | hb
      · have hl2 : (b :: t') ≠ [] := by simp
        obtain ⟨p, q, hpq, hp, hq⟩ := ih hl2
          (fun z hz => hAB z (List.mem_cons_of_mem a hz)) hb
          (by rw [List.getLast_cons hl2] at hB; exact hB)
        refine ⟨p, q, ?_, hp, hq⟩
        simp only [List.tail_cons, List.zip_cons_cons, List.mem_cons]
        right
        exact hpq
      · refine ⟨a, b, ?_, hA, hb⟩
        simp

/-- Every gap of a sorted list that contains a closed fan around `c` turns
counter-clockwise around `c`, or is flat. -/
theorem fan_gap (c : Point) (F R : List Point)
    (hF : F.Pairwise (fun a b => keyAt c a ≤ keyAt c b))
    (hFpos : ∀ e ∈ closedPairs F, 0 < cross c e.1 e.2) (hF0 : F ≠ [])
    (hR : R.Pairwise (fun a b => keyAt c a ≤ keyAt c b))
    (hsub : ∀ p ∈ F, p ∈ R)
    (hne : ∀ z ∈ R, ¬ (z.x - c.x = 0 ∧ z.y - c.y = 0))
    (u w : Point) (h : (u, w) ∈ closedPairs R) : 0 ≤ cross c u w := by
  have hu : u ∈ R := closedPairs_fst_mem R _ h
  have hw : w ∈ R := closedPairs_snd_mem R _ h
  have nu := hne u hu
  have nw := hne w hw
  obtain ⟨hcl, hmm⟩ := closing_pair (keyAt c) F hF hF0
  have hpl : F.getLast hF0 ∈ F := List.getLast_mem hF0
  have hqf : F.head hF0 ∈ F := List.head_mem hF0
  have hclpos := hFpos _ hcl
  simp only at hclpos
  have npl := hne _ (hsub _ hpl)
  have nqf := hne _ (hsub _ hqf)
  obtain ⟨hplu, hqfl⟩ := wrap_classes c _ _ npl nqf (hmm _ hpl).1 hclpos
  have kpl := keyAt_nonneg_of_upper c _ hplu
  have kqf := keyAt_neg_of_lower c _ hqfl
  rcases sorted_closedPairs (keyAt c) R hR u w h with ⟨h1, h2⟩ | hcase
  · rcases lt_or_le (u.y - c.y) 0 with hul | huu
    · rcases lt_or_le (w.y - c.y) 0 with hwl | hwu
      · exact key_le_lower c u w hul hwl h1
      · have ku := keyAt_neg_of_lower c u hul
        have kw := keyAt_nonneg_of_upper c w hwu
        have hA : keyAt c (F.head hF0) ≤ keyAt c u := by
          rcases h2 _ (hsub _ hqf) with h | h
          · exact h
          · linarith
        have hB : keyAt c w ≤ keyAt c (F.getLast hF0) := by
          rcases h2 _ (hsub _ hpl) with h | h
          · linarith
          · exact h
        obtain ⟨p, q, hpq, hp, hq⟩ := exists_straddle (fun z => keyAt c z ≤ keyAt c u)
          (fun z => keyAt c w ≤ keyAt c z) F hF0 (fun z hz => h2 z (hsub z hz))
          (fun z ha hb => by linarith) hA hB
        have hpq2 : (p, q) ∈ closedPairs F := by
          cases F with
          | nil => exact absurd rfl hF0
          | cons m rest => exact zip_tail_subset_closedPairs m rest _ hpq
        have hq2 := hne q (hsub q (closedPairs_snd_mem F _ hpq2))
        exact key_mono_cone c p u w q nu nw hq2 hp h1 hq (hFpos _ hpq2)
    · rcases lt_or_le (w.y - c.y) 0 with hwl | hwu
      · have ku := keyAt_nonneg_of_upper c u huu
        have kw := keyAt_neg_of_lower c w hwl
        linarith
      · exact key_le_upper c u w huu hwu nu nw h1
  · have hwq := (hcase _ (hsub _ hqf)).1
    have hpu := (hcase _ (hsub _ hpl)).2
    have hqp := (hmm _ hpl).1
    have huu : 0 ≤ u.y - c.y := upper_of_keyAt_nonneg c u (le_trans kpl hpu)
    have s1 := succ_between_adj c (F.getLast hF0) u (F.head hF0) npl nu nqf hpu (Or.inl hqp) hclpos
    rcases eq_or_lt_of_le s1 with h0 | hpos
    · exfalso
      have e := plucker_y c (F.getLast hF0) (F.head hF0) u
      have hpu2 := key_le_upper c _ u hplu huu npl nu hpu
      rw [← h0] at e
      have t1 : cross c (F.getLast hF0) u * ((F.head hF0).y - c.y) ≤ 0 :=
        mul_nonpos_of_nonneg_of_nonpos hpu2 (le_of_lt hqfl)
      rcases eq_or_lt_of_le huu with hz | hz
      · have : cross c u (F.head hF0) = (u.x - c.x) * ((F.head hF0).y - c.y) := by
          unfold cross
          rw [← hz]
          ring
        rw [this] at h0
        rcases mul_eq_zero.1 h0.symm with h | h
        · exact nu ⟨h, hz.symm⟩
        · linarith
      · have := mul_pos hclpos hz
        linarith
    · exact pred_between_adj c u w (F.head hF0) nu nw nqf hwq (Or.inr (le_trans hqp hpu)) hpos

/-! ## Removing one point from a closed polygon -/

theorem chainSum_snoc (l : List Point) (u x : Point) :
    chainSum (l ++ [u, x]) = chainSum (l ++ [u]) + (u.x * x.y - x.x * u.y) := by
  induction l with
  | nil => simp [chainSum]
  | cons a t ih =>
    cases t with
    | nil =>
      simp only [List.cons_append, List.nil_append, chainSum]
      ring
    | cons b t' =>
      simp only [List.cons_append] at ih ⊢
      rw [chainSum_cons_cons, chainSum_cons_cons, ih]
      ring

/-- Putting `x` in front of a closed polygon changes the shoelace sum by the
triangle between `x` and the two ends. -/
theorem shoelace_cons_insert (x : Point) (l : List Point) (u : Point) :
    shoelace (x :: (l ++ [u])) = shoelace (l ++ [u]) + cross u x ((l ++ [u]).getD 0 default) := by
  cases l with
  | nil =>
    simp only [List.nil_append, List.getD_cons_zero]
    rw [shoelace_cons, shoelace_cons]
    simp only [List.cons_append, List.nil_append, chainSum]
    unfold cross
    ring
  | cons w l' =>
    simp only [List.cons_append, List.getD_cons_zero]
    rw [shoelace_cons, shoelace_cons]
    have e1 : x :: w :: (l' ++ [u]) ++ [x] = x :: ((w :: l') ++ [u, x]) := by simp
    have e2 : w :: (l' ++ [u]) ++ [w] = (w :: l') ++ [u, w] := by simp
    rw [e1, e2, List.cons_append, chainSum_cons_cons, ← List.cons_append, chainSum_snoc,
      chainSum_snoc]
    unfold cross
    ring

theorem closedPairs_cons_ends (x : Point) (l : List Point) (u : Point) :
    (u, x) ∈ closedPairs (x :: (l ++ [u]))
      ∧ (x, (l ++ [u]).getD 0 default) ∈ closedPairs (x :: (l ++ [u])) := by
  constructor
  · rw [mem_closedPairs]
    refine ⟨l.length + 1, by simp, ?_⟩
    have h1 : (x :: (l ++ [u])).length = l.length + 1 + 1 := by simp
    rw [h1, Nat.mod_self]
    simp
  · rw [mem_closedPairs]
    refine ⟨0, by simp, ?_⟩
    have h1 : (x :: (l ++ [u])).length = l.length + 1 + 1 := by simp
    rw [h1, Nat.mod_eq_of_lt (by omega)]
    cases l with
    | nil => simp
    | cons w l' => simp

/-- Removing the point `x` from a closed polygon changes the shoelace sum by
the triangle between `x` and its two cyclic neighbours. -/
theorem shoelace_remove (R1 R2 : List Point) (x : Point) (h : R1 ++ R2 ≠ []) :
    ∃ u w, (u, x) ∈ closedPairs (R1 ++ x :: R2) ∧ (x, w) ∈ closedPairs (R1 ++ x :: R2)
      ∧ u ∈ R1 ++ R2 ∧ w ∈ R1 ++ R2
      ∧ shoelace (R1 ++ x :: R2) = shoelace (R1 ++ R2) + cross u x w := by
  have hM : R2 ++ R1 ≠ [] := by
    intro h0
    apply h
    rw [List.append_eq_nil] at h0 ⊢
    exact ⟨h0.2, h0.1⟩
  have hrot1 : (R1 ++ x :: R2).rotate R1.length = x :: (R2 ++ R1) := by
    rw [List.rotate_append_length_eq]
    rfl
  have hrot2 : (R1 ++ R2).rotate R1.length = R2 ++ R1 := List.rotate_append_length_eq R1 R2
  obtain ⟨l, u, hlu⟩ : ∃ l u, R2 ++ R1 = l ++ [u] :=
    ⟨(R2 ++ R1).dropLast, (R2 ++ R1).getLast hM, (List.dropLast_append_getLast hM).symm⟩
  have hends := closedPairs_cons_ends x l u
  have hsh := shoelace_cons_insert x l u
  rw [← hlu] at hends hsh
  have hmem : ∀ z, z ∈ R2 ++ R1 → z ∈ R1 ++ R2 := by
    intro z hz
    rw [List.mem_append] at hz ⊢
    exact hz.symm
  have hlen : 0 < (R2 ++ R1).length := List.length_pos.2 hM
  refine ⟨u, (R2 ++ R1).getD 0 default, ?_, ?_, ?_, ?_, ?_⟩
  · rw [← mem_closedPairs_rotate _ R1.length, hrot1]
    exact hends.1
  · rw [← mem_closedPairs_rotate _ R1.length, hrot1]
    exact hends.2
  · apply hmem
    rw [hlu]
    simp
  · apply hmem
    rw [List.getD_eq_getElem _ default hlen]
    exact List.getElem_mem hlen
  · rw [← shoelace_rotate (R1 ++ x :: R2) R1.length, hrot1, ← shoelace_rotate (R1 ++ R2) R1.length,
      hrot2]
    exact hsh

/-! ## Points on the boundary of a convex polygon -/

theorem cross_cycle2 (a b p : Point) : cross p a b = cross a b p := by
  unfold cross
  ring

/-- An affine functional at `x`, in barycentric coordinates of the triangle
`c u w`. -/
theorem bary_affine (a b c u w x : Point) :
    cross c u w * cross a b x
      = cross u w x * cross a b c + cross c x w * cross a b u + cross c u x * cross a b w := by
  unfold cross
  ring

/-- A point `x` on an edge line, between `u` and `w` seen from the interior
point `c`, is not nearer to `c` than the chord from `u` to `w`. -/
theorem insert_sign (a b c u w x : Point) (hx : cross a b x = 0) (hc : 0 < cross a b c)
    (hu : 0 ≤ cross a b u) (hw : 0 ≤ cross a b w) (hux : 0 ≤ cross c u x)
    (hxw : 0 ≤ cross c x w) : 0 ≤ cross u x w := by
  have e := bary_affine a b c u w x
  rw [hx, mul_zero] at e
  have t1 := mul_nonneg hxw hu
  have t2 := mul_nonneg hux hw
  have t3 : cross u w x * cross a b c ≤ 0 := by linarith
  have t4 : cross u w x ≤ 0 := by
    by_contra hcon
    push_neg at hcon
    have := mul_pos hcon hc
    linarith
  rw [cross_swap u w x]
  linarith

/-- A boundary point `w` seen from `c` between the points `x` and `b` of the
line of the edge from `a` to `b` is on that line too. -/
theorem succ_on_line (a b e1 e2 c x w : Point)
    (h0x : cross a b x = 0) (h0c : 0 < cross a b c) (h0w : 0 ≤ cross a b w)
    (h1w : cross e1 e2 w = 0) (h1c : 0 < cross e1 e2 c) (h1x : 0 ≤ cross e1 e2 x)
    (h1b : 0 ≤ cross e1 e2 b)
    (hxb : 0 < cross c x b) (hwb : 0 ≤ cross c w b) (hxw : 0 ≤ cross c x w) :
    cross a b w = 0 := by
  have i1 := bary_affine e1 e2 c x b w
  have i0 := bary_affine a b c x b w
  have hbb : cross a b b = 0 := cross_self_right a b
  rw [h1w, mul_zero] at i1
  rw [h0x, hbb, mul_zero, mul_zero, add_zero, add_zero] at i0
  have t1 := mul_nonneg hwb h1x
  have t2 := mul_nonneg hxw h1b
  have t3 : cross x b w * cross e1 e2 c ≤ 0 := by linarith
  have t4 : cross x b w ≤ 0 := by
    by_contra hcon
    push_neg at hcon
    have := mul_pos hcon h1c
    linarith
  have t5 : cross c x b * cross a b w ≤ 0 := by
    rw [i0]
    exact mul_nonpos_of_nonpos_of_nonneg t4 (le_of_lt h0c)
  have t6 := mul_nonneg (le_of_lt hxb) h0w
  rcases mul_eq_zero.1 (le_antisymm t5 t6) with h | h
  · linarith
  · exact h

/-- A boundary point `u` seen from `c` between the points `a` and `x` of the
line of the edge from `a` to `b` is on that line too. -/
theorem pred_on_line (a b e1 e2 c x u : Point)
    (h0x : cross a b x = 0) (h0c : 0 < cross a b c) (h0u : 0 ≤ cross a b u)
    (h1u : cross e1 e2 u = 0) (h1c : 0 < cross e1 e2 c) (h1x : 0 ≤ cross e1 e2 x)
    (h1a : 0 ≤ cross e1 e2 a)
    (hax : 0 < cross c a x) (hau : 0 ≤ cross c a u) (hux : 0 ≤ cross c u x) :
    cross a b u = 0 := by
  have i1 := bary_affine e1 e2 c a x u
  have i0 := bary_affine a b c a x u
  have haa : cross a b a = 0 := cross_self_left a b
  rw [h1u, mul_zero] at i1
  rw [h0x, haa, mul_zero, mul_zero, add_zero, add_zero] at i0
  have t1 := mul_nonneg hux h1a
  have t2 := mul_nonneg hau h1x
  have t3 : cross a x u * cross e1 e2 c ≤ 0 := by linarith
  have t4 : cross a x u ≤ 0 := by
    by_contra hcon
    push_neg at hcon
    have := mul_pos hcon h1c
    linarith
  have t5 : cross c a x * cross a b u ≤ 0 := by
    rw [i0]
    exact mul_nonpos_of_nonpos_of_nonneg t4 (le_of_lt h0c)
  have t6 := mul_nonneg (le_of_lt hax) h0u
  rcases mul_eq_zero.1 (le_antisymm t5 t6) with h | h
  · linarith
  · exact h

/-- A boundary point is not the interior point. -/
theorem boundary_ne_center (P : List Point) (c : Point)
    (hc : ∀ e ∈ closedPairs P, 0 < cross e.1 e.2 c) (x : Point) (hx : OnBoundary P x) :
    ¬ (x.x - c.x = 0 ∧ x.y - c.y = 0) := by
  intro h
  obtain ⟨e, he, h0⟩ := hx.2
  have := hc e he
  have hxc : x = c := by
    cases x
    cases c
    simp only [Point.mk.injEq]
    simp only at h
    exact ⟨by linarith [h.1], by linarith [h.2]⟩
  rw [hxc] at h0
  linarith

/-- A vertex of a strictly convex polygon is on its boundary. -/
theorem vertex_onBoundary (P : List Point) (hP : StrictConvexCCW P) (v : Point) (hv : v ∈ P) :
    OnBoundary P v := by
  refine ⟨fun e he => convex_weak P hP e he v hv, ?_⟩
  obtain ⟨w, hw⟩ := exists_out_edge P v hv
  exact ⟨(v, w), hw, cross_self_left v w⟩

/-- A point of an edge line that is in the polygon and is no vertex is strictly
between the two ends of the edge, seen from an interior point. -/
theorem edge_interior (P : List Point) (hP : StrictConvexCCW P) (c : Point)
    (hc : ∀ e ∈ closedPairs P, 0 < cross e.1 e.2 c) (a b x : Point)
    (hab : (a, b) ∈ closedPairs P) (hx : ∀ e ∈ closedPairs P, 0 ≤ cross e.1 e.2 x)
    (h0 : cross a b x = 0) (hnot : x ∉ P) : 0 < cross c a x ∧ 0 < cross c x b := by
  have ha : a ∈ P := closedPairs_fst_mem P _ hab
  have hb : b ∈ P := closedPairs_snd_mem P _ hab
  have hne : a ≠ b := edge_ne P hP a b hab
  have hcab := hc _ hab
  simp only at hcab
  obtain ⟨b2, hb2⟩ := exists_out_edge P b hb
  obtain ⟨a0, ha0⟩ := exists_in_edge P a ha
  have hb2a : a ≠ b2 := fun h => no_back_edge P hP a b hab (by rw [h]; exact hb2)
  have ha0b : b ≠ a0 := fun h => no_back_edge P hP a b hab (by rw [h]; exact ha0)
  have p1 : 0 < cross b b2 a := hP.2.2 _ hb2 a ha hne hb2a
  have p2 : 0 < cross a0 a b := hP.2.2 _ ha0 b hb ha0b hne.symm
  have x1 := hx _ hb2
  have x2 := hx _ ha0
  simp only at x1 x2
  constructor
  · have i := bary_affine a0 a a b c x
    rw [cross_self_right a0 a, mul_zero, zero_add, h0, zero_mul, add_zero] at i
    have t : 0 ≤ cross a x c * cross a0 a b := by
      rw [← i]
      exact mul_nonneg (le_of_lt hcab) x2
    have t2 : 0 ≤ cross a x c := by
      by_contra hcon
      push_neg at hcon
      have := mul_neg_of_neg_of_pos hcon p2
      linarith
    rw [cross_cycle2]
    rcases eq_or_lt_of_le t2 with hz | hz
    · exfalso
      rw [← hz, zero_mul] at i
      rcases mul_eq_zero.1 i with h | h
      · linarith
      · have hd : cross a0 a b ≠ 0 := ne_of_gt p2
        exact hnot (by rw [corner_unique a0 a b x hd h h0]; exact ha)
    · exact hz
  · have i := bary_affine b b2 a b c x
    rw [cross_self_left b b2, mul_zero, add_zero, h0, zero_mul, add_zero] at i
    have t : 0 ≤ cross b c x * cross b b2 a := by
      rw [← i]
      exact mul_nonneg (le_of_lt hcab) x1
    have t2 : 0 ≤ cross b c x := by
      by_contra hcon
      push_neg at hcon
      have := mul_neg_of_neg_of_pos hcon p1
      linarith
    have e2 : cross c x b = cross b c x := by
      unfold cross
      ring
    rw [e2]
    rcases eq_or_lt_of_le t2 with hz | hz
    · exfalso
      rw [← hz, zero_mul] at i
      rcases mul_eq_zero.1 i with h | h
      · linarith
      · have hd : cross a b b2 ≠ 0 := by
          have : cross a b b2 = cross b b2 a := by
            unfold cross
            ring
          rw [this]
          exact ne_of_gt p1
        exact hnot (by rw [corner_unique a b b2 x hd h0 h]; exact hb)
    · exact hz

/-! ## Sorted lists of boundary points -/

/-- Removing a boundary point that is no vertex from a sorted list of boundary
points that contains all vertices leaves the polygon unchanged: the point and
its two neighbours are on one edge. -/
theorem remove_flat (T : List Point) (hT : StrictConvexCCW T) (c : Point)
    (hc : ∀ e ∈ closedPairs T, 0 < cross e.1 e.2 c)
    (hTs : T.Pairwise (fun a b => keyAt c a < keyAt c b))
    (R : List Point) (hR : R.Pairwise (fun a b => keyAt c a ≤ keyAt c b))
    (hsub : ∀ p ∈ T, p ∈ R) (hbd : ∀ z ∈ R, OnBoundary T z)
    (u x w : Point) (hux : (u, x) ∈ closedPairs R) (hxw : (x, w) ∈ closedPairs R)
    (hx : x ∉ T) : cross u x w = 0 := by
  have hT0 : T ≠ [] := by
    intro h
    have := hT.2.1
    rw [h] at this
    simp at this
  have hne : ∀ z ∈ R, ¬ (z.x - c.x = 0 ∧ z.y - c.y = 0) :=
    fun z hz => boundary_ne_center T c hc z (hbd z hz)
  have hFpos : ∀ e ∈ closedPairs T, 0 < cross c e.1 e.2 := by
    intro e he
    rw [cross_cycle2]
    exact hc e he
  have hTle : T.Pairwise (fun a b => keyAt c a ≤ keyAt c b) := hTs.imp (fun h => le_of_lt h)
  have huR : u ∈ R := closedPairs_fst_mem R _ hux
  have hxR : x ∈ R := closedPairs_snd_mem R _ hux
  have hwR : w ∈ R := closedPairs_snd_mem R _ hxw
  obtain ⟨e0, he0, h0x⟩ := (hbd x hxR).2
  obtain ⟨a, b⟩ := e0
  simp only at h0x
  have ha : a ∈ T := closedPairs_fst_mem T _ he0
  have hb : b ∈ T := closedPairs_snd_mem T _ he0
  obtain ⟨hax, hxb⟩ := edge_interior T hT c hc a b x he0 (hbd x hxR).1 h0x hx
  have g1 := fan_gap c T R hTle hFpos hT0 hR hsub hne u x hux
  have g2 := fan_gap c T R hTle hFpos hT0 hR hsub hne x w hxw
  have s1 := succ_between c R hR hne x w b hxw (hsub b hb) hxb
  have s2 := pred_between c R hR hne a u x hux (hsub a ha) hax
  have h0c := hc (a, b) he0
  simp only at h0c
  obtain ⟨e1, he1, h1w⟩ := (hbd w hwR).2
  obtain ⟨e2, he2, h2u⟩ := (hbd u huR).2
  have hw0 := succ_on_line a b e1.1 e1.2 c x w h0x h0c ((hbd w hwR).1 (a, b) he0) h1w
    (hc e1 he1) ((hbd x hxR).1 e1 he1) (convex_weak T hT e1 he1 b hb) hxb s1 g2
  have hu0 := pred_on_line a b e2.1 e2.2 c x u h0x h0c ((hbd u huR).1 (a, b) he0) h2u
    (hc e2 he2) ((hbd x hxR).1 e2 he2) (convex_weak T hT e2 he2 a ha) hax s2 g1
  exact collinear_of_on_line a b u x w (edge_ne T hT a b he0) hu0 h0x hw0

/-- Removing a boundary point from a sorted list of boundary points that
contains a closed fan does not enlarge the polygon. -/
theorem remove_sign (P : List Point) (c : Point)
    (hc : ∀ e ∈ closedPairs P, 0 < cross e.1 e.2 c) (F : List Point)
    (hF : F.Pairwise (fun a b => keyAt c a ≤ keyAt c b))
    (hFpos : ∀ e ∈ closedPairs F, 0 < cross c e.1 e.2) (hF0 : F ≠ [])
    (R : List Point) (hR : R.Pairwise (fun a b => keyAt c a ≤ keyAt c b))
    (hsub : ∀ p ∈ F, p ∈ R) (hbd : ∀ z ∈ R, OnBoundary P z)
    (u x w : Point) (hux : (u, x) ∈ closedPairs R) (hxw : (x, w) ∈ closedPairs R) :
    0 ≤ cross u x w := by
  have hne : ∀ z ∈ R, ¬ (z.x - c.x = 0 ∧ z.y - c.y = 0) :=
    fun z hz => boundary_ne_center P c hc z (hbd z hz)
  have huR : u ∈ R := closedPairs_fst_mem R _ hux
  have hxR : x ∈ R := closedPairs_snd_mem R _ hux
  have hwR : w ∈ R := closedPairs_snd_mem R _ hxw
  obtain ⟨e0, he0, h0x⟩ := (hbd x hxR).2
  exact insert_sign e0.1 e0.2 c u w x h0x (hc e0 he0) ((hbd u huR).1 e0 he0)
    ((hbd w hwR).1 e0 he0)
    (fan_gap c F R hF hFpos hF0 hR hsub hne u x hux)
    (fan_gap c F R hF hFpos hF0 hR hsub hne x w hxw)

theorem eq_of_key_eq (key : Point → ℚ) (F : List Point)
    (hF : F.Pairwise (fun a b => key a < key b)) (a b : Point) (ha : a ∈ F) (hb : b ∈ F)
    (h : key a = key b) : a = b := by
  by_contra hne
  have hsym : Symmetric (fun a b : Point => key a ≠ key b) := fun _ _ h => h.symm
  exact (hF.imp (fun h => ne_of_lt h)).forall hsym ha hb hne h

theorem nodup_of_key_lt (key : Point → ℚ) (F : List Point)
    (hF : F.Pairwise (fun a b => key a < key b)) : F.Nodup :=
  hF.imp (fun h he => by rw [he] at h; exact lt_irrefl _ h)

/-- A sorted list without repetition whose points are those of a strictly
sorted list is that list. -/
theorem sorted_eq_of_same_points (key : Point → ℚ) (F R : List Point)
    (hF : F.Pairwise (fun a b => key a < key b))
    (hR : R.Pairwise (fun a b => key a ≤ key b)) (hnd : R.Nodup)
    (h1 : ∀ p ∈ F, p ∈ R) (h2 : ∀ z ∈ R, z ∈ F) : R = F := by
  have hperm : R.Perm F :=
    (List.perm_ext_iff_of_nodup hnd (nodup_of_key_lt key F hF)).2 (fun z => ⟨h2 z, h1 z⟩)
  refine List.Perm.eq_of_sorted ?_ hR (hF.imp (fun h => le_of_lt h)) hperm
  intro a b ha hb hab hba
  exact eq_of_key_eq key F hF a b (h2 a ha) hb (le_antisymm hab hba)

/-- A sorted list of boundary points of a convex polygon that contains all
vertices has the area of the polygon. -/
theorem shoelace_boundary_eq (T : List Point) (hT : StrictConvexCCW T) (c : Point)
    (hc : ∀ e ∈ closedPairs T, 0 < cross e.1 e.2 c)
    (hTs : T.Pairwise (fun a b => keyAt c a < keyAt c b))
    (R : List Point) (hR : R.Pairwise (fun a b => keyAt c a ≤ keyAt c b)) (hnd : R.Nodup)
    (hsub : ∀ p ∈ T, p ∈ R) (hbd : ∀ z ∈ R, OnBoundary T z) : shoelace R = shoelace T := by
  generalize hn : R.length = n
  induction n using Nat.strong_induction_on generalizing R with
  | _ n ih =>
    by_cases hall : ∀ z ∈ R, z ∈ T
    · rw [sorted_eq_of_same_points (keyAt c) T R hTs hR hnd hsub hall]
    · push_neg at hall
      obtain ⟨x, hxR, hxT⟩ := hall
      obtain ⟨R1, R2, rfl⟩ := List.append_of_mem hxR
      have hsl : (R1 ++ R2).Sublist (R1 ++ x :: R2) :=
        (List.sublist_cons_self x R2).append_left R1
      have hsub2 : ∀ p ∈ T, p ∈ R1 ++ R2 := by
        intro p hp
        have := hsub p hp
        simp only [List.mem_append, List.mem_cons] at this ⊢
        rcases this with h | h | h
        · exact Or.inl h
        · exact absurd (h ▸ hp) hxT
        · exact Or.inr h
      have hne : R1 ++ R2 ≠ [] := by
        intro h0
        have h3 := hT.2.1
        cases T with
        | nil => simp at h3
        | cons t _ =>
          have := hsub2 t (by simp)
          rw [h0] at this
          simp at this
      have hlen : (R1 ++ R2).length < n := by
        rw [← hn]
        simp
      have hrec := ih _ hlen (R1 ++ R2) (hR.sublist hsl) (hnd.sublist hsl) hsub2
        (fun z hz => hbd z (hsl.subset hz)) rfl
      obtain ⟨u, w, hux, hxw, _, _, hsh⟩ := shoelace_remove R1 R2 x hne
      rw [hsh, hrec, remove_flat T hT c hc hTs _ hR hsub hbd u x w hux hxw hxT, add_zero]

/-- A sorted list of boundary points of a convex polygon that contains a closed
fan encloses at least the area of the fan. -/
theorem shoelace_boundary_ge (P : List Point) (c : Point)
    (hc : ∀ e ∈ closedPairs P, 0 < cross e.1 e.2 c) (F : List Point)
    (hF : F.Pairwise (fun a b => keyAt c a < keyAt c b))
    (hFpos : ∀ e ∈ closedPairs F, 0 < cross c e.1 e.2) (hF0 : F ≠ [])
    (R : List Point) (hR : R.Pairwise (fun a b => keyAt c a ≤ keyAt c b)) (hnd : R.Nodup)
    (hsub : ∀ p ∈ F, p ∈ R) (hbd : ∀ z ∈ R, OnBoundary P z) : shoelace F ≤ shoelace R := by
  generalize hn : R.length = n
  induction n using Nat.strong_induction_on generalizing R with
  | _ n ih =>
    by_cases hall : ∀ z ∈ R, z ∈ F
    · rw [sorted_eq_of_same_points (keyAt c) F R hF hR hnd hsub hall]
    · push_neg at hall
      obtain ⟨x, hxR, hxF⟩ := hall
      obtain ⟨R1, R2, rfl⟩ := List.append_of_mem hxR
      have hsl : (R1 ++ R2).Sublist (R1 ++ x :: R2) :=
        (List.sublist_cons_self x R2).append_left R1
      have hsub2 : ∀ p ∈ F, p ∈ R1 ++ R2 := by
        intro p hp
        have := hsub p hp
        simp only [List.mem_append, List.mem_cons] at this ⊢
        rcases this with h | h | h
        · exact Or.inl h
        · exact absurd (h ▸ hp) hxF
        · exact Or.inr h
      have hne : R1 ++ R2 ≠ [] := by
        intro h0
        cases F with
        | nil => exact hF0 rfl
        | cons t _ =>
          have := hsub2 t (by simp)
          rw [h0] at this
          simp at this
      have hlen : (R1 ++ R2).length < n := by
        rw [← hn]
        simp
      have hrec := ih _ hlen (R1 ++ R2) (hR.sublist hsl) (hnd.sublist hsl) hsub2
        (fun z hz => hbd z (hsl.subset hz)) rfl
      obtain ⟨u, w, hux, hxw, _, _, hsh⟩ := shoelace_remove R1 R2 x hne
      have := remove_sign P c hc F (hF.imp (fun h => le_of_lt h)) hFpos hF0 _ hR hsub hbd
        u x w hux hxw
      rw [hsh]
      linarith

/-! ## Pushing a point out to the boundary along its ray -/

/-- The point at parameter `r` on the ray from `c` through `v`. -/
theorem cross_ray (a b c v : Point) (r : ℚ) :
    cross a b ⟨c.x + r * (v.x - c.x), c.y + r * (v.y - c.y)⟩
      = cross a b c + r * (cross a b v - cross a b c) := by
  unfold cross
  ring

theorem cross_ray_ray (c u w : Point) (r s : ℚ) :
    cross c ⟨c.x + r * (u.x - c.x), c.y + r * (u.y - c.y)⟩
        ⟨c.x + s * (w.x - c.x), c.y + s * (w.y - c.y)⟩
      = r * s * cross c u w := by
  unfold cross
  ring

theorem atan2Key_scale (x y t : ℚ) (ht : 0 < t) : atan2Key (t * y) (t * x) = atan2Key y x := by
  by_cases h : x = 0 ∧ y = 0
  · rw [h.1, h.2, mul_zero]
  · have h2 : ¬ (t * x = 0 ∧ t * y = 0) := by
      intro h0
      apply h
      constructor
      · rcases mul_eq_zero.1 h0.1 with h1 | h1
        · linarith
        · exact h1
      · rcases mul_eq_zero.1 h0.2 with h1 | h1
        · linarith
        · exact h1
    have hs := abs_sum_pos x y h
    have hq : t * x / (|t * x| + |t * y|) = x / (|x| + |y|) := by
      rw [abs_mul, abs_mul, abs_of_pos ht, ← mul_add, mul_div_mul_left _ _ (ne_of_gt ht)]
    rcases lt_or_le y 0 with hy | hy
    · rw [atan2Key_lower _ _ (mul_neg_of_pos_of_neg ht hy), atan2Key_lower _ _ hy, hq]
    · rw [atan2Key_upper _ _ h2 (mul_nonneg (le_of_lt ht) hy), atan2Key_upper _ _ h hy, hq]

/-- All points of a ray from `c` have the same angle key. -/
theorem keyAt_ray (c v : Point) (r : ℚ) (hr : 0 < r) :
    keyAt c ⟨c.x + r * (v.x - c.x), c.y + r * (v.y - c.y)⟩ = keyAt c v := by
  rw [keyAt_eq, keyAt_eq]
  have e1 : c.x + r * (v.x - c.x) - c.x = r * (v.x - c.x) := by ring
  have e2 : c.y + r * (v.y - c.y) - c.y = r * (v.y - c.y) := by ring
  simp only [e1, e2]
  exact atan2Key_scale _ _ r hr

/-- Two directions that are not parallel cannot both be parallel to `b - c`
unless `b = c`. -/
theorem eq_of_two_edges (a0 a1 a2 b c : Point) (hd : cross a0 a1 a2 ≠ 0)
    (h1 : cross a0 a1 b = cross a0 a1 c) (h2 : cross a1 a2 b = cross a1 a2 c) :
    b.x - c.x = 0 ∧ b.y - c.y = 0 := by
  have hx : (b.x - c.x) * cross a0 a1 a2 = 0 := by
    unfold cross at h1 h2 ⊢
    linear_combination (-(a1.x - a0.x)) * h2 + (a2.x - a1.x) * h1
  have hy : (b.y - c.y) * cross a0 a1 a2 = 0 := by
    unfold cross at h1 h2 ⊢
    linear_combination (-(a1.y - a0.y)) * h2 + (a2.y - a1.y) * h1
  constructor
  · rcases mul_eq_zero.1 hx with h | h
    · exact h
    · exact absurd h hd
  · rcases mul_eq_zero.1 hy with h | h
    · exact h
    · exact absurd h hd

/-- Some edge of a convex polygon sees the interior point `c` strictly further
inside than a given other point `b`. -/
theorem exists_edge_towards (P : List Point) (hP : StrictConvexCCW P) (b c : Point)
    (hbc : ¬ (b.x - c.x = 0 ∧ b.y - c.y = 0)) :
    ∃ e ∈ closedPairs P, cross e.1 e.2 b < cross e.1 e.2 c := by
  by_contra hcon
  push_neg at hcon
  have hsum : ((closedPairs P).map
      (fun e : Point × Point => cross e.1 e.2 b - cross e.1 e.2 c)).sum = 0 := by
    have h1 := sum_map_sub (fun e : Point × Point => cross e.1 e.2 b)
      (fun e : Point × Point => cross e.1 e.2 c) (closedPairs P)
    rw [← shoelace_eq_fan P b, ← shoelace_eq_fan P c, sub_self] at h1
    exact h1
  have heq : ∀ e ∈ closedPairs P, cross e.1 e.2 b = cross e.1 e.2 c := by
    intro e he
    by_contra hne
    have hlt : 0 < cross e.1 e.2 b - cross e.1 e.2 c :=
      sub_pos.2 (lt_of_le_of_ne (hcon e he) (Ne.symm hne))
    have h0 : ∀ x ∈ closedPairs P,
        0 ≤ (fun e : Point × Point => cross e.1 e.2 b - cross e.1 e.2 c) x :=
      fun x hx => sub_nonneg.2 (hcon x hx)
    have h1 : ∃ x ∈ closedPairs P,
        0 < (fun e : Point × Point => cross e.1 e.2 b - cross e.1 e.2 c) x := ⟨e, he, hlt⟩
    have := sum_map_pos (fun e : Point × Point => cross e.1 e.2 b - cross e.1 e.2 c)
      (closedPairs P) h0 h1
    linarith
  obtain ⟨v, hv⟩ : ∃ v, v ∈ P := by
    have h3 := hP.2.1
    cases P with
    | nil => simp at h3
    | cons t _ => exact ⟨t, by simp⟩
  obtain ⟨a2, h2⟩ := exists_out_edge P v hv
  obtain ⟨a0, h0⟩ := exists_in_edge P v hv
  have ha2 : a2 ∈ P := closedPairs_snd_mem P _ h2
  have n1 : a2 ≠ a0 := fun h => no_back_edge P hP a0 v h0 (by rw [← h]; exact h2)
  have n2 : a2 ≠ v := (edge_ne P hP v a2 h2).symm
  have hpos : 0 < cross a0 v a2 := hP.2.2 (a0, v) h0 a2 ha2 n1 n2
  exact hbc (eq_of_two_edges a0 v a2 b c (ne_of_gt hpos) (heq (a0, v) h0) (heq (v, a2) h2))

/-- The ray from an interior point `c` through a point `b` of a convex polygon
leaves the polygon at a boundary point, at `b` or beyond. -/
theorem exists_boundary_on_ray (P : List Point) (hP : StrictConvexCCW P) (c : Point)
    (hc : ∀ e ∈ closedPairs P, 0 < cross e.1 e.2 c) (b : Point)
    (hb : ∀ e ∈ closedPairs P, 0 ≤ cross e.1 e.2 b)
    (hbc : ¬ (b.x - c.x = 0 ∧ b.y - c.y = 0)) :
    ∃ r : ℚ, 1 ≤ r ∧ OnBoundary P ⟨c.x + r * (b.x - c.x), c.y + r * (b.y - c.y)⟩ := by
  obtain ⟨e1, he1, hlt1⟩ := exists_edge_towards P hP b c hbc
  let S := ((closedPairs P).filter (fun e => cross e.1 e.2 b < cross e.1 e.2 c)).toFinset
  have hS : S.Nonempty := ⟨e1, by simp [S, he1, hlt1]⟩
  obtain ⟨e0, he0, hmin⟩ := Finset.exists_min_image S
    (fun e => cross e.1 e.2 c / (cross e.1 e.2 c - cross e.1 e.2 b)) hS
  have hmem : ∀ e, e ∈ S ↔ e ∈ closedPairs P ∧ cross e.1 e.2 b < cross e.1 e.2 c := by
    intro e
    simp [S]
  obtain ⟨he0P, hlt0⟩ := (hmem e0).1 he0
  have hd0 : 0 < cross e0.1 e0.2 c - cross e0.1 e0.2 b := sub_pos.2 hlt0
  have hr1 : 1 ≤ cross e0.1 e0.2 c / (cross e0.1 e0.2 c - cross e0.1 e0.2 b) := by
    rw [le_div_iff₀ hd0]
    linarith [hb e0 he0P]
  refine ⟨_, hr1, ?_, e0, he0P, ?_⟩
  · intro e he
    rw [cross_ray]
    rcases lt_or_le (cross e.1 e.2 b) (cross e.1 e.2 c) with hlt | hge
    · have hd : 0 < cross e.1 e.2 c - cross e.1 e.2 b := sub_pos.2 hlt
      have h1 := hmin e ((hmem e).2 ⟨he, hlt⟩)
      simp only at h1
      rw [le_div_iff₀ hd] at h1
      linarith
    · have h1 : 0 ≤ cross e0.1 e0.2 c / (cross e0.1 e0.2 c - cross e0.1 e0.2 b)
          * (cross e.1 e.2 b - cross e.1 e.2 c) :=
        mul_nonneg (by linarith) (sub_nonneg.2 hge)
      linarith [hc e he]
  · rw [cross_ray]
    field_simp
    ring

/-! ## The area of a convex polygon inside another -/

theorem strictConvex_rotate (P : List Point) (k : ℕ) (hP : StrictConvexCCW P) :
    StrictConvexCCW (P.rotate k) := by
  refine ⟨List.nodup_rotate.2 hP.1, by rw [List.length_rotate]; exact hP.2.1, ?_⟩
  intro e he v hv
  exact hP.2.2 e ((mem_closedPairs_rotate P k e).1 he) v (List.mem_rotate.1 hv)

theorem closedPairs_map (f : Point → Point) (T : List Point) :
    closedPairs (T.map f) = (closedPairs T).map (Prod.map f f) := by
  unfold closedPairs
  rw [← List.map_rotate, List.zip_map]

/-- The mean of the vertices of a convex polygon inside another convex polygon
is strictly inside the outer polygon. -/
theorem mean_inside_outer (PA PB : List Point) (hPA : StrictConvexCCW PA)
    (hPB : StrictConvexCCW PB) (hin : ∀ b ∈ PB, ∀ e ∈ closedPairs PA, 0 ≤ cross e.1 e.2 b)
    (e : Point × Point) (he : e ∈ closedPairs PA) : 0 < cross e.1 e.2 (meanPoint PB) := by
  obtain ⟨v, hv⟩ : ∃ v, v ∈ PB := by
    have h3 := hPB.2.1
    cases PB with
    | nil => simp at h3
    | cons t _ => exact ⟨t, by simp⟩
  have hne : PB ≠ [] := List.ne_nil_of_mem hv
  have hm := cross_meanPoint e.1 e.2 PB hne
  have hex : ∃ b ∈ PB, 0 < cross e.1 e.2 b := by
    by_contra hcon
    push_neg at hcon
    have hz : ∀ b ∈ PB, cross e.1 e.2 b = 0 := fun b hb => le_antisymm (hcon b hb) (hin b hb e he)
    obtain ⟨w, hw⟩ := exists_out_edge PB v hv
    obtain ⟨z, hz1, hz2, hz3⟩ := exists_third PB hPB.1 hPB.2.1 v w
    have hpos : 0 < cross v w z := hPB.2.2 (v, w) hw z hz1 hz2 hz3
    have hzero := collinear_of_on_line e.1 e.2 v w z (edge_ne PA hPA e.1 e.2 he) (hz v hv)
      (hz w (closedPairs_snd_mem PB _ hw)) (hz z hz1)
    linarith
  have hsum := sum_map_pos (cross e.1 e.2) PB (fun b hb => hin b hb e he) hex
  have hn : (0 : ℚ) < PB.length := by
    have := List.length_pos.2 hne
    exact_mod_cast this
  by_contra hcon
  push_neg at hcon
  have := mul_nonpos_of_nonneg_of_nonpos (le_of_lt hn) hcon
  linarith

/-- Any finite set of points can be listed in sorted order without repetition. -/
theorem exists_sorted_union (key : Point → ℚ) (L : List Point) :
    ∃ R : List Point, R.Pairwise (fun a b => key a ≤ key b) ∧ R.Nodup ∧ ∀ z, z ∈ R ↔ z ∈ L := by
  haveI : IsTotal Point (fun u v => key u ≤ key v) := ⟨fun u v => le_total _ _⟩
  haveI : IsTrans Point (fun u v => key u ≤ key v) := ⟨fun u v w h1 h2 => le_trans h1 h2⟩
  have hperm := List.perm_insertionSort (fun u v => key u ≤ key v) L.dedup
  refine ⟨L.dedup.insertionSort (fun u v => key u ≤ key v),
    List.sorted_insertionSort (fun u v => key u ≤ key v) L.dedup, ?_, ?_⟩
  · exact hperm.nodup_iff.2 (List.nodup_dedup L)
  · intro z
    rw [hperm.mem_iff, List.mem_dedup]

/-- The comparison of areas for two polygons already sorted around a common
interior point `c`. -/
theorem shoelace_mono_sorted (TA TB : List Point) (c : Point) (hTA : StrictConvexCCW TA)
    (hcA : ∀ e ∈ closedPairs TA, 0 < cross e.1 e.2 c)
    (hsA : TA.Pairwise (fun a b => keyAt c a < keyAt c b))
    (hcB : ∀ e ∈ closedPairs TB, 0 < cross e.1 e.2 c)
    (hsB : TB.Pairwise (fun a b => keyAt c a < keyAt c b)) (hB0 : TB ≠ [])
    (hin : ∀ b ∈ TB, ∀ e ∈ closedPairs TA, 0 ≤ cross e.1 e.2 b) :
    shoelace TB ≤ shoelace TA := by
  have hproj : ∀ b : Point, ∃ b2 : Point, b ∈ TB →
      ∃ r : ℚ, 1 ≤ r ∧ b2 = ⟨c.x + r * (b.x - c.x), c.y + r * (b.y - c.y)⟩
        ∧ OnBoundary TA b2 := by
    intro b
    by_cases hb : b ∈ TB
    · obtain ⟨r, hr, hbd⟩ := exists_boundary_on_ray TA hTA c hcA b (hin b hb)
        (vertex_ne_center TB c hcB b hb)
      exact ⟨_, fun _ => ⟨r, hr, rfl, hbd⟩⟩
    · exact ⟨b, fun h => absurd h hb⟩
  choose f hf using hproj
  have hkey : ∀ b ∈ TB, keyAt c (f b) = keyAt c b := by
    intro b hb
    obtain ⟨r, hr, he, _⟩ := hf b hb
    rw [he]
    exact keyAt_ray c b r (by linarith)
  have hsBs : (TB.map f).Pairwise (fun a b => keyAt c a < keyAt c b) := by
    rw [List.pairwise_map]
    exact hsB.imp_of_mem (fun ha hb h => by rw [hkey _ ha, hkey _ hb]; exact h)
  have hgrow : ∀ e ∈ closedPairs TB,
      0 < cross c e.1 e.2 ∧ cross c e.1 e.2 ≤ cross c (f e.1) (f e.2) := by
    intro e he
    obtain ⟨r1, hr1, h1, _⟩ := hf e.1 (closedPairs_fst_mem TB e he)
    obtain ⟨r2, hr2, h2, _⟩ := hf e.2 (closedPairs_snd_mem TB e he)
    have hpos : 0 < cross c e.1 e.2 := by
      rw [cross_cycle2]
      exact hcB e he
    refine ⟨hpos, ?_⟩
    rw [h1, h2, cross_ray_ray]
    have h12 : 1 ≤ r1 * r2 := by nlinarith
    nlinarith
  have hFpos : ∀ e ∈ closedPairs (TB.map f), 0 < cross c e.1 e.2 := by
    intro e he
    rw [closedPairs_map, List.mem_map] at he
    obtain ⟨e2, he2, rfl⟩ := he
    have := hgrow e2 he2
    simp only [Prod.map_fst, Prod.map_snd]
    linarith [this.1, this.2]
  have hstep : shoelace TB ≤ shoelace (TB.map f) := by
    rw [shoelace_eq_fan TB c, shoelace_eq_fan (TB.map f) c, closedPairs_map, List.map_map]
    apply List.sum_le_sum
    intro e he
    simp only [Function.comp, Prod.map_fst, Prod.map_snd]
    rw [← cross_cycle2 e.1 e.2 c, ← cross_cycle2 (f e.1) (f e.2) c]
    exact (hgrow e he).2
  obtain ⟨R, hR, hnd, hmem⟩ := exists_sorted_union (keyAt c) (TA ++ TB.map f)
  have hbd : ∀ z ∈ R, OnBoundary TA z := by
    intro z hz
    rw [hmem, List.mem_append] at hz
    rcases hz with h | h
    · exact vertex_onBoundary TA hTA z h
    · rw [List.mem_map] at h
      obtain ⟨b, hb, rfl⟩ := h
      obtain ⟨r, _, _, hbd⟩ := hf b hb
      exact hbd
  have hsubA : ∀ p ∈ TA, p ∈ R := fun p hp => (hmem p).2 (List.mem_append_left _ hp)
  have hsubB : ∀ p ∈ TB.map f, p ∈ R := fun p hp => (hmem p).2 (List.mem_append_right _ hp)
  have hBs0 : TB.map f ≠ [] := by
    intro h
    exact hB0 (List.map_eq_nil_iff.1 h)
  have eqA := shoelace_boundary_eq TA hTA c hcA hsA R hR hnd hsubA hbd
  have geB := shoelace_boundary_ge TA c hcA (TB.map f) hsBs hFpos hBs0 R hR hnd hsubB hbd
  linarith

/-- A strictly convex polygon all of whose vertices are on the closed inner side
of every edge of another strictly convex polygon has at most the area of that
polygon. -/
theorem shoelace_mono (PA PB : List Point) (hPA : StrictConvexCCW PA)
    (hPB : StrictConvexCCW PB) (hin : ∀ b ∈ PB, ∀ e ∈ closedPairs PA, 0 ≤ cross e.1 e.2 b) :
    shoelace PB ≤ shoelace PA := by
  have hcB : ∀ e ∈ closedPairs PB, 0 < cross e.1 e.2 (meanPoint PB) :=
    mean_interior PB PB hPB (fun _ h => h) (fun _ h => h)
  have hcA : ∀ e ∈ closedPairs PA, 0 < cross e.1 e.2 (meanPoint PB) :=
    mean_inside_outer PA PB hPA hPB hin
  obtain ⟨kA, hkA⟩ := exists_sorted_rotation PA hPA (meanPoint PB) hcA
  obtain ⟨kB, hkB⟩ := exists_sorted_rotation PB hPB (meanPoint PB) hcB
  have hB0 : PB.rotate kB ≠ [] := by
    intro h
    have h3 := hPB.2.1
    rw [List.rotate_eq_nil_iff] at h
    rw [h] at h3
    simp at h3
  rw [← shoelace_rotate PA kA, ← shoelace_rotate PB kB]
  exact shoelace_mono_sorted (PA.rotate kA) (PB.rotate kB) (meanPoint PB)
    (strictConvex_rotate PA kA hPA)
    (fun e he => hcA e ((mem_closedPairs_rotate PA kA e).1 he)) hkA
    (fun e he => hcB e ((mem_closedPairs_rotate PB kB e).1 he)) hkB hB0
    (fun b hb e he => hin b (List.mem_rotate.1 hb) e ((mem_closedPairs_rotate PA kA e).1 he))

/-! ## The rational key orders directions as `atan2` does

`Complex.arg (x + y i)` is the angle `atan2 y x`: the angle of the direction
`(x, y)` in `(-π, π]`, and `0` at the origin. -/

theorem cross_eq_sin (z w : ℂ) :
    z.re * w.im - z.im * w.re
      = Complex.abs z * Complex.abs w * Real.sin (Complex.arg w - Complex.arg z) := by
  have h1 := Complex.abs_mul_cos_arg z
  have h2 := Complex.abs_mul_sin_arg z
  have h3 := Complex.abs_mul_cos_arg w
  have h4 := Complex.abs_mul_sin_arg w
  rw [Real.sin_sub]
  calc z.re * w.im - z.im * w.re
      = (Complex.abs z * Real.cos (Complex.arg z)) * (Complex.abs w * Real.sin (Complex.arg w))
        - (Complex.abs z * Real.sin (Complex.arg z))
          * (Complex.abs w * Real.cos (Complex.arg w)) := by rw [h1, h2, h3, h4]
    _ = _ := by ring

/-- Two directions that are parallel and point the same way have the same key. -/
theorem key_eq_of_parallel (x y x2 y2 : ℚ) (n : ¬ (x = 0 ∧ y = 0))
    (hc : x * y2 - y * x2 = 0) (hd : 0 < x * x2 + y * y2) :
    atan2Key y2 x2 = atan2Key y x := by
  have hs : 0 < x * x + y * y := by
    rcases eq_or_ne x 0 with hx | hx
    · have hy : y ≠ 0 := fun h => n ⟨hx, h⟩
      have := mul_self_pos.2 hy
      nlinarith [mul_self_nonneg x]
    · have := mul_self_pos.2 hx
      nlinarith [mul_self_nonneg y]
  have ht : 0 < (x * x2 + y * y2) / (x * x + y * y) := div_pos hd hs
  have e1 : x2 = (x * x2 + y * y2) / (x * x + y * y) * x := by
    field_simp
    linear_combination (-y) * hc
  have e2 : y2 = (x * x2 + y * y2) / (x * x + y * y) * y := by
    field_simp
    linear_combination x * hc
  have := atan2Key_scale x y _ ht
  rw [← e1, ← e2] at this
  exact this

theorem complex_ne_zero (x y : ℚ) (n : ¬ (x = 0 ∧ y = 0)) : (⟨(x : ℝ), (y : ℝ)⟩ : ℂ) ≠ 0 := by
  intro h
  have h1 := congrArg Complex.re h
  have h2 := congrArg Complex.im h
  simp only [Complex.zero_re, Complex.zero_im] at h1 h2
  exact n ⟨by exact_mod_cast h1, by exact_mod_cast h2⟩

/-- Equal keys, equal angles. -/
theorem arg_eq_of_key_eq (x y x2 y2 : ℚ) (n : ¬ (x = 0 ∧ y = 0)) (n2 : ¬ (x2 = 0 ∧ y2 = 0))
    (hk : atan2Key y x = atan2Key y2 x2) :
    Complex.arg ⟨(x : ℝ), (y : ℝ)⟩ = Complex.arg ⟨(x2 : ℝ), (y2 : ℝ)⟩ := by
  obtain ⟨t, ht, hx, hy⟩ := key_eq_same_direction x y x2 y2 n n2 hk
  have htr : (0 : ℝ) < (t : ℝ) := by exact_mod_cast ht
  have e : (⟨(x2 : ℝ), (y2 : ℝ)⟩ : ℂ) = ((t : ℝ) : ℂ) * ⟨(x : ℝ), (y : ℝ)⟩ := by
    apply Complex.ext
    · simp only [Complex.mul_re, Complex.ofReal_re, Complex.ofReal_im, zero_mul, sub_zero]
      rw [hx]
      push_cast
      ring
    · simp only [Complex.mul_im, Complex.ofReal_re, Complex.ofReal_im, zero_mul, add_zero]
      rw [hy]
      push_cast
      ring
  rw [e, Complex.arg_real_mul _ htr]

/-- A smaller key, a smaller angle. -/
theorem arg_lt_of_key_lt (x y x2 y2 : ℚ) (n : ¬ (x = 0 ∧ y = 0)) (n2 : ¬ (x2 = 0 ∧ y2 = 0))
    (hk : atan2Key y x < atan2Key y2 x2) :
    Complex.arg ⟨(x : ℝ), (y : ℝ)⟩ < Complex.arg ⟨(x2 : ℝ), (y2 : ℝ)⟩ := by
  have hz := complex_ne_zero x y n
  have hw := complex_ne_zero x2 y2 n2
  have hpos : 0 < Complex.abs ⟨(x : ℝ), (y : ℝ)⟩ * Complex.abs ⟨(x2 : ℝ), (y2 : ℝ)⟩ :=
    mul_pos (Complex.abs.pos hz) (Complex.abs.pos hw)
  have hsin := cross_eq_sin ⟨(x : ℝ), (y : ℝ)⟩ ⟨(x2 : ℝ), (y2 : ℝ)⟩
  simp only at hsin
  have hzpi := Complex.arg_le_pi ⟨(x : ℝ), (y : ℝ)⟩
  have hwpi := Complex.neg_pi_lt_arg ⟨(x2 : ℝ), (y2 : ℝ)⟩
  rcases lt_or_le y 0 with hy | hy
  · have hzneg : Complex.arg ⟨(x : ℝ), (y : ℝ)⟩ < 0 :=
      Complex.arg_neg_iff.2 (by simp only; exact_mod_cast hy)
    rcases lt_or_le y2 0 with hy2 | hy2
    · have hc := key_lt_lower x y x2 y2 hy hy2 hk
      have hcr : (0 : ℝ) < (x : ℝ) * y2 - y * x2 := by exact_mod_cast hc
      by_contra hcon
      push_neg at hcon
      have hs := Real.sin_nonpos_of_nonnpos_of_neg_pi_le
        (sub_nonpos.2 hcon) (by linarith)
      have := mul_nonpos_of_nonneg_of_nonpos (le_of_lt hpos) hs
      linarith
    · have hwnn : 0 ≤ Complex.arg ⟨(x2 : ℝ), (y2 : ℝ)⟩ :=
        Complex.arg_nonneg_iff.2 (by simp only; exact_mod_cast hy2)
      linarith
  · rcases lt_or_le y2 0 with hy2 | hy2
    · have := atan2Key_nonneg_of_upper x y hy
      have := atan2Key_neg_of_lower x2 y2 hy2
      linarith
    · have hc := key_lt_upper x y x2 y2 hy hy2 n n2 hk
      have hcr : (0 : ℝ) ≤ (x : ℝ) * y2 - y * x2 := by exact_mod_cast hc
      have hznn : 0 ≤ Complex.arg ⟨(x : ℝ), (y : ℝ)⟩ :=
        Complex.arg_nonneg_iff.2 (by simp only; exact_mod_cast hy)
      have hwnn : 0 ≤ Complex.arg ⟨(x2 : ℝ), (y2 : ℝ)⟩ :=
        Complex.arg_nonneg_iff.2 (by simp only; exact_mod_cast hy2)
      by_contra hcon
      push_neg at hcon
      have hs := Real.sin_nonpos_of_nonnpos_of_neg_pi_le
        (sub_nonpos.2 hcon) (by linarith)
      have hs0 : Real.sin (Complex.arg ⟨(x2 : ℝ), (y2 : ℝ)⟩ - Complex.arg ⟨(x : ℝ), (y : ℝ)⟩)
          = 0 := by
        have h1 := mul_nonpos_of_nonneg_of_nonpos (le_of_lt hpos) hs
        have h2 : Complex.abs ⟨(x : ℝ), (y : ℝ)⟩ * Complex.abs ⟨(x2 : ℝ), (y2 : ℝ)⟩
            * Real.sin (Complex.arg ⟨(x2 : ℝ), (y2 : ℝ)⟩ - Complex.arg ⟨(x : ℝ), (y : ℝ)⟩) = 0 :=
          le_antisymm h1 (by linarith)
        rcases mul_eq_zero.1 h2 with h | h
        · linarith
        · exact h
      rcases eq_or_lt_of_le (by linarith :
          -Real.pi ≤ Complex.arg ⟨(x2 : ℝ), (y2 : ℝ)⟩ - Complex.arg ⟨(x : ℝ), (y : ℝ)⟩) with he | hl
      · have hzeq : Complex.arg ⟨(x : ℝ), (y : ℝ)⟩ = Real.pi := by linarith
        obtain ⟨hre, him⟩ := Complex.arg_eq_pi_iff.1 hzeq
        simp only at hre him
        have hx : x < 0 := by exact_mod_cast hre
        have hy0 : y = 0 := by exact_mod_cast him
        have := key_negative_axis x y hy0 hx
        have := atan2Key_le_two x2 y2
        linarith
      · have hd0 := (Real.sin_eq_zero_iff_of_lt_of_lt hl (by linarith [Real.pi_pos])).1 hs0
        have hcz : (x : ℝ) * y2 - y * x2 = 0 := by
          rw [hsin, hs0, mul_zero]
        have harg : Complex.arg ⟨(x : ℝ), (y : ℝ)⟩ = Complex.arg ⟨(x2 : ℝ), (y2 : ℝ)⟩ := by
          linarith
        have hrel := (Complex.arg_eq_arg_iff hz hw).1 harg
        have hr : 0 < Complex.abs ⟨(x2 : ℝ), (y2 : ℝ)⟩ / Complex.abs ⟨(x : ℝ), (y : ℝ)⟩ :=
          div_pos (Complex.abs.pos hw) (Complex.abs.pos hz)
        have hre := congrArg Complex.re hrel
        have him := congrArg Complex.im hrel
        rw [← Complex.ofReal_div] at hre him
        simp only [Complex.mul_re, Complex.mul_im, Complex.ofReal_re, Complex.ofReal_im, zero_mul,
          sub_zero, add_zero] at hre him
        generalize Complex.abs ⟨(x2 : ℝ), (y2 : ℝ)⟩ / Complex.abs ⟨(x : ℝ), (y : ℝ)⟩ = r
          at hr hre him
        have hdot : (0 : ℝ) < (x : ℝ) * x2 + y * y2 := by
          have e : (x : ℝ) * x2 + y * y2 = r * (x * x + y * y) := by
            linear_combination (-(x : ℝ)) * hre - (y : ℝ) * him
          rw [e]
          have hs2 : 0 < (x : ℝ) * x + y * y := by
            have hne : ¬ ((x : ℝ) = 0 ∧ (y : ℝ) = 0) := fun h =>
              n ⟨by exact_mod_cast h.1, by exact_mod_cast h.2⟩
            rcases eq_or_ne (x : ℝ) 0 with hx | hx
            · have hyy : (y : ℝ) ≠ 0 := fun h => hne ⟨hx, h⟩
              have := mul_self_pos.2 hyy
              nlinarith [mul_self_nonneg (x : ℝ)]
            · have := mul_self_pos.2 hx
              nlinarith [mul_self_nonneg (y : ℝ)]
          exact mul_pos hr hs2
        have hcq : x * y2 - y * x2 = 0 := by exact_mod_cast hcz
        have hdq : 0 < x * x2 + y * y2 := by exact_mod_cast hdot
        have := key_eq_of_parallel x y x2 y2 n hcq hdq
        linarith

theorem key_lt_iff_arg_lt_of_ne (x y x2 y2 : ℚ) (n : ¬ (x = 0 ∧ y = 0))
    (n2 : ¬ (x2 = 0 ∧ y2 = 0)) :
    atan2Key y x < atan2Key y2 x2
      ↔ Complex.arg ⟨(x : ℝ), (y : ℝ)⟩ < Complex.arg ⟨(x2 : ℝ), (y2 : ℝ)⟩ := by
  constructor
  · exact arg_lt_of_key_lt x y x2 y2 n n2
  · intro h
    rcases lt_trichotomy (atan2Key y x) (atan2Key y2 x2) with hlt | heq | hgt
    · exact hlt
    · have := arg_eq_of_key_eq x y x2 y2 n n2 heq
      linarith
    · have := arg_lt_of_key_lt x2 y2 x y n2 n hgt
      linarith

/-- The origin has the key and the angle of the positive x-axis: `atan2 0 0 = 0`. -/
theorem exists_direction (x y : ℚ) :
    ∃ a b : ℚ, ¬ (a = 0 ∧ b = 0) ∧ atan2Key b a = atan2Key y x
      ∧ Complex.arg ⟨(a : ℝ), (b : ℝ)⟩ = Complex.arg ⟨(x : ℝ), (y : ℝ)⟩ := by
  by_cases h : x = 0 ∧ y = 0
  · refine ⟨1, 0, by norm_num, ?_, ?_⟩
    · rw [h.1, h.2, key_positive_axis 1 0 rfl (by norm_num)]
      simp [atan2Key]
    · rw [h.1, h.2]
      have e0 : (⟨((0 : ℚ) : ℝ), ((0 : ℚ) : ℝ)⟩ : ℂ) = 0 := by
        apply Complex.ext <;> simp
      have e1 : (⟨((1 : ℚ) : ℝ), ((0 : ℚ) : ℝ)⟩ : ℂ) = 1 := by
        apply Complex.ext <;> simp
      rw [e0, e1, Complex.arg_zero, Complex.arg_one]
  · exact ⟨x, y, h, rfl, rfl⟩

/-- The key `atan2Key y x` is smaller than `atan2Key y2 x2` exactly when the
angle `atan2 y x` is smaller than the angle `atan2 y2 x2`. -/
theorem atan2Key_lt_iff (x y x2 y2 : ℚ) :
    atan2Key y x < atan2Key y2 x2
      ↔ Complex.arg ⟨(x : ℝ), (y : ℝ)⟩ < Complex.arg ⟨(x2 : ℝ), (y2 : ℝ)⟩ := by
  obtain ⟨a, b, n, hk, ha⟩ := exists_direction x y
  obtain ⟨a2, b2, n2, hk2, ha2⟩ := exists_direction x2 y2
  rw [← hk, ← hk2, ← ha, ← ha2]
  exact key_lt_iff_arg_lt_of_ne a b a2 b2 n n2

/-- The comparison of keys is the comparison of angles. -/
theorem atan2Key_le_iff (x y x2 y2 : ℚ) :
    atan2Key y x ≤ atan2Key y2 x2
      ↔ Complex.arg ⟨(x : ℝ), (y : ℝ)⟩ ≤ Complex.arg ⟨(x2 : ℝ), (y2 : ℝ)⟩ := by
  rw [← not_lt, ← not_lt, atan2Key_lt_iff]

/-! ## The edge list of a constructed hull -/

/-- The constructor derives the edges from the vertices it stores. -/
theorem new_lines_eq (vs : List Point) (i : Int) :
    (ConvexHull.new vs i).lines_ = SetLines (ConvexHull.new vs i).vertices_ := by
  unfold ConvexHull.new
  split <;> rfl

theorem SetLines_length (l : List Point) : (SetLines l).length = l.length := by
  cases l with
  | nil => rfl
  | cons v0 rest => simp [SetLines]

/-- The edges in index order are the stored edge list with its first entry,
the closing edge, moved to the end. -/
theorem cyclicEdges_eq_rotate (l : List Point) : cyclicEdges l = (SetLines l).rotate 1 := by
  cases l with
  | nil => rfl
  | cons v0 rest =>
    have hlast : (v0 :: rest).getLast (List.cons_ne_nil v0 rest)
        = (v0 :: rest).getD rest.length default := by
      rw [List.getLast_eq_getElem]
      rw [List.getD_eq_getElem _ default (by simp)]
      simp
    unfold cyclicEdges SetLines
    simp only [List.length_cons, Nat.add_sub_cancel]
    rw [List.rotate_cons_succ, List.rotate_zero, List.range_succ, List.map_append, hlast]
    congr 1
    · apply List.map_congr_left
      intro k hk
      rw [List.mem_range] at hk
      rw [Nat.mod_eq_of_lt (by omega)]
    · simp

theorem SetLines_perm (l : List Point) : (SetLines l).Perm (cyclicEdges l) := by
  rw [cyclicEdges_eq_rotate]
  exact (List.rotate_perm _ 1).symm

theorem mem_cyclicEdges (l : List Point) (e : Line) :
    e ∈ cyclicEdges l ↔
      ∃ k, k < l.length ∧ e = ⟨l.getD k default, l.getD ((k + 1) % l.length) default⟩ := by
  unfold cyclicEdges
  simp only [List.mem_map, List.mem_range]
  constructor
  · rintro ⟨k, hk, rfl⟩
    exact ⟨k, hk, rfl⟩
  · rintro ⟨k, hk, rfl⟩
    exact ⟨k, hk, rfl⟩

/-- Every stored vertex starts one edge and ends one edge of the hull, and is
on the line of both. -/
theorem vertex_incident_edges (l : List Point) (v : Point) (hv : v ∈ l) :
    (∃ e ∈ SetLines l, e.start = v ∧ IsPointLeftSideOfLine v e = false)
    ∧ (∃ e ∈ SetLines l, e.end_ = v ∧ IsPointLeftSideOfLine v e = false) := by
  obtain ⟨w, hw⟩ := exists_out_edge l v hv
  obtain ⟨u, hu⟩ := exists_in_edge l v hv
  constructor
  · refine ⟨⟨v, w⟩, (mem_SetLines l _).2 hw, rfl, ?_⟩
    rw [Bool.eq_false_iff]
    intro h
    rw [isLeft_iff, cross_self_left] at h
    exact lt_irrefl _ h
  · refine ⟨⟨u, v⟩, (mem_SetLines l _).2 hu, rfl, ?_⟩
    rw [Bool.eq_false_iff]
    intro h
    rw [isLeft_iff, cross_self_right] at h
    exact lt_irrefl _ h

/-! ## The overlap ratio on a part of the input -/

/-- The filter keeps the hulls whose ratio, in the words of the specification,
is at most one half. -/
theorem filterConvexHulls_eq (hulls : List ConvexHull) :
    FilterConvexHulls hulls [] = hulls.filter (fun R => ratioLeHalf (ratioSpec hulls R)) := by
  unfold FilterConvexHulls
  rw [filterLoop_eq (fun R => ratioLeHalf (overlapRatio hulls R)) hulls []]
  simp [overlapRatio_eq_ratioSpec]

theorem dadd_eq_some (a b : Option ℚ) (q : ℚ) (h : dadd a b = some q) :
    ∃ t r, a = some t ∧ b = some r ∧ q = t + r := by
  cases a with
  | none => simp [dadd] at h
  | some t =>
    cases b with
    | none => simp [dadd] at h
    | some r =>
      simp only [dadd, Option.some.injEq] at h
      exact ⟨t, r, rfl, rfl, h.symm⟩

theorem ratioLeHalf_eq_true (a : Option ℚ) :
    ratioLeHalf a = true ↔ ∃ q, a = some q ∧ q ≤ 1 / 2 := by
  cases a with
  | none => simp [ratioLeHalf]
  | some r => simp [ratioLeHalf]

/-- A finite sum of non-negative summands does not grow when summands are left
out, and stays finite. -/
theorem foldr_dadd_sublist {α : Type} (f : α → Option ℚ) (l2 l : List α) (h : l2.Sublist l)
    (hnn : ∀ a ∈ l, ∀ t, f a = some t → 0 ≤ t) (q : ℚ)
    (hq : (l.map f).foldr dadd (some 0) = some q) :
    ∃ q2, (l2.map f).foldr dadd (some 0) = some q2 ∧ 0 ≤ q2 ∧ q2 ≤ q := by
  induction h generalizing q with
  | slnil =>
    simp only [List.map_nil, List.foldr_nil, Option.some.injEq] at hq
    exact ⟨0, rfl, le_refl _, by rw [← hq]⟩
  | cons a _ ih =>
    simp only [List.map_cons, List.foldr_cons] at hq
    obtain ⟨t, r, ht, hr, rfl⟩ := dadd_eq_some _ _ q hq
    obtain ⟨q2, h1, h2, h3⟩ := ih (fun b hb => hnn b (List.mem_cons_of_mem a hb)) r hr
    have := hnn a (List.mem_cons_self a _) t ht
    exact ⟨q2, h1, h2, by linarith⟩
  | cons₂ a _ ih =>
    simp only [List.map_cons, List.foldr_cons] at hq ⊢
    obtain ⟨t, r, ht, hr, rfl⟩ := dadd_eq_some _ _ q hq
    obtain ⟨q2, h1, h2, h3⟩ := ih (fun b hb => hnn b (List.mem_cons_of_mem a hb)) r hr
    have := hnn a (List.mem_cons_self a _) t ht
    refine ⟨t + q2, ?_, by linarith, by linarith⟩
    rw [ht, h1]
    rfl

/-- The area the constructor computes is never negative. -/
theorem new_area_nonneg (vs : List Point) (i : Int) : 0 ≤ (ConvexHull.new vs i).area_ := by
  unfold ConvexHull.new
  split
  · simp only
    unfold SetArea
    exact mul_nonneg (by norm_num) (abs_nonneg _)
  · exact le_refl _

/-- The hull a successful intersection returns has a non-negative area. -/
theorem chi_area_nonneg (A B out : ConvexHull) (h : (ConvexHullIntersection A B out).1 = true) :
    0 ≤ (ConvexHullIntersection A B out).2.area_ := by
  unfold ConvexHullIntersection at h ⊢
  simp only at h ⊢
  split
  · rename_i hlt
    rw [if_pos hlt] at h
    simp at h
  · exact new_area_nonneg _ _

/-- Every summand of the ratio of a hull with positive area is finite and
non-negative. -/
theorem ratioTerm_nonneg (R H : ConvexHull) (hR : 0 < R.area_) (t : ℚ)
    (h : ratioTerm R H = some t) : 0 ≤ t := by
  unfold ratioTerm at h
  by_cases hs : (ConvexHullIntersection R H {}).1 = true
  · rw [if_pos hs] at h
    unfold ddiv at h
    rw [if_neg (ne_of_gt hR)] at h
    simp only [Option.some.injEq] at h
    rw [← h]
    exact div_nonneg (chi_area_nonneg R H {} hs) (le_of_lt hR)
  · rw [if_neg hs] at h
    simp only [Option.some.injEq] at h
    rw [← h]

/-- A hull with positive area that passes the filter test on a list passes it
on every sublist. -/
theorem ratio_sublist (hulls sub : List ConvexHull) (hsub : sub.Sublist hulls) (R : ConvexHull)
    (hR : 0 < R.area_) (hk : ratioLeHalf (ratioSpec hulls R) = true) :
    ratioLeHalf (ratioSpec sub R) = true := by
  rw [ratioLeHalf_eq_true] at hk ⊢
  obtain ⟨q, hq, hle⟩ := hk
  unfold ratioSpec at hq ⊢
  obtain ⟨q2, h1, _, h3⟩ := foldr_dadd_sublist (ratioTerm R)
    (sub.filter (fun H => decide (H.id_ ≠ R.id_))) (hulls.filter (fun H => decide (H.id_ ≠ R.id_)))
    (hsub.filter _) (fun H _ t ht => ratioTerm_nonneg R H hR t ht) q hq
  exact ⟨q2, h1, le_trans h3 hle⟩

/-! ## The rounding function is rounding to nearest, ties to even -/

theorem halvings_spec (fuel n : ℕ) (h : n ≤ fuel) (hn : 1 ≤ n) :
    2 ^ ieee.halvings fuel n ≤ n ∧ n < 2 ^ (ieee.halvings fuel n + 1) := by
  induction fuel generalizing n with
  | zero => omega
  | succ f ih =>
    unfold ieee.halvings
    by_cases h2 : n < 2
    · rw [if_pos h2]
      simp only [pow_zero, zero_add, pow_one]
      omega
    · rw [if_neg h2]
      obtain ⟨i1, i2⟩ := ih (n / 2) (by omega) (by omega)
      rw [pow_succ, pow_succ]
      rw [pow_succ] at i2
      constructor
      · omega
      · omega

/-- The logarithm `ieee.log2 n` is the exponent of the largest power of two not
above `n`. -/
theorem log2_spec (n : ℕ) (hn : 1 ≤ n) : 2 ^ ieee.log2 n ≤ n ∧ n < 2 ^ (ieee.log2 n + 1) :=
  halvings_spec n n (le_refl n) hn

theorem pow2_eq_zpow (k : Int) : ieee.pow2 k = (2 : ℚ) ^ k := by
  unfold ieee.pow2
  by_cases hk : 0 ≤ k
  · rw [if_pos hk]
    obtain ⟨n, rfl⟩ := Int.eq_ofNat_of_zero_le hk
    simp
  · rw [if_neg hk]
    obtain ⟨n, hn⟩ := Int.eq_ofNat_of_zero_le (by omega : 0 ≤ -k)
    have hk2 : k = -(n : ℤ) := by omega
    rw [hn, hk2]
    simp

theorem pow2_pos (k : Int) : 0 < ieee.pow2 k := by
  rw [pow2_eq_zpow]
  positivity

theorem pow2_succ (k : Int) : ieee.pow2 (k + 1) = 2 * ieee.pow2 k := by
  rw [pow2_eq_zpow, pow2_eq_zpow, zpow_add_one₀ (by norm_num : (2 : ℚ) ≠ 0)]
  ring

theorem pow2_sub (a b : ℕ) : ieee.pow2 ((a : Int) - (b : Int)) = (2 : ℚ) ^ a / (2 : ℚ) ^ b := by
  rw [pow2_eq_zpow, zpow_sub₀ (by norm_num : (2 : ℚ) ≠ 0), zpow_natCast, zpow_natCast]

/-- The exponent `ieee.ilog2 q` is the binade of `q`. -/
theorem ilog2_spec (q : ℚ) (hq : q ≠ 0) :
    ieee.pow2 (ieee.ilog2 q) ≤ |q| ∧ |q| < ieee.pow2 (ieee.ilog2 q + 1) := by
  have hnum : 1 ≤ q.num.natAbs := Int.natAbs_pos.2 (Rat.num_ne_zero.2 hq)
  have hden : 1 ≤ q.den := q.den_pos
  obtain ⟨a1, a2⟩ := log2_spec _ hnum
  obtain ⟨b1, b2⟩ := log2_spec _ hden
  have habs : |q| = (q.num.natAbs : ℚ) / (q.den : ℚ) := by
    conv_lhs => rw [← Rat.num_div_den q]
    rw [abs_div, Nat.cast_natAbs, Int.cast_abs, Nat.abs_cast]
  have A1 : (2 : ℚ) ^ ieee.log2 q.num.natAbs ≤ (q.num.natAbs : ℚ) := by exact_mod_cast a1
  have A2 : (q.num.natAbs : ℚ) < 2 * (2 : ℚ) ^ ieee.log2 q.num.natAbs := by
    have : q.num.natAbs < 2 * 2 ^ ieee.log2 q.num.natAbs := by
      rw [pow_succ] at a2
      omega
    exact_mod_cast this
  have B1 : (2 : ℚ) ^ ieee.log2 q.den ≤ (q.den : ℚ) := by exact_mod_cast b1
  have B2 : (q.den : ℚ) < 2 * (2 : ℚ) ^ ieee.log2 q.den := by
    have : q.den < 2 * 2 ^ ieee.log2 q.den := by
      rw [pow_succ] at b2
      omega
    exact_mod_cast this
  have hpa : (0 : ℚ) < (2 : ℚ) ^ ieee.log2 q.num.natAbs := by positivity
  have hpb : (0 : ℚ) < (2 : ℚ) ^ ieee.log2 q.den := by positivity
  have hdq : (0 : ℚ) < (q.den : ℚ) := by exact_mod_cast hden
  have hest := pow2_sub (ieee.log2 q.num.natAbs) (ieee.log2 q.den)
  have up : |q| < ieee.pow2 ((ieee.log2 q.num.natAbs : Int) - (ieee.log2 q.den : Int) + 1) := by
    have e : 2 * ((2 : ℚ) ^ ieee.log2 q.num.natAbs / (2 : ℚ) ^ ieee.log2 q.den) * (q.den : ℚ)
        = 2 * (2 : ℚ) ^ ieee.log2 q.num.natAbs * (q.den : ℚ) / (2 : ℚ) ^ ieee.log2 q.den := by
      ring
    have hn0 : (0 : ℚ) ≤ (q.num.natAbs : ℚ) := Nat.cast_nonneg _
    rw [pow2_succ, hest, habs, div_lt_iff₀ hdq, e, lt_div_iff₀ hpb]
    nlinarith [mul_le_mul_of_nonneg_left B1 hn0, mul_lt_mul_of_pos_right A2 hdq]
  have low : ieee.pow2 ((ieee.log2 q.num.natAbs : Int) - (ieee.log2 q.den : Int) - 1) < |q| := by
    have e : ieee.pow2 ((ieee.log2 q.num.natAbs : Int) - (ieee.log2 q.den : Int) - 1)
        = (2 : ℚ) ^ ieee.log2 q.num.natAbs / (2 : ℚ) ^ ieee.log2 q.den / 2 := by
      have := pow2_succ ((ieee.log2 q.num.natAbs : Int) - (ieee.log2 q.den : Int) - 1)
      rw [sub_add_cancel, hest] at this
      rw [this]
      ring
    rw [e, habs, div_div, div_lt_div_iff₀ (by positivity) hdq]
    nlinarith [mul_le_mul_of_nonneg_right A1 (le_of_lt hpb),
      mul_lt_mul_of_pos_left B2 hpa]
  unfold ieee.ilog2
  simp only
  split_ifs with h
  · exact ⟨h, up⟩
  · push_neg at h
    refine ⟨le_of_lt low, ?_⟩
    rw [sub_add_cancel]
    exact h

/-- The integer `ieee.roundEven q` is nearest to `q`, and even at a tie. -/
theorem roundEven_spec (q : ℚ) :
    |(ieee.roundEven q : ℚ) - q| ≤ 1 / 2
    ∧ (|(ieee.roundEven q : ℚ) - q| = 1 / 2 → ieee.roundEven q % 2 = 0) := by
  have hf : Rat.floor q = ⌊q⌋ := rfl
  have h1 : ((Rat.floor q : ℤ) : ℚ) ≤ q := by
    rw [hf]
    exact Int.floor_le q
  have h2 : q < ((Rat.floor q : ℤ) : ℚ) + 1 := by
    rw [hf]
    exact Int.lt_floor_add_one q
  unfold ieee.roundEven
  simp only
  split_ifs with c1 c2 c3
  · constructor
    · rw [abs_le]
      constructor <;> linarith
    · intro he
      rw [abs_sub_comm, abs_of_nonneg (by linarith)] at he
      linarith
  · constructor
    · rw [abs_le]
      push_cast
      constructor <;> linarith
    · intro he
      push_cast at he
      rw [abs_of_nonneg (by linarith)] at he
      linarith
  · exact ⟨by rw [abs_le]; constructor <;> linarith, fun _ => c3⟩
  · constructor
    · rw [abs_le]
      push_cast
      constructor <;> linarith
    · intro _
      omega

/-- The value `ieee.rnd q` is rounding to nearest, ties to even, on the grid of
binary64: with `e` the binade of `q`, the grid has the spacing
`2 ^ (max e (-1022) - 52)` (53 significant bits, or multiples of `2 ^ (-1074)`
below `2 ^ (-1022)`); `rnd q` is a grid point at most half a spacing from `q`,
and the even one when `q` is half-way between two grid points. -/
theorem rnd_spec (q : ℚ) (hq : q ≠ 0) :
    (ieee.pow2 (ieee.ilog2 q) ≤ |q| ∧ |q| < ieee.pow2 (ieee.ilog2 q + 1))
    ∧ ∃ m : ℤ, ieee.rnd q = (m : ℚ) * ieee.pow2 (max (ieee.ilog2 q) (-1022) - 52)
        ∧ |ieee.rnd q - q| ≤ ieee.pow2 (max (ieee.ilog2 q) (-1022) - 52) / 2
        ∧ (|ieee.rnd q - q| = ieee.pow2 (max (ieee.ilog2 q) (-1022) - 52) / 2 → m % 2 = 0) := by
  refine ⟨ilog2_spec q hq, ieee.roundEven (q / ieee.pow2 (max (ieee.ilog2 q) (-1022) - 52)), ?_⟩
  have hp := pow2_pos (max (ieee.ilog2 q) (-1022) - 52)
  obtain ⟨r1, r2⟩ := roundEven_spec (q / ieee.pow2 (max (ieee.ilog2 q) (-1022) - 52))
  have hr : ieee.rnd q = (ieee.roundEven (q / ieee.pow2 (max (ieee.ilog2 q) (-1022) - 52)) : ℚ)
      * ieee.pow2 (max (ieee.ilog2 q) (-1022) - 52) := by
    unfold ieee.rnd
    rw [if_neg hq]
  have hd : |ieee.rnd q - q| = |(ieee.roundEven (q / ieee.pow2 (max (ieee.ilog2 q) (-1022) - 52)) : ℚ)
      - q / ieee.pow2 (max (ieee.ilog2 q) (-1022) - 52)|
        * ieee.pow2 (max (ieee.ilog2 q) (-1022) - 52) := by
    rw [hr, ← abs_of_pos hp, ← abs_mul, abs_of_pos hp, sub_mul, div_mul_cancel₀ _ (ne_of_gt hp)]
  refine ⟨hr, ?_, ?_⟩
  · rw [hd]
    calc _ ≤ 1 / 2 * ieee.pow2 (max (ieee.ilog2 q) (-1022) - 52) :=
          mul_le_mul_of_nonneg_right r1 (le_of_lt hp)
      _ = _ := by ring
  · intro he
    apply r2
    rw [hd] at he
    have : |(ieee.roundEven (q / ieee.pow2 (max (ieee.ilog2 q) (-1022) - 52)) : ℚ)
        - q / ieee.pow2 (max (ieee.ilog2 q) (-1022) - 52)|
          * ieee.pow2 (max (ieee.ilog2 q) (-1022) - 52)
        = 1 / 2 * ieee.pow2 (max (ieee.ilog2 q) (-1022) - 52) := by
      rw [he]
      ring
    exact mul_right_cancel₀ (ne_of_gt hp) this

/-- Some values of `ieee.rnd`: the `double` nearest to `0.1` and to `1/3`, the
two ties next to `2 ^ 53`, an exact value and the smallest positive `double`. -/
theorem rnd_known_values :
    ieee.rnd (1 / 10) = 3602879701896397 / 36028797018963968
    ∧ ieee.rnd (1 / 3) = 6004799503160661 / 18014398509481984
    ∧ ieee.rnd 9007199254740993 = 9007199254740992
    ∧ ieee.rnd 9007199254740995 = 9007199254740996
    ∧ ieee.rnd (3 / 4) = 3 / 4
    ∧ ieee.rnd (ieee.pow2 (-1074) * (3 / 4)) = ieee.pow2 (-1074)
    ∧ ieee.rnd (ieee.pow2 (-1074) / 2) = 0 := by
  decide!
/-! ## The claims -/

/-- C1: started with an empty output list, `FilterConvexHulls` returns exactly
the sub-list of its input (input order, each hull unchanged) of the hulls `R`
with `ratio(R) <= 0.5`, where `ratio(R)` sums `area(intersect(R,H)) / area(R)`
over the hulls `H` with another id for which the intersection succeeds. -/
theorem C1_filter_is_ratio_sublist (hulls : List ConvexHull) :
    FilterConvexHulls hulls [] = hulls.filter (fun R => ratioLeHalf (ratioSpec hulls R)) := by
  unfold FilterConvexHulls
  rw [filterLoop_eq (fun R => ratioLeHalf (overlapRatio hulls R)) hulls []]
  simp [overlapRatio_eq_ratioSpec]

/-- C2: for the three unit squares with ids 1, 2 (shifted by `(0.1, 0)`) and 3
(shifted by `(5, 5)`), hulls 1 and 2 each accumulate the overlap ratio `0.9`,
hull 3 accumulates `0`, and `FilterConvexHulls` returns exactly the hull with
id 3. -/
theorem C2_three_squares_keep_third :
    (scenarioThree.map (fun h => h.id_) = [1, 2, 3])
    ∧ (scenarioThree.map (fun h => overlapRatio scenarioThree h) = [some (9 / 10), some (9 / 10), some 0])
    ∧ (9 / 10 : ℚ) > 1 / 2
    ∧ FilterConvexHulls scenarioThree [] = [ConvexHull.new [⟨5, 5⟩, ⟨6, 5⟩, ⟨6, 6⟩, ⟨5, 6⟩] 3]
    ∧ (FilterConvexHulls scenarioThree []).map (fun h => h.id_) = [3] := by
  decide!

/-- C8: with `d = (By2-By1)(Ax2-Ax1) - (Bx2-Bx1)(Ay2-Ay1)`, `LineSegmentIntersection`
returns false when `d = 0` (for instance on the collinear overlapping segments
`(0,0)-(2,0)` and `(1,0)-(3,0)`); when `d ≠ 0` it returns true exactly when
`0 ≤ uA ≤ 1` and `0 ≤ uB ≤ 1`; on success the reported point is
`A1 + uA * (A2 - A1)`; on failure the output point is left unchanged. -/
theorem C8_segment_intersection_cases (A1 A2 B1 B2 p : Point) :
    (((B2.y - B1.y) * (A2.x - A1.x) - (B2.x - B1.x) * (A2.y - A1.y) = 0 →
        (LineSegmentIntersection ⟨A1, A2⟩ ⟨B1, B2⟩ p).1 = false)
    ∧ ((B2.y - B1.y) * (A2.x - A1.x) - (B2.x - B1.x) * (A2.y - A1.y) ≠ 0 →
        ((LineSegmentIntersection ⟨A1, A2⟩ ⟨B1, B2⟩ p).1 = true ↔
          (0 ≤ ((B2.x - B1.x) * (A1.y - B1.y) - (B2.y - B1.y) * (A1.x - B1.x))
                / ((B2.y - B1.y) * (A2.x - A1.x) - (B2.x - B1.x) * (A2.y - A1.y))
           ∧ ((B2.x - B1.x) * (A1.y - B1.y) - (B2.y - B1.y) * (A1.x - B1.x))
                / ((B2.y - B1.y) * (A2.x - A1.x) - (B2.x - B1.x) * (A2.y - A1.y)) ≤ 1
           ∧ 0 ≤ ((A2.x - A1.x) * (A1.y - B1.y) - (A2.y - A1.y) * (A1.x - B1.x))
                / ((B2.y - B1.y) * (A2.x - A1.x) - (B2.x - B1.x) * (A2.y - A1.y))
           ∧ ((A2.x - A1.x) * (A1.y - B1.y) - (A2.y - A1.y) * (A1.x - B1.x))
                / ((B2.y - B1.y) * (A2.x - A1.x) - (B2.x - B1.x) * (A2.y - A1.y)) ≤ 1)))
    ∧ ((LineSegmentIntersection ⟨A1, A2⟩ ⟨B1, B2⟩ p).1 = true →
        (LineSegmentIntersection ⟨A1, A2⟩ ⟨B1, B2⟩ p).2 =
          ⟨A1.x + ((B2.x - B1.x) * (A1.y - B1.y) - (B2.y - B1.y) * (A1.x - B1.x))
                / ((B2.y - B1.y) * (A2.x - A1.x) - (B2.x - B1.x) * (A2.y - A1.y)) * (A2.x - A1.x),
           A1.y + ((B2.x - B1.x) * (A1.y - B1.y) - (B2.y - B1.y) * (A1.x - B1.x))
                / ((B2.y - B1.y) * (A2.x - A1.x) - (B2.x - B1.x) * (A2.y - A1.y)) * (A2.y - A1.y)⟩)
    ∧ ((LineSegmentIntersection ⟨A1, A2⟩ ⟨B1, B2⟩ p).1 = false →
        (LineSegmentIntersection ⟨A1, A2⟩ ⟨B1, B2⟩ p).2 = p))
    ∧ (LineSegmentIntersection ⟨⟨0, 0⟩, ⟨2, 0⟩⟩ ⟨⟨1, 0⟩, ⟨3, 0⟩⟩ p) = (false, p) := by
  refine ⟨⟨?_, ?_, ?_, ?_⟩, ?_⟩
  · intro hd
    simp [LineSegmentIntersection, segD, hd]
  · intro hd
    simp only [LineSegmentIntersection, segD, segUA, segUB, hd, if_false]
    split <;> simp_all
  · intro h
    simp only [LineSegmentIntersection, segD, segUA, segUB] at h ⊢
    split at h
    · simp at h
    · split at h
      · simp at h
      · rename_i h1 h2
        simp [h1, h2]
  · intro h
    simp only [LineSegmentIntersection, segD, segUA, segUB] at h ⊢
    split
    · rfl
    · split
      · rfl
      · rename_i h1 h2
        simp [h1, h2] at h
  · simp [LineSegmentIntersection, segD]

/-- C9, over exact arithmetic: two non-parallel segments (`d ≠ 0`) that share
an endpoint intersect, and the reported point is the shared endpoint; and
whenever the intersection
succeeds with `uA` or `uB` equal to `0` or `1`, the reported point is the
corresponding endpoint (`A1`, `A2`, `B1`, `B2`). -/
theorem C9_shared_endpoint_reported (A1 A2 B1 B2 p : Point)
    (hd : (B2.y - B1.y) * (A2.x - A1.x) - (B2.x - B1.x) * (A2.y - A1.y) ≠ 0) :
    (A1 = B1 → LineSegmentIntersection ⟨A1, A2⟩ ⟨B1, B2⟩ p = (true, A1))
    ∧ (A1 = B2 → LineSegmentIntersection ⟨A1, A2⟩ ⟨B1, B2⟩ p = (true, A1))
    ∧ (A2 = B1 → LineSegmentIntersection ⟨A1, A2⟩ ⟨B1, B2⟩ p = (true, A2))
    ∧ (A2 = B2 → LineSegmentIntersection ⟨A1, A2⟩ ⟨B1, B2⟩ p = (true, A2))
    ∧ ((LineSegmentIntersection ⟨A1, A2⟩ ⟨B1, B2⟩ p).1 = true →
        (((B2.x - B1.x) * (A1.y - B1.y) - (B2.y - B1.y) * (A1.x - B1.x))
            / ((B2.y - B1.y) * (A2.x - A1.x) - (B2.x - B1.x) * (A2.y - A1.y)) = 0 →
          (LineSegmentIntersection ⟨A1, A2⟩ ⟨B1, B2⟩ p).2 = A1)
        ∧ (((B2.x - B1.x) * (A1.y - B1.y) - (B2.y - B1.y) * (A1.x - B1.x))
            / ((B2.y - B1.y) * (A2.x - A1.x) - (B2.x - B1.x) * (A2.y - A1.y)) = 1 →
          (LineSegmentIntersection ⟨A1, A2⟩ ⟨B1, B2⟩ p).2 = A2)
        ∧ (((A2.x - A1.x) * (A1.y - B1.y) - (A2.y - A1.y) * (A1.x - B1.x))
            / ((B2.y - B1.y) * (A2.x - A1.x) - (B2.x - B1.x) * (A2.y - A1.y)) = 0 →
          (LineSegmentIntersection ⟨A1, A2⟩ ⟨B1, B2⟩ p).2 = B1)
        ∧ (((A2.x - A1.x) * (A1.y - B1.y) - (A2.y - A1.y) * (A1.x - B1.x))
            / ((B2.y - B1.y) * (A2.x - A1.x) - (B2.x - B1.x) * (A2.y - A1.y)) = 1 →
          (LineSegmentIntersection ⟨A1, A2⟩ ⟨B1, B2⟩ p).2 = B2)) := by
  have hD : segD ⟨A1, A2⟩ ⟨B1, B2⟩ ≠ 0 := hd
  have hon := segment_point_on_second ⟨A1, A2⟩ ⟨B1, B2⟩ hD
  have hsucc : ∀ q : Point, 0 ≤ segUA ⟨A1, A2⟩ ⟨B1, B2⟩ → segUA ⟨A1, A2⟩ ⟨B1, B2⟩ ≤ 1 →
      0 ≤ segUB ⟨A1, A2⟩ ⟨B1, B2⟩ → segUB ⟨A1, A2⟩ ⟨B1, B2⟩ ≤ 1 →
      q.x = A1.x + segUA ⟨A1, A2⟩ ⟨B1, B2⟩ * (A2.x - A1.x) →
      q.y = A1.y + segUA ⟨A1, A2⟩ ⟨B1, B2⟩ * (A2.y - A1.y) →
      LineSegmentIntersection ⟨A1, A2⟩ ⟨B1, B2⟩ p = (true, q) := by
    intro q h1 h2 h3 h4 hx hy
    have hq : q = ⟨A1.x + segUA ⟨A1, A2⟩ ⟨B1, B2⟩ * (A2.x - A1.x),
        A1.y + segUA ⟨A1, A2⟩ ⟨B1, B2⟩ * (A2.y - A1.y)⟩ := by
      cases q
      simp only [Point.mk.injEq]
      exact ⟨hx, hy⟩
    unfold LineSegmentIntersection
    simp only [hD, if_false, h1, h2, h3, h4, and_self, not_true_eq_false]
    rw [hq]
  refine ⟨?_, ?_, ?_, ?_, ?_⟩
  · intro h
    subst h
    have hA : segUA ⟨A1, A2⟩ ⟨A1, B2⟩ = 0 := by simp [segUA]
    have hB : segUB ⟨A1, A2⟩ ⟨A1, B2⟩ = 0 := by simp [segUB]
    exact hsucc A1 (by rw [hA]) (by rw [hA]; norm_num) (by rw [hB]) (by rw [hB]; norm_num)
      (by rw [hA]; ring) (by rw [hA]; ring)
  · intro h
    subst h
    have hA : segUA ⟨A1, A2⟩ ⟨B1, A1⟩ = 0 := by
      unfold segUA
      rw [div_eq_zero_iff]
      left
      simp only
      ring
    have hB : segUB ⟨A1, A2⟩ ⟨B1, A1⟩ = 1 := by
      unfold segUB
      rw [div_eq_one_iff_eq hD]
      unfold segD
      simp only
      ring
    exact hsucc A1 (by rw [hA]) (by rw [hA]; norm_num) (by rw [hB]; norm_num) (by rw [hB])
      (by rw [hA]; ring) (by rw [hA]; ring)
  · intro h
    subst h
    have hA : segUA ⟨A1, A2⟩ ⟨A2, B2⟩ = 1 := by
      unfold segUA
      rw [div_eq_one_iff_eq hD]
      unfold segD
      simp only
      ring
    have hB : segUB ⟨A1, A2⟩ ⟨A2, B2⟩ = 0 := by
      unfold segUB
      rw [div_eq_zero_iff]
      left
      simp only
      ring
    exact hsucc A2 (by rw [hA]; norm_num) (by rw [hA]) (by rw [hB]) (by rw [hB]; norm_num)
      (by rw [hA]; ring) (by rw [hA]; ring)
  · intro h
    subst h
    have hA : segUA ⟨A1, A2⟩ ⟨B1, A2⟩ = 1 := by
      unfold segUA
      rw [div_eq_one_iff_eq hD]
      unfold segD
      simp only
      ring
    have hB : segUB ⟨A1, A2⟩ ⟨B1, A2⟩ = 1 := by
      unfold segUB
      rw [div_eq_one_iff_eq hD]
      unfold segD
      simp only
      ring
    exact hsucc A2 (by rw [hA]; norm_num) (by rw [hA]) (by rw [hB]; norm_num) (by rw [hB])
      (by rw [hA]; ring) (by rw [hA]; ring)
  · intro hr
    have hval : (LineSegmentIntersection ⟨A1, A2⟩ ⟨B1, B2⟩ p).2
        = ⟨A1.x + segUA ⟨A1, A2⟩ ⟨B1, B2⟩ * (A2.x - A1.x),
           A1.y + segUA ⟨A1, A2⟩ ⟨B1, B2⟩ * (A2.y - A1.y)⟩ := by
      unfold LineSegmentIntersection at hr ⊢
      simp only [hD, if_false] at hr ⊢
      split
      · rename_i hn
        simp [hn] at hr
      · rfl
    have hx := hon.1
    have hy := hon.2
    simp only at hx hy
    refine ⟨?_, ?_, ?_, ?_⟩
    · intro hu
      have hu2 : segUA ⟨A1, A2⟩ ⟨B1, B2⟩ = 0 := hu
      rw [hval, hu2]
      cases A1
      simp
    · intro hu
      have hu2 : segUA ⟨A1, A2⟩ ⟨B1, B2⟩ = 1 := hu
      rw [hval, hu2]
      cases A2
      simp
    · intro hu
      have hu2 : segUB ⟨A1, A2⟩ ⟨B1, B2⟩ = 0 := hu
      rw [hval, hx, hy, hu2]
      cases B1
      simp
    · intro hu
      have hu2 : segUB ⟨A1, A2⟩ ⟨B1, B2⟩ = 1 := hu
      rw [hval, hx, hy, hu2]
      cases B2
      simp

/-- Witness of C9: the segments `(0,0)-(1,0)` and `(1,0)-(1,1)` are not
parallel and share the endpoint `(1,0)`, which is the point reported. -/
theorem C9_shared_endpoint_witness :
    ((1 : ℚ) - 0) * (1 - 0) - (1 - 1) * (0 - 0) ≠ 0
    ∧ LineSegmentIntersection ⟨⟨0, 0⟩, ⟨1, 0⟩⟩ ⟨⟨1, 0⟩, ⟨1, 1⟩⟩ ⟨7, 7⟩ = (true, ⟨1, 0⟩) :=
  ⟨by norm_num,
   (C9_shared_endpoint_reported ⟨0, 0⟩ ⟨1, 0⟩ ⟨1, 0⟩ ⟨1, 1⟩ ⟨7, 7⟩ (by norm_num)).2.2.1 rfl⟩

/-- C10, evaluated on the hull built from the two vertices `(0,0),(1,0)` and the
unit square with id 1: the two-vertex hull is the empty hull, every vertex of
the square passes the inside test against its empty edge list, so
`ConvexHullIntersection` succeeds in both argument orders with a hull of area 1;
in the filter the square accumulates the ratio 1 and is dropped. -/
theorem C10_two_point_hull_intersects :
    twoPointHull = {}
    ∧ (ConvexHullIntersection twoPointHull unitHull {}).1 = true
    ∧ (ConvexHullIntersection unitHull twoPointHull {}).1 = true
    ∧ (ConvexHullIntersection unitHull twoPointHull {}).2.area_ = 1
    ∧ overlapRatio [unitHull] unitHull = some 0
    ∧ overlapRatio [unitHull, twoPointHull] unitHull = some 1
    ∧ FilterConvexHulls [unitHull] [] = [unitHull]
    ∧ FilterConvexHulls [unitHull, twoPointHull] [] = [] := by
  decide!

/-- C7, over exact arithmetic: when `vs` lists the vertices of a strictly
convex polygon `P` (at least 3 of them) and `vs'` is a permutation of `vs`, the hulls constructed from `vs`
and from `vs'` store the same vertex list and have the same area. -/
theorem C7_area_permutation_invariant (P vs vs' : List Point) (i j : Int)
    (hP : StrictConvexCCW P) (hvs : vs.Perm P) (hvs' : vs'.Perm vs) :
    3 ≤ vs.length
    ∧ (ConvexHull.new vs' j).vertices_ = (ConvexHull.new vs i).vertices_
    ∧ (ConvexHull.new vs' j).area_ = (ConvexHull.new vs i).area_ := by
  have h3 : 3 ≤ vs.length := by
    rw [hvs.length_eq]
    exact hP.2.1
  have h3' : 3 ≤ vs'.length := by
    rw [hvs'.length_eq]
    exact h3
  have hs := sort_perm_eq P vs vs' hP hvs hvs'
  refine ⟨h3, ?_, ?_⟩
  · simp only [ConvexHull.new, h3, h3', if_true, hs]
  · simp only [ConvexHull.new, h3, h3', if_true, hs]

/-- Witness of C7: the unit square and a shuffle of its four corners. -/
theorem C7_area_permutation_witness :
    StrictConvexCCW [⟨0, 0⟩, ⟨1, 0⟩, ⟨1, 1⟩, ⟨0, 1⟩]
    ∧ (ConvexHull.new [⟨1, 1⟩, ⟨0, 0⟩, ⟨0, 1⟩, ⟨1, 0⟩] 2).area_
        = (ConvexHull.new [⟨0, 0⟩, ⟨1, 0⟩, ⟨1, 1⟩, ⟨0, 1⟩] 1).area_ :=
  ⟨by decide!,
   (C7_area_permutation_invariant [⟨0, 0⟩, ⟨1, 0⟩, ⟨1, 1⟩, ⟨0, 1⟩]
      [⟨0, 0⟩, ⟨1, 0⟩, ⟨1, 1⟩, ⟨0, 1⟩] [⟨1, 1⟩, ⟨0, 0⟩, ⟨0, 1⟩, ⟨1, 0⟩] 1 2
      (by decide!) (List.Perm.refl _) (by decide!)).2.2⟩

/-- C6, over exact arithmetic: for two hulls constructed from at least 3
vertices each whose regions
(the convex hulls of the vertex lists) share no point, `ConvexHullIntersection`
returns false and leaves its output untouched: no edge pair yields a crossing
and no vertex of either hull passes the inside test of the other.  Convex
position of the vertices is not needed for this. -/
theorem C6_disjoint_hulls_no_intersection (vsA vsB : List Point) (i j : Int) (out : ConvexHull)
    (hA : 3 ≤ vsA.length) (hB : 3 ≤ vsB.length)
    (hdisj : ∀ p, InHull vsA p → InHull vsB p → False) :
    ConvexHullIntersection (ConvexHull.new vsA i) (ConvexHull.new vsB j) out = (false, out)
    ∧ (∀ a ∈ (ConvexHull.new vsA i).lines_, ∀ b ∈ (ConvexHull.new vsB j).lines_, ∀ p,
        (LineSegmentIntersection a b p).1 = false)
    ∧ (∀ v ∈ (ConvexHull.new vsA i).vertices_,
        IsPointInsideConvexHull v (ConvexHull.new vsB j) = false)
    ∧ (∀ v ∈ (ConvexHull.new vsB j).vertices_,
        IsPointInsideConvexHull v (ConvexHull.new vsA i) = false) := by
  have hedge : ∀ a ∈ (ConvexHull.new vsA i).lines_, ∀ b ∈ (ConvexHull.new vsB j).lines_, ∀ p,
      (LineSegmentIntersection a b p).1 = false := by
    intro a ha b hb p
    rw [new_lines vsA i hA] at ha
    rw [new_lines vsB j hB] at hb
    by_contra hcon
    have htrue : (LineSegmentIntersection a b default).1 = true := by
      rw [lsi_fst_indep a b default p]
      simpa using hcon
    have := segPoint_inHull a b vsA vsB htrue (line_ends_mem vsA a ha) (line_ends_mem vsB b hb)
    exact hdisj _ this.1 this.2
  have hinA : ∀ v ∈ (ConvexHull.new vsA i).vertices_,
      IsPointInsideConvexHull v (ConvexHull.new vsB j) = false := by
    intro v hv
    rw [new_vertices vsA i hA] at hv
    by_contra hcon
    have hin : IsPointInsideConvexHull v (ConvexHull.new vsB j) = true := by simpa using hcon
    unfold IsPointInsideConvexHull at hin
    rw [new_lines vsB j hB, List.all_eq_true] at hin
    have h1 := inside_inHull (SortVertices vsB) v (sortVertices_ne_nil vsB hB) hin
    exact hdisj v (InHull.vertex ((sortVertices_perm vsA).mem_iff.1 hv))
      ((inHull_sort_iff vsB v).1 h1)
  have hinB : ∀ v ∈ (ConvexHull.new vsB j).vertices_,
      IsPointInsideConvexHull v (ConvexHull.new vsA i) = false := by
    intro v hv
    rw [new_vertices vsB j hB] at hv
    by_contra hcon
    have hin : IsPointInsideConvexHull v (ConvexHull.new vsA i) = true := by simpa using hcon
    unfold IsPointInsideConvexHull at hin
    rw [new_lines vsA i hA, List.all_eq_true] at hin
    have h1 := inside_inHull (SortVertices vsA) v (sortVertices_ne_nil vsA hA) hin
    exact hdisj v ((inHull_sort_iff vsA v).1 h1)
      (InHull.vertex ((sortVertices_perm vsB).mem_iff.1 hv))
  refine ⟨?_, hedge, hinA, hinB⟩
  have hnil : intersectionVertices (ConvexHull.new vsA i) (ConvexHull.new vsB j) = [] := by
    rw [List.eq_nil_iff_forall_not_mem]
    intro p hp
    rw [mem_intersectionVertices] at hp
    rcases hp with ⟨a, ha, b, hb, hab, _⟩ | ⟨hv, hin⟩ | ⟨hv, hin⟩
    · rw [hedge a ha b hb default] at hab
      exact Bool.false_ne_true hab
    · rw [hinA p hv] at hin
      exact Bool.false_ne_true hin
    · rw [hinB p hv] at hin
      exact Bool.false_ne_true hin
  unfold ConvexHullIntersection
  simp [hnil]

/-- Witness of C6: the unit squares with lower left corners `(0,0)` and `(5,5)`. -/
theorem C6_disjoint_hulls_witness :
    (∀ p, InHull (unitSquare 0 0) p → InHull (unitSquare 5 5) p → False)
    ∧ ConvexHullIntersection (ConvexHull.new (unitSquare 0 0) 1) (ConvexHull.new (unitSquare 5 5) 3) {}
        = (false, {}) :=
  have hdisj : ∀ p, InHull (unitSquare 0 0) p → InHull (unitSquare 5 5) p → False := by
    intro p h1 h2
    have hle := inHull_x_le (unitSquare 0 0) 1 (by
      intro v hv
      simp only [unitSquare, List.mem_cons, List.mem_singleton, List.not_mem_nil, or_false] at hv
      rcases hv with rfl | rfl | rfl | rfl <;> norm_num) p h1
    have hge := inHull_x_ge (unitSquare 5 5) 5 (by
      intro v hv
      simp only [unitSquare, List.mem_cons, List.mem_singleton, List.not_mem_nil, or_false] at hv
      rcases hv with rfl | rfl | rfl | rfl <;> norm_num) p h2
    linarith
  ⟨hdisj,
   (C6_disjoint_hulls_no_intersection (unitSquare 0 0) (unitSquare 5 5) 1 3 {}
      (by decide) (by decide) hdisj).1⟩

/-- C4, over exact arithmetic: when `A` and `B` are both constructed from the
vertices of a strictly convex polygon `P` (at least 3 distinct vertices, listed in any order),
`ConvexHullIntersection(A,B)` succeeds and the area of the resulting hull is
the area of `A`, which is positive; with distinct ids, each hull accumulates
the overlap ratio 1 against the other alone. -/
theorem C4_identical_polygons_ratio_one (P vsA vsB : List Point) (i j : Int) (out : ConvexHull)
    (hP : StrictConvexCCW P) (hA : vsA.Perm P) (hB : vsB.Perm P) (hij : i ≠ j) :
    (ConvexHullIntersection (ConvexHull.new vsA i) (ConvexHull.new vsB j) out).1 = true
    ∧ (ConvexHullIntersection (ConvexHull.new vsA i) (ConvexHull.new vsB j) out).2.area_
        = (ConvexHull.new vsA i).area_
    ∧ 0 < (ConvexHull.new vsA i).area_
    ∧ (ConvexHull.new vsB j).area_ = (ConvexHull.new vsA i).area_
    ∧ overlapRatio [ConvexHull.new vsA i, ConvexHull.new vsB j] (ConvexHull.new vsA i) = some 1
    ∧ overlapRatio [ConvexHull.new vsA i, ConvexHull.new vsB j] (ConvexHull.new vsB j) = some 1 := by
  have h3A : 3 ≤ vsA.length := by
    rw [hA.length_eq]
    exact hP.2.1
  have h3B : 3 ≤ vsB.length := by
    rw [hB.length_eq]
    exact hP.2.1
  have hsAB := same_polygon_support P vsA vsB i j hP hA hB
  have hsBA := same_polygon_support P vsB vsA j i hP hB hA
  have hpos := shoelace_pos P hP
  have hne : (1 / 2 * shoelace P : ℚ) ≠ 0 := by
    have : 0 < 1 / 2 * shoelace P := by linarith
    exact ne_of_gt this
  have haA := new_area_convex P vsA i hP hA
  have haB := new_area_convex P vsB j hP hB
  have hid : (ConvexHull.new vsA i).id_ ≠ (ConvexHull.new vsB j).id_ := by
    rw [new_id vsA i h3A, new_id vsB j h3B]
    exact hij
  obtain ⟨c1, c2, _⟩ := chi_of_support P _ _ out hP hsAB.1 hsAB.2
  obtain ⟨d1, d2, _⟩ := chi_of_support P (ConvexHull.new vsA i) (ConvexHull.new vsB j) {} hP
    hsAB.1 hsAB.2
  obtain ⟨e1, e2, _⟩ := chi_of_support P (ConvexHull.new vsB j) (ConvexHull.new vsA i) {} hP
    hsBA.1 hsBA.2
  refine ⟨c1, ?_, ?_, ?_, ?_, ?_⟩
  · rw [c2, haA]
  · rw [haA]
    linarith
  · rw [haA, haB]
  · rw [overlapRatio_pair_left _ _ hid]
    unfold ratioTerm
    rw [d1, d2, haA]
    simp only [if_true]
    exact ddiv_self _ hne
  · rw [overlapRatio_pair_right _ _ hid]
    unfold ratioTerm
    rw [e1, e2, haB]
    simp only [if_true]
    exact ddiv_self _ hne

/-- Witness of C4: the unit square used twice, with ids 1 and 2. -/
theorem C4_identical_polygons_witness :
    StrictConvexCCW [⟨0, 0⟩, ⟨1, 0⟩, ⟨1, 1⟩, ⟨0, 1⟩]
    ∧ (ConvexHullIntersection (ConvexHull.new [⟨0, 0⟩, ⟨1, 0⟩, ⟨1, 1⟩, ⟨0, 1⟩] 1)
        (ConvexHull.new [⟨0, 0⟩, ⟨1, 0⟩, ⟨1, 1⟩, ⟨0, 1⟩] 2) {}).1 = true
    ∧ overlapRatio [ConvexHull.new [⟨0, 0⟩, ⟨1, 0⟩, ⟨1, 1⟩, ⟨0, 1⟩] 1,
          ConvexHull.new [⟨0, 0⟩, ⟨1, 0⟩, ⟨1, 1⟩, ⟨0, 1⟩] 2]
        (ConvexHull.new [⟨0, 0⟩, ⟨1, 0⟩, ⟨1, 1⟩, ⟨0, 1⟩] 1) = some 1 :=
  have h := C4_identical_polygons_ratio_one [⟨0, 0⟩, ⟨1, 0⟩, ⟨1, 1⟩, ⟨0, 1⟩]
    [⟨0, 0⟩, ⟨1, 0⟩, ⟨1, 1⟩, ⟨0, 1⟩] [⟨0, 0⟩, ⟨1, 0⟩, ⟨1, 1⟩, ⟨0, 1⟩] 1 2 {}
    (by decide!) (List.Perm.refl _) (List.Perm.refl _) (by decide)
  ⟨by decide!, h.1, h.2.2.2.2.1⟩

/-- C5, over exact arithmetic: when `A` and `B` are constructed from the
vertices of two strictly convex polygons `PA` and `PB` (at least 3 distinct vertices each, listed in any
order) and the polygon of `A` contains every vertex of `B`, hence all of `B`,
`ConvexHullIntersection(A,B)` succeeds, the area of the resulting hull is the
area of `B`, the area of `A` is positive so that the quotient is finite, and
`area(B) / area(A) ≤ 1`. -/
theorem C5_contained_polygon_area (PA PB vsA vsB : List Point) (i j : Int) (out : ConvexHull)
    (hPA : StrictConvexCCW PA) (hPB : StrictConvexCCW PB) (hA : vsA.Perm PA) (hB : vsB.Perm PB)
    (hin : ∀ b ∈ PB, InHull PA b) :
    (ConvexHullIntersection (ConvexHull.new vsA i) (ConvexHull.new vsB j) out).1 = true
    ∧ (ConvexHullIntersection (ConvexHull.new vsA i) (ConvexHull.new vsB j) out).2.area_
        = (ConvexHull.new vsB j).area_
    ∧ 0 < (ConvexHull.new vsA i).area_
    ∧ ddiv (ConvexHull.new vsB j).area_ (ConvexHull.new vsA i).area_
        = some ((ConvexHull.new vsB j).area_ / (ConvexHull.new vsA i).area_)
    ∧ (ConvexHull.new vsB j).area_ / (ConvexHull.new vsA i).area_ ≤ 1 := by
  have hs := contained_support PA PB vsA vsB i j hPA hPB hA hB hin
  obtain ⟨c1, c2, _⟩ := chi_of_support PB _ _ out hPB hs.1 hs.2
  have haA := new_area_convex PA vsA i hPA hA
  have haB := new_area_convex PB vsB j hPB hB
  have hposA := shoelace_pos PA hPA
  have hweak : ∀ b ∈ PB, ∀ e ∈ closedPairs PA, 0 ≤ cross e.1 e.2 b := fun b hb e he =>
    inHull_cross_nonneg PA e.1 e.2 (fun v hv => convex_weak PA hPA e he v hv) b (hin b hb)
  have hmono := shoelace_mono PA PB hPA hPB hweak
  have hpos : 0 < (ConvexHull.new vsA i).area_ := by
    rw [haA]
    linarith
  refine ⟨c1, ?_, hpos, ?_, ?_⟩
  · rw [c2, haB]
  · unfold ddiv
    rw [if_neg (ne_of_gt hpos)]
  · rw [div_le_one hpos, haA, haB]
    linarith

/-- Witness of C5: the triangle `(1,1), (2,1), (1,2)` inside the square with
corners `(0,0)` and `(4,4)`. -/
theorem C5_contained_polygon_witness :
    StrictConvexCCW [⟨0, 0⟩, ⟨4, 0⟩, ⟨4, 4⟩, ⟨0, 4⟩]
    ∧ StrictConvexCCW [⟨1, 1⟩, ⟨2, 1⟩, ⟨1, 2⟩]
    ∧ (∀ b ∈ ([⟨1, 1⟩, ⟨2, 1⟩, ⟨1, 2⟩] : List Point),
        InHull [⟨0, 0⟩, ⟨4, 0⟩, ⟨4, 4⟩, ⟨0, 4⟩] b)
    ∧ (ConvexHullIntersection (ConvexHull.new [⟨0, 0⟩, ⟨4, 0⟩, ⟨4, 4⟩, ⟨0, 4⟩] 1)
        (ConvexHull.new [⟨1, 1⟩, ⟨2, 1⟩, ⟨1, 2⟩] 2) {}).1 = true
    ∧ (ConvexHullIntersection (ConvexHull.new [⟨0, 0⟩, ⟨4, 0⟩, ⟨4, 4⟩, ⟨0, 4⟩] 1)
        (ConvexHull.new [⟨1, 1⟩, ⟨2, 1⟩, ⟨1, 2⟩] 2) {}).2.area_
        = (ConvexHull.new [⟨1, 1⟩, ⟨2, 1⟩, ⟨1, 2⟩] 2).area_
    ∧ (ConvexHull.new [⟨1, 1⟩, ⟨2, 1⟩, ⟨1, 2⟩] 2).area_
        / (ConvexHull.new [⟨0, 0⟩, ⟨4, 0⟩, ⟨4, 4⟩, ⟨0, 4⟩] 1).area_ ≤ 1 :=
  have hin : ∀ b ∈ ([⟨1, 1⟩, ⟨2, 1⟩, ⟨1, 2⟩] : List Point),
      InHull [⟨0, 0⟩, ⟨4, 0⟩, ⟨4, 4⟩, ⟨0, 4⟩] b := by
    intro b hb
    simp only [List.mem_cons, List.mem_singleton, List.not_mem_nil, or_false] at hb
    rcases hb with rfl | rfl | rfl
    · exact inHull_triangle _ ⟨0, 0⟩ ⟨4, 0⟩ ⟨4, 4⟩ _ (by simp) (by simp) (by simp)
        (by norm_num [cross]) (by norm_num [cross]) (by norm_num [cross])
    · exact inHull_triangle _ ⟨0, 0⟩ ⟨4, 0⟩ ⟨4, 4⟩ _ (by simp) (by simp) (by simp)
        (by norm_num [cross]) (by norm_num [cross]) (by norm_num [cross])
    · exact inHull_triangle _ ⟨0, 0⟩ ⟨4, 4⟩ ⟨0, 4⟩ _ (by simp) (by simp) (by simp)
        (by norm_num [cross]) (by norm_num [cross]) (by norm_num [cross])
  have h := C5_contained_polygon_area [⟨0, 0⟩, ⟨4, 0⟩, ⟨4, 4⟩, ⟨0, 4⟩] [⟨1, 1⟩, ⟨2, 1⟩, ⟨1, 2⟩]
    [⟨0, 0⟩, ⟨4, 0⟩, ⟨4, 4⟩, ⟨0, 4⟩] [⟨1, 1⟩, ⟨2, 1⟩, ⟨1, 2⟩] 1 2 {}
    (by decide!) (by decide!) (List.Perm.refl _) (List.Perm.refl _) hin
  ⟨by decide!, by decide!, hin, h.1, h.2.1, h.2.2.2.2⟩

/-- C11, evaluated on the list of the unit square with id 1 and the hull built
from the two vertices `(0,0),(1,0)`: the ids are distinct (1 and the default
0) and the two-vertex hull has area 0, but its intersection with the square
succeeds with a hull of area 1, so the ratio accumulated for it is the
non-finite quotient `1 / 0` and it is not kept; alone in the input it is kept. -/
theorem C11_two_point_hull_dropped :
    [unitHull, twoPointHull].map (fun h => h.id_) = [1, 0]
    ∧ twoPointHull.area_ = 0
    ∧ (ConvexHullIntersection twoPointHull unitHull {}).1 = true
    ∧ (ConvexHullIntersection twoPointHull unitHull {}).2.area_ = 1
    ∧ overlapRatio [unitHull, twoPointHull] twoPointHull = none
    ∧ twoPointHull ∉ FilterConvexHulls [unitHull, twoPointHull] []
    ∧ FilterConvexHulls [twoPointHull] [] = [twoPointHull] := by
  decide!

/-- C12: `IsPointInsideConvexHull(p,h)` is true exactly when, for every edge
`(s,e)` of `h`, the cross product `(e.x-s.x)*(p.y-s.y) - (e.y-s.y)*(p.x-s.x)` is
strictly positive; `IsPointLeftSideOfLine(p,(s,e))` is true exactly when that
cross product is `> 0`, so it is false for a point on the line. -/
theorem C12_inside_iff_left_of_every_edge (p : Point) (h : ConvexHull) (s e : Point) :
    (IsPointInsideConvexHull p h = true ↔
        ∀ l ∈ h.lines_,
          (l.end_.x - l.start.x) * (p.y - l.start.y) - (l.end_.y - l.start.y) * (p.x - l.start.x)
            > 0)
    ∧ (IsPointLeftSideOfLine p ⟨s, e⟩ = true ↔
        (e.x - s.x) * (p.y - s.y) - (e.y - s.y) * (p.x - s.x) > 0)
    ∧ ((e.x - s.x) * (p.y - s.y) - (e.y - s.y) * (p.x - s.x) = 0 →
        IsPointLeftSideOfLine p ⟨s, e⟩ = false) := by
  refine ⟨?_, ?_, ?_⟩
  · unfold IsPointInsideConvexHull
    rw [List.all_eq_true]
    constructor
    · intro hall l hl
      have := (isLeft_iff_line p l).1 (hall l hl)
      unfold cross at this
      exact this
    · intro hall l hl
      rw [isLeft_iff_line]
      unfold cross
      exact hall l hl
  · rw [isLeft_iff]
    unfold cross
    exact Iff.rfl
  · intro h0
    rw [Bool.eq_false_iff]
    intro ht
    rw [isLeft_iff] at ht
    unfold cross at ht
    rw [h0] at ht
    exact lt_irrefl _ ht

/-- C13: every stored vertex `v` of a hull constructed from at least 3 vertices
is the start of one edge of the hull and the end of another; on both the cross
product is 0, so `v` is not strictly left of them, and
`IsPointInsideConvexHull(v,h)` is false. -/
theorem C13_own_vertex_not_inside (vs : List Point) (i : Int) (v : Point)
    (h3 : 3 ≤ vs.length) (hv : v ∈ (ConvexHull.new vs i).vertices_) :
    (∃ l ∈ (ConvexHull.new vs i).lines_, l.start = v
        ∧ (l.end_.x - l.start.x) * (v.y - l.start.y) - (l.end_.y - l.start.y) * (v.x - l.start.x)
            = 0
        ∧ IsPointLeftSideOfLine v l = false)
    ∧ (∃ l ∈ (ConvexHull.new vs i).lines_, l.end_ = v
        ∧ (l.end_.x - l.start.x) * (v.y - l.start.y) - (l.end_.y - l.start.y) * (v.x - l.start.x)
            = 0
        ∧ IsPointLeftSideOfLine v l = false)
    ∧ IsPointInsideConvexHull v (ConvexHull.new vs i) = false := by
  rw [new_vertices vs i h3] at hv
  rw [new_lines vs i h3]
  obtain ⟨⟨l1, hl1, hs1, hf1⟩, ⟨l2, hl2, hs2, hf2⟩⟩ :=
    vertex_incident_edges (SortVertices vs) v hv
  refine ⟨⟨l1, hl1, hs1, ?_, hf1⟩, ⟨l2, hl2, hs2, ?_, hf2⟩, ?_⟩
  · rw [hs1]
    ring
  · rw [hs2]
    ring
  · unfold IsPointInsideConvexHull
    rw [new_lines vs i h3, List.all_eq_false]
    exact ⟨l1, hl1, by rw [hf1]; simp⟩

/-- Witness of C13: the corner `(0,0)` of the unit square. -/
theorem C13_own_vertex_witness :
    (⟨0, 0⟩ : Point) ∈ (ConvexHull.new [⟨0, 0⟩, ⟨1, 0⟩, ⟨1, 1⟩, ⟨0, 1⟩] 1).vertices_
    ∧ IsPointInsideConvexHull ⟨0, 0⟩ (ConvexHull.new [⟨0, 0⟩, ⟨1, 0⟩, ⟨1, 1⟩, ⟨0, 1⟩] 1) = false :=
  ⟨by decide!,
   (C13_own_vertex_not_inside [⟨0, 0⟩, ⟨1, 0⟩, ⟨1, 1⟩, ⟨0, 1⟩] 1 ⟨0, 0⟩ (by decide)
      (by decide!)).2.2⟩

/-- C14: for a vertex list of length 0, 1 or 2 and any supplied id, the
constructor returns the default hull: no stored vertices, no edges, area 0,
and the id at its default 0 instead of the supplied value. -/
theorem C14_few_vertices_empty_hull (vs : List Point) (i : Int) (h : vs.length < 3) :
    ConvexHull.new vs i = {}
    ∧ (ConvexHull.new vs i).vertices_ = []
    ∧ (ConvexHull.new vs i).lines_ = []
    ∧ (ConvexHull.new vs i).area_ = 0
    ∧ (ConvexHull.new vs i).id_ = 0 := by
  have hn : ¬ 3 ≤ vs.length := by omega
  have e : ConvexHull.new vs i = {} := by
    unfold ConvexHull.new
    rw [if_neg hn]
  rw [e]
  exact ⟨rfl, rfl, rfl, rfl, rfl⟩

/-- Witness of C14: the two vertices `(0,0),(1,0)` with the supplied id 7. -/
theorem C14_few_vertices_witness :
    ([⟨0, 0⟩, ⟨1, 0⟩] : List Point).length < 3
    ∧ ConvexHull.new [⟨0, 0⟩, ⟨1, 0⟩] 7 = {}
    ∧ (ConvexHull.new [⟨0, 0⟩, ⟨1, 0⟩] 7).id_ = 0 :=
  ⟨by decide, (C14_few_vertices_empty_hull [⟨0, 0⟩, ⟨1, 0⟩] 7 (by decide)).1,
   (C14_few_vertices_empty_hull [⟨0, 0⟩, ⟨1, 0⟩] 7 (by decide)).2.2.2.2⟩

/-- C15: a constructed hull has as many edges as stored vertices; its edge list
holds, for every index `k` of the stored vertices `v_0 .. v_(n-1)`, exactly one
directed edge from `v_k` to `v_((k+1) mod n)` and nothing else; in storage
order the closing edge from `v_(n-1)` to `v_0` comes first and the `n-1`
consecutive pairs follow. -/
theorem C15_edges_follow_vertices (vs : List Point) (i : Int) :
    (ConvexHull.new vs i).lines_.length = (ConvexHull.new vs i).vertices_.length
    ∧ (ConvexHull.new vs i).lines_.Perm (cyclicEdges (ConvexHull.new vs i).vertices_)
    ∧ (∀ e, e ∈ (ConvexHull.new vs i).lines_ ↔
        ∃ k, k < (ConvexHull.new vs i).vertices_.length
          ∧ e = ⟨(ConvexHull.new vs i).vertices_.getD k default,
                 (ConvexHull.new vs i).vertices_.getD
                   ((k + 1) % (ConvexHull.new vs i).vertices_.length) default⟩)
    ∧ cyclicEdges (ConvexHull.new vs i).vertices_ = (ConvexHull.new vs i).lines_.rotate 1
    ∧ (3 ≤ vs.length → (ConvexHull.new vs i).vertices_.length = vs.length)
    ∧ (vs.length < 3 → (ConvexHull.new vs i).vertices_.length = 0) := by
  refine ⟨?_, ?_, ?_, ?_, ?_, ?_⟩
  · rw [new_lines_eq, SetLines_length]
  · rw [new_lines_eq]
    exact SetLines_perm _
  · intro e
    rw [new_lines_eq, (SetLines_perm _).mem_iff, mem_cyclicEdges]
  · rw [new_lines_eq, cyclicEdges_eq_rotate]
  · intro h3
    rw [new_vertices vs i h3]
    exact (sortVertices_perm vs).length_eq
  · intro hlt
    have hn : ¬ 3 ≤ vs.length := by omega
    unfold ConvexHull.new
    rw [if_neg hn]
    rfl

/-- C16: for a vertex list of length at least 3, the stored vertices are a
permutation of the supplied ones and are in ascending order of the angle
`atan2(y - cy, x - cx)` (`Complex.arg` of `(x - cx) + (y - cy) i`), where
`(cx, cy)`, the centre the constructor computes, is the arithmetic mean of the
supplied vertices; this holds for every input order. -/
theorem C16_vertices_sorted_by_angle (vs : List Point) (i : Int) (h : 3 ≤ vs.length) :
    (ConvexHull.new vs i).vertices_.Perm vs
    ∧ vertexMean vs = ((centroid vs).x, (centroid vs).y)
    ∧ (ConvexHull.new vs i).vertices_.Pairwise (fun u v =>
        Complex.arg ⟨((u.x - (centroid vs).x : ℚ) : ℝ), ((u.y - (centroid vs).y : ℚ) : ℝ)⟩
          ≤ Complex.arg ⟨((v.x - (centroid vs).x : ℚ) : ℝ), ((v.y - (centroid vs).y : ℚ) : ℝ)⟩) := by
  have hm : vertexMean vs = ((centroid vs).x, (centroid vs).y) := vertexMean_eq vs
  refine ⟨?_, hm, ?_⟩
  · rw [new_vertices vs i h]
    exact sortVertices_perm vs
  · rw [new_vertices vs i h]
    haveI : IsTotal Point (fun u v =>
        vertexAngle (vertexMean vs).1 (vertexMean vs).2 u
          ≤ vertexAngle (vertexMean vs).1 (vertexMean vs).2 v) := ⟨fun u v => le_total _ _⟩
    haveI : IsTrans Point (fun u v =>
        vertexAngle (vertexMean vs).1 (vertexMean vs).2 u
          ≤ vertexAngle (vertexMean vs).1 (vertexMean vs).2 v) :=
      ⟨fun u v w h1 h2 => le_trans h1 h2⟩
    have hs := List.sorted_insertionSort (fun u v =>
        vertexAngle (vertexMean vs).1 (vertexMean vs).2 u
          ≤ vertexAngle (vertexMean vs).1 (vertexMean vs).2 v) vs
    unfold SortVertices
    refine List.Pairwise.imp ?_ hs
    intro u v huv
    rw [hm] at huv
    unfold vertexAngle at huv
    exact (atan2Key_le_iff _ _ _ _).1 huv

/-- Witness of C16: a shuffle of the corners of the unit square is stored
counter-clockwise from `(0,0)`, the corner of smallest angle seen from the
centre `(1/2, 1/2)`. -/
theorem C16_vertices_sorted_witness :
    3 ≤ ([⟨1, 1⟩, ⟨0, 0⟩, ⟨0, 1⟩, ⟨1, 0⟩] : List Point).length
    ∧ (ConvexHull.new [⟨1, 1⟩, ⟨0, 0⟩, ⟨0, 1⟩, ⟨1, 0⟩] 1).vertices_
        = [⟨0, 0⟩, ⟨1, 0⟩, ⟨1, 1⟩, ⟨0, 1⟩]
    ∧ centroid [⟨1, 1⟩, ⟨0, 0⟩, ⟨0, 1⟩, ⟨1, 0⟩] = ⟨1 / 2, 1 / 2⟩
    ∧ (ConvexHull.new [⟨1, 1⟩, ⟨0, 0⟩, ⟨0, 1⟩, ⟨1, 0⟩] 1).vertices_.Perm
        [⟨1, 1⟩, ⟨0, 0⟩, ⟨0, 1⟩, ⟨1, 0⟩] :=
  ⟨by decide, by decide!, by decide!,
   (C16_vertices_sorted_by_angle [⟨1, 1⟩, ⟨0, 0⟩, ⟨0, 1⟩, ⟨1, 0⟩] 1 (by decide)).1⟩

/-- C17: the vector `ConvexHullIntersection(A,B)` collects is the candidate list
of the specification (crossings of edge pairs, then vertices of `A` inside `B`,
then vertices of `B` inside `A`, nothing removed); the function reports no
intersection, leaving its output untouched, exactly when that list has fewer
than 3 elements, and otherwise succeeds with the hull constructed from the
list with id `-1`. -/
theorem C17_intersection_from_candidates (A B out : ConvexHull) :
    intersectionVertices A B = candidates A B
    ∧ ((ConvexHullIntersection A B out).1 = false ↔ (candidates A B).length < 3)
    ∧ ((candidates A B).length < 3 → ConvexHullIntersection A B out = (false, out))
    ∧ (3 ≤ (candidates A B).length →
        ConvexHullIntersection A B out = (true, ConvexHull.new (candidates A B) (-1))
        ∧ (ConvexHullIntersection A B out).2.id_ = -1) := by
  have hc : intersectionVertices A B = candidates A B := intersectionVertices_eq A B
  refine ⟨hc, ?_, ?_, ?_⟩
  · unfold ConvexHullIntersection
    simp only [hc]
    by_cases hlt : (candidates A B).length < 3
    · simp [hlt]
    · simp [hlt]
  · intro hlt
    unfold ConvexHullIntersection
    simp only [hc, hlt, if_true]
  · intro hge
    have hlt : ¬ (candidates A B).length < 3 := by omega
    have e : ConvexHullIntersection A B out = (true, ConvexHull.new (candidates A B) (-1)) := by
      unfold ConvexHullIntersection
      simp only [hc, hlt, if_false]
    rw [e]
    exact ⟨rfl, new_id _ _ hge⟩

/-- C18: for the three hulls with ids 1, 2, 3 all built from the unit square,
every hull accumulates the overlap ratio `2`, which is greater than 1, and is
dropped: the ratio is a sum of pairwise fractions without a cap. -/
theorem C18_ratio_exceeds_one :
    tripleUnit.map (fun h => h.id_) = [1, 2, 3]
    ∧ tripleUnit.map (fun h => overlapRatio tripleUnit h) = [some 2, some 2, some 2]
    ∧ (1 : ℚ) < 2
    ∧ FilterConvexHulls tripleUnit [] = []
    ∧ (∃ R ∈ tripleUnit, ∃ q : ℚ, overlapRatio tripleUnit R = some q ∧ 1 < q
        ∧ R ∉ FilterConvexHulls tripleUnit []) := by
  have h1 : tripleUnit.map (fun h => h.id_) = [1, 2, 3] := by decide!
  have h2 : tripleUnit.map (fun h => overlapRatio tripleUnit h) = [some 2, some 2, some 2] := by
    decide!
  have h3 : FilterConvexHulls tripleUnit [] = [] := by decide!
  refine ⟨h1, h2, by norm_num, h3, ConvexHull.new [⟨0, 0⟩, ⟨1, 0⟩, ⟨1, 1⟩, ⟨0, 1⟩] 1,
    by simp [tripleUnit], 2, by decide!, by norm_num, ?_⟩
  rw [h3]
  simp

/-- C19: whenever `LineSegmentIntersection` returns true, the reported point is
`A1 + uA*(A2-A1)` and also `B1 + uB*(B2-B1)`, with `0 ≤ uA ≤ 1` and
`0 ≤ uB ≤ 1`, so it lies on both segments; conversely, two non-parallel segments
(`d ≠ 0`) with a common point make it return true, and that point is the one
reported. -/
theorem C19_reported_point_on_both_segments (A1 A2 B1 B2 p : Point) :
    ((LineSegmentIntersection ⟨A1, A2⟩ ⟨B1, B2⟩ p).1 = true →
        0 ≤ segUA ⟨A1, A2⟩ ⟨B1, B2⟩ ∧ segUA ⟨A1, A2⟩ ⟨B1, B2⟩ ≤ 1
        ∧ 0 ≤ segUB ⟨A1, A2⟩ ⟨B1, B2⟩ ∧ segUB ⟨A1, A2⟩ ⟨B1, B2⟩ ≤ 1
        ∧ (LineSegmentIntersection ⟨A1, A2⟩ ⟨B1, B2⟩ p).2
            = ⟨A1.x + segUA ⟨A1, A2⟩ ⟨B1, B2⟩ * (A2.x - A1.x),
               A1.y + segUA ⟨A1, A2⟩ ⟨B1, B2⟩ * (A2.y - A1.y)⟩
        ∧ (LineSegmentIntersection ⟨A1, A2⟩ ⟨B1, B2⟩ p).2
            = ⟨B1.x + segUB ⟨A1, A2⟩ ⟨B1, B2⟩ * (B2.x - B1.x),
               B1.y + segUB ⟨A1, A2⟩ ⟨B1, B2⟩ * (B2.y - B1.y)⟩)
    ∧ ((B2.y - B1.y) * (A2.x - A1.x) - (B2.x - B1.x) * (A2.y - A1.y) ≠ 0 →
        ∀ s t : ℚ, 0 ≤ s → s ≤ 1 → 0 ≤ t → t ≤ 1 →
          A1.x + s * (A2.x - A1.x) = B1.x + t * (B2.x - B1.x) →
          A1.y + s * (A2.y - A1.y) = B1.y + t * (B2.y - B1.y) →
          (LineSegmentIntersection ⟨A1, A2⟩ ⟨B1, B2⟩ p).1 = true
          ∧ (LineSegmentIntersection ⟨A1, A2⟩ ⟨B1, B2⟩ p).2
              = ⟨A1.x + s * (A2.x - A1.x), A1.y + s * (A2.y - A1.y)⟩) := by
  constructor
  · intro h
    obtain ⟨hd, h1, h2, h3, h4⟩ := (lsi_true_iff _ _ p).1 h
    have hp := lsi_snd_of_true _ _ p h
    have hon := segment_point_on_second ⟨A1, A2⟩ ⟨B1, B2⟩ hd
    simp only at hon
    refine ⟨h1, h2, h3, h4, ?_, ?_⟩
    · rw [hp]
      rfl
    · rw [hp]
      unfold segPoint
      simp only [Point.mk.injEq]
      exact hon
  · intro hd s t hs0 hs1 ht0 ht1 hx hy
    have hd2 : segD ⟨A1, A2⟩ ⟨B1, B2⟩ ≠ 0 := hd
    obtain ⟨g1, g2⟩ := lsi_of_common_point ⟨A1, A2⟩ ⟨B1, B2⟩ hd2 s t
      ⟨A1.x + s * (A2.x - A1.x), A1.y + s * (A2.y - A1.y)⟩ p hs0 hs1 ht0 ht1 rfl rfl hx hy
    refine ⟨g1, ?_⟩
    rw [lsi_snd_of_true _ _ p g1, g2]

/-- C20: for an input list in which every hull has positive area, filtering the
output of the filter again returns it unchanged: every hull that was kept is
still kept, because its ratio over the remaining hulls is again at most 0.5. -/
theorem C20_filter_idempotent (hs : List ConvexHull) (hpos : ∀ h ∈ hs, 0 < h.area_) :
    FilterConvexHulls (FilterConvexHulls hs []) [] = FilterConvexHulls hs []
    ∧ ∀ R ∈ FilterConvexHulls hs [],
        ratioLeHalf (overlapRatio (FilterConvexHulls hs []) R) = true := by
  have hkeep : ∀ R ∈ FilterConvexHulls hs [],
      ratioLeHalf (ratioSpec (FilterConvexHulls hs []) R) = true := by
    intro R hR
    have hsub : (FilterConvexHulls hs []).Sublist hs := by
      rw [filterConvexHulls_eq hs]
      exact List.filter_sublist hs
    rw [filterConvexHulls_eq hs, List.mem_filter] at hR
    exact ratio_sublist hs _ hsub R (hpos R hR.1) hR.2
  constructor
  · rw [filterConvexHulls_eq (FilterConvexHulls hs [])]
    exact List.filter_eq_self.2 hkeep
  · intro R hR
    rw [overlapRatio_eq_ratioSpec]
    exact hkeep R hR

/-- Witness of C20: the three squares of the first end-to-end scenario, each of
area 1; the filter keeps the third, and filtering again keeps it. -/
theorem C20_filter_idempotent_witness :
    (∀ h ∈ scenarioThree, 0 < h.area_)
    ∧ FilterConvexHulls (FilterConvexHulls scenarioThree []) [] = FilterConvexHulls scenarioThree []
    ∧ (FilterConvexHulls scenarioThree []).map (fun h => h.id_) = [3] :=
  ⟨by decide!, (C20_filter_idempotent scenarioThree (by decide!)).1, by decide!⟩

/-! ## The claims that need exact arithmetic, evaluated over binary64 -/

/-- Counterexample to C4 over binary64: for the strictly convex triangle
`(2^27, 2^27), (2^27 + 3, 2^27 + 1), (2^27 + 1, 2^27 + 3)` used twice with ids 1
and 2, the computed area of each hull is 4, `ConvexHullIntersection` succeeds
with a hull of computed area 0, each hull accumulates the ratio 0 instead of 1,
and the filter keeps both. -/
theorem C4_binary64_counterexample :
    StrictConvexCCW ieee.farTriangle
    ∧ (ieee.ConvexHull.new ieee.farTriangle 1).area_ = 4
    ∧ (ieee.ConvexHullIntersection (ieee.ConvexHull.new ieee.farTriangle 1)
        (ieee.ConvexHull.new ieee.farTriangle 2) {}).1 = true
    ∧ (ieee.ConvexHullIntersection (ieee.ConvexHull.new ieee.farTriangle 1)
        (ieee.ConvexHull.new ieee.farTriangle 2) {}).2.area_ = 0
    ∧ ieee.overlapRatio
        [ieee.ConvexHull.new ieee.farTriangle 1, ieee.ConvexHull.new ieee.farTriangle 2]
        (ieee.ConvexHull.new ieee.farTriangle 1) = some 0
    ∧ ieee.overlapRatio
        [ieee.ConvexHull.new ieee.farTriangle 1, ieee.ConvexHull.new ieee.farTriangle 2]
        (ieee.ConvexHull.new ieee.farTriangle 2) = some 0
    ∧ (ieee.FilterConvexHulls
        [ieee.ConvexHull.new ieee.farTriangle 1, ieee.ConvexHull.new ieee.farTriangle 2] []).map
          (fun h => h.id_) = [1, 2] := by
  decide!

/-- Counterexample to C5 over binary64: the unit square with lower left corner
`(2^26, 2^26)` contains the triangle `innerTriangle`, both are strictly convex,
but the computed area of the square is 0, so the quotient
`area(B) / area(A)` is not finite and the test `<= 1` fails for it. -/
theorem C5_binary64_counterexample :
    StrictConvexCCW ieee.farSquare
    ∧ StrictConvexCCW ieee.innerTriangle
    ∧ (∀ b ∈ ieee.innerTriangle, InHull ieee.farSquare b)
    ∧ (ieee.ConvexHullIntersection (ieee.ConvexHull.new ieee.farSquare 1)
        (ieee.ConvexHull.new ieee.innerTriangle 2) {}).1 = true
    ∧ (ieee.ConvexHull.new ieee.farSquare 1).area_ = 0
    ∧ ieee.ddiv (ieee.ConvexHull.new ieee.innerTriangle 2).area_
        (ieee.ConvexHull.new ieee.farSquare 1).area_ = none := by
  refine ⟨by decide!, by decide!, ?_, by decide!, by decide!, by decide!⟩
  intro b hb
  simp only [ieee.innerTriangle, List.mem_cons, List.mem_singleton, List.not_mem_nil,
    or_false] at hb
  rcases hb with rfl | rfl | rfl
  · exact inHull_triangle _ ⟨67108864, 67108864⟩ ⟨67108865, 67108864⟩ ⟨67108865, 67108865⟩ _
      (by simp [ieee.farSquare]) (by simp [ieee.farSquare]) (by simp [ieee.farSquare])
      (by norm_num [cross]) (by norm_num [cross]) (by norm_num [cross])
  · exact inHull_triangle _ ⟨67108864, 67108864⟩ ⟨67108865, 67108864⟩ ⟨67108865, 67108865⟩ _
      (by simp [ieee.farSquare]) (by simp [ieee.farSquare]) (by simp [ieee.farSquare])
      (by norm_num [cross]) (by norm_num [cross]) (by norm_num [cross])
  · exact inHull_triangle _ ⟨67108864, 67108864⟩ ⟨67108865, 67108865⟩ ⟨67108864, 67108865⟩ _
      (by simp [ieee.farSquare]) (by simp [ieee.farSquare]) (by simp [ieee.farSquare])
      (by norm_num [cross]) (by norm_num [cross]) (by norm_num [cross])

/-- Counterexample to C6 over binary64: the triangles `(-1,-2), (0,0), (-1,2)`
and `(2^-60, 0), (2,-1), (2,1)` are strictly convex and share no point (the
first is in `x ≤ 0`, the second in `x ≥ 2^-60`), but three edge pairs are
reported as crossing at `(0,0)` and `ConvexHullIntersection` returns true. -/
theorem C6_binary64_counterexample :
    StrictConvexCCW ieee.leftTriangle
    ∧ StrictConvexCCW ieee.rightTriangle
    ∧ (∀ p, InHull ieee.leftTriangle p → InHull ieee.rightTriangle p → False)
    ∧ ieee.intersectionVertices (ieee.ConvexHull.new ieee.leftTriangle 1)
        (ieee.ConvexHull.new ieee.rightTriangle 2) = [⟨0, 0⟩, ⟨0, 0⟩, ⟨0, 0⟩]
    ∧ (ieee.ConvexHullIntersection (ieee.ConvexHull.new ieee.leftTriangle 1)
        (ieee.ConvexHull.new ieee.rightTriangle 2) {}).1 = true := by
  refine ⟨by decide!, by decide!, ?_, by decide!, by decide!⟩
  intro p h1 h2
  have hle := inHull_x_le ieee.leftTriangle 0 (by
    intro v hv
    simp only [ieee.leftTriangle, List.mem_cons, List.mem_singleton, List.not_mem_nil,
      or_false] at hv
    rcases hv with rfl | rfl | rfl <;> norm_num) p h1
  have hge := inHull_x_ge ieee.rightTriangle (1 / 1152921504606846976) (by
    intro v hv
    simp only [ieee.rightTriangle, List.mem_cons, List.mem_singleton, List.not_mem_nil,
      or_false] at hv
    rcases hv with rfl | rfl | rfl <;> norm_num) p h2
  have : (0 : ℚ) < 1 / 1152921504606846976 := by norm_num
  linarith

/-- Counterexample to C7 over binary64: the triangle
`(1.8, 2.7), (-1.4, 1.7), (2.6, 0.7)` is strictly convex; supplied in this order
the hull gets the area `3.6000000000000005`, with the last two vertices
exchanged it gets `3.5999999999999996`: the rounded mean decides whether the
vertex `(-1.4, 1.7)` is stored first or last. -/
theorem C7_binary64_counterexample :
    StrictConvexCCW ieee.decimalTriangle
    ∧ ieee.decimalTriangleSwapped.Perm ieee.decimalTriangle
    ∧ (ieee.ConvexHull.new ieee.decimalTriangle 1).vertices_.head?
        = some ⟨ieee.rnd (-14 / 10), ieee.rnd (17 / 10)⟩
    ∧ (ieee.ConvexHull.new ieee.decimalTriangleSwapped 1).vertices_.getLast?
        = some ⟨ieee.rnd (-14 / 10), ieee.rnd (17 / 10)⟩
    ∧ (ieee.ConvexHull.new ieee.decimalTriangle 1).area_
        = 4053239664633447 / 1125899906842624
    ∧ (ieee.ConvexHull.new ieee.decimalTriangleSwapped 1).area_
        = 2026619832316723 / 562949953421312
    ∧ (ieee.ConvexHull.new ieee.decimalTriangleSwapped 1).area_
        ≠ (ieee.ConvexHull.new ieee.decimalTriangle 1).area_ := by
  refine ⟨by decide!, ?_, by decide!, by decide!, by decide!, by decide!, by decide!⟩
  unfold ieee.decimalTriangleSwapped ieee.decimalTriangle
  exact List.Perm.cons _ (List.Perm.swap _ _ _)

/-- Counterexample to C9 over binary64: the segments from `(1.6, -3)` and from
`(-1.6, 2.7)` to the common endpoint `(-0.3, 1.3)` are not parallel (`d ≠ 0`,
exactly and as computed), but the computed `uA` is `1 + 2^-52`, greater than 1,
and `LineSegmentIntersection` returns false and leaves its output unchanged;
over exact arithmetic it returns true with the common endpoint. -/
theorem C9_binary64_counterexample :
    ieee.sharedLineA.end_ = ieee.sharedLineB.end_
    ∧ utils.segD ieee.sharedLineA ieee.sharedLineB ≠ 0
    ∧ ieee.segD ieee.sharedLineA ieee.sharedLineB ≠ 0
    ∧ ieee.segUA ieee.sharedLineA ieee.sharedLineB = 1 + 1 / 4503599627370496
    ∧ ieee.LineSegmentIntersection ieee.sharedLineA ieee.sharedLineB ⟨7, 7⟩ = (false, ⟨7, 7⟩)
    ∧ utils.LineSegmentIntersection ieee.sharedLineA ieee.sharedLineB ⟨7, 7⟩
        = (true, ieee.sharedLineA.end_) := by
  decide!
